import Mathlib

/-!
# Controller / message scheduling core of `ncc`

A shallow embedding of the scheduling core of the `ncc` game framework:

* `elements/tree.h`: `is_node`, `depth_first_search`, `transverse_depth_first`, `remove_if`;
* `controller/controller_interface.h`: `abstract_interface`;
* `controller/message.h`, `controller/message_manager.h`, `message_manager.cpp`;
* `controller/controller_manager.h`, `controller_manager.cpp`: `manager`.

Modelling conventions.

* A `boost::shared_ptr` to a node is a value of `node_type`: either `null` or a node
  carrying its own data and the ordered list of its children (`std::list<node_type>`).
* A raw `abstract_interface*` (the `from` field of a message) is an `Option Nat`: `none`
  is the null pointer, `some a` the address of a controller, identified with its id value.
  Destroying the pointee does not change a raw pointer.
* Visitors and predicates of the tree algorithms are stateful function objects: they are
  functions threading an explicit state.
* The virtual methods `control()` and `handle_message()` are user code.  They are given by a
  `behaviour`, a parameter of every scheduling function.  A callback acts on the scheduler
  through the sanctioned interface only: its return value, `remove_self()`, `set_name()` on
  itself and the `send_message*` entry points; it does not attach or detach nodes.
* Every invocation of a callback is recorded in a log of `event`s, which is what the
  statements about "invoking" a callback speak about.
* The methods `add_child` and `remove_child` of `is_node` are also given on a store of node
  objects, where a pointer is an address: that is where the identity of a node, its parent
  back-reference and the sharing of a node by two child lists can be spoken about.  On the
  value of a tree, `add_child` compares two pointers by the id of the controllers.
* The virtual methods `clone_prototype()` and `initialize()` are user code as well, given by
  a `lifecycle`; their invocations are recorded as `lifecycle_call`s.  A function that can
  throw returns an `Except`.
* The static counter `previous_id` of `id_type` is explicit: a function that constructs,
  copies or assigns an `id_type` takes the counter and returns it advanced.  The functions
  that look a controller up by id are given on the value the comparison is made with;
  `remove_controller_id_type` is the call with the copies of its argument it makes.
* An iterator into a child list is a position in the list.
-/

set_option linter.dupNamespace false

namespace ncc

/-- The type `parameter` is `boost::any` in `elements/parameter.h`: a payload the core never
inspects. -/
abbrev parameter := String

/-- The type `parameter_list` is `std::vector<boost::any>`. -/
abbrev parameter_list := List parameter

namespace tree

/-- A `node_type` is a `boost::shared_ptr<data_type>` of `is_node<data_type>`: the null
pointer, or a node with its data and its `child_list`. -/
inductive node_type (α : Type) where
  | null : node_type α
  | node (data : α) (child_list : List (node_type α)) : node_type α

/-- The children of a node, `is_node::children()`; a null pointer has none. -/
def node_type.children {α : Type} : node_type α → List (node_type α)
  | .null => []
  | .node _ ch => ch

/-- The data a pointer refers to, `none` for the null pointer. -/
def node_type.data? {α : Type} : node_type α → Option α
  | .null => none
  | .node d _ => some d

/-- The test `if(ptr)` on a shared pointer. -/
def node_type.is_null {α : Type} : node_type α → Bool
  | .null => true
  | .node _ _ => false

mutual
/-- The function `hidden::depth_first_search` (reached through the inline wrapper of the
same name): a null root gives null; a root satisfying the predicate is returned; otherwise
the children are searched in order and the first non-null result is returned. -/
def depth_first_search {α σ : Type} (predicate : σ → node_type α → σ × Bool) :
    σ → node_type α → σ × node_type α
  | s, .null => (s, .null)
  | s, .node d ch =>
    match predicate s (.node d ch) with
    | (s1, true) => (s1, .node d ch)
    | (s1, false) => depth_first_search_children predicate s1 ch
/-- The `for` loop over the children in `hidden::depth_first_search`. -/
def depth_first_search_children {α σ : Type} (predicate : σ → node_type α → σ × Bool) :
    σ → List (node_type α) → σ × node_type α
  | s, [] => (s, .null)
  | s, child :: rest =>
    match depth_first_search predicate s child with
    | (s1, .null) => depth_first_search_children predicate s1 rest
    | (s1, .node d ch) => (s1, .node d ch)
end

mutual
/-- The function `hidden::transverse_depth_first`: a null root is skipped; the visitor is
applied to the root (it may update the node it is given); when it returns `false` the
children are not visited, otherwise they are visited in order. -/
def transverse_depth_first {α σ : Type} (visit : σ → α → σ × α × Bool) :
    σ → node_type α → σ × node_type α
  | s, .null => (s, .null)
  | s, .node d ch =>
    match visit s d with
    | (s1, d1, false) => (s1, .node d1 ch)
    | (s1, d1, true) =>
      let r := transverse_children visit s1 ch
      (r.1, .node d1 r.2)
/-- The `for` loop over the children in `hidden::transverse_depth_first`. -/
def transverse_children {α σ : Type} (visit : σ → α → σ × α × Bool) :
    σ → List (node_type α) → σ × List (node_type α)
  | s, [] => (s, [])
  | s, child :: rest =>
    let r1 := transverse_depth_first visit s child
    let r2 := transverse_children visit r1.1 rest
    (r2.1, r1.2 :: r2.2)
end

mutual
/-- The function `hidden::remove_if`: a null root is skipped; otherwise each child of the
root is tested: a child satisfying `should_remove` is erased from the child list, any other
child is processed recursively and kept. The root itself is never tested. -/
def remove_if {α σ : Type} (should_remove : σ → node_type α → σ × Bool) :
    σ → node_type α → σ × node_type α
  | s, .null => (s, .null)
  | s, .node d ch =>
    let r := remove_if_children should_remove s ch
    (r.1, .node d r.2)
/-- The `for` loop over the children in `hidden::remove_if`. -/
def remove_if_children {α σ : Type} (should_remove : σ → node_type α → σ × Bool) :
    σ → List (node_type α) → σ × List (node_type α)
  | s, [] => (s, [])
  | s, child :: rest =>
    match should_remove s child with
    | (s1, true) => remove_if_children should_remove s1 rest
    | (s1, false) =>
      let r1 := remove_if should_remove s1 child
      let r2 := remove_if_children should_remove r1.1 rest
      (r2.1, r1.2 :: r2.2)
end

mutual
/-- Pre-order enumeration of the pointers of a tree (root first, then the children in
insertion order, recursively), each with the data of its proper ancestors, outermost first.
A null pointer is listed with `none`. -/
def preorder {α : Type} (ancestors : List α) : node_type α → List (List α × Option α)
  | .null => [(ancestors, none)]
  | .node d ch => (ancestors, some d) :: preorder_children (ancestors ++ [d]) ch
/-- Pre-order enumeration of a list of sibling subtrees. -/
def preorder_children {α : Type} (ancestors : List α) :
    List (node_type α) → List (List α × Option α)
  | [] => []
  | child :: rest => preorder ancestors child ++ preorder_children ancestors rest
end

mutual
/-- The nodes of a tree in pre-order (null pointers are not nodes). -/
def nodes {α : Type} : node_type α → List α
  | .null => []
  | .node d ch => d :: nodes_children ch
/-- The nodes of a list of sibling subtrees, in pre-order. -/
def nodes_children {α : Type} : List (node_type α) → List α
  | [] => []
  | child :: rest => nodes child ++ nodes_children rest
end

mutual
/-- Two trees of the same shape whose nodes at the same place are related by `R`. -/
def related {α : Type} (R : α → α → Prop) : node_type α → node_type α → Prop
  | .null, t => t = .null
  | .node d ch, t => ∃ d1 ch1, t = .node d1 ch1 ∧ R d d1 ∧ related_children R ch ch1
/-- Two lists of sibling subtrees of the same shape, related node by node. -/
def related_children {α : Type} (R : α → α → Prop) :
    List (node_type α) → List (node_type α) → Prop
  | [], l => l = []
  | c :: cs, l => ∃ c1 cs1, l = c1 :: cs1 ∧ related R c c1 ∧ related_children R cs cs1
end

end tree

namespace controller

/-- The fields of `abstract_interface`: the id of its `id_type` base, `name_holder`,
`alive`, and the results of the virtual `get_type()` and `get_type_id()`, constant for a
concrete class. The children are held by the tree node. -/
structure abstract_interface where
  value : Nat
  name_holder : String
  alive : Bool
  type : String
  type_id : Int
deriving DecidableEq, Repr

/-- The method `id_type::get_id`. -/
def abstract_interface.get_id (c : abstract_interface) : Nat := c.value

/-- The method `get_name`. -/
def abstract_interface.get_name (c : abstract_interface) : String := c.name_holder

/-- The method `set_name`. -/
def abstract_interface.set_name (c : abstract_interface) (value : String) :
    abstract_interface :=
  { c with name_holder := value }

/-- The method `get_type`. -/
def abstract_interface.get_type (c : abstract_interface) : String := c.type

/-- The method `is_alive`. -/
def abstract_interface.is_alive (c : abstract_interface) : Bool := c.alive

/-- The method `remove_self`: `alive = false`. -/
def abstract_interface.remove_self (c : abstract_interface) : abstract_interface :=
  { c with alive := false }

/-- The type `ptr` is `boost::shared_ptr<abstract_interface>`. -/
abbrev ptr := tree.node_type abstract_interface

/-- The function `controller_has_name` of `controller_manager.cpp`. -/
def controller_has_name (cntr : abstract_interface) (name : String) : Bool :=
  cntr.get_name.length != 0 && cntr.get_name == name

/-- The function `controller_has_id`, as a function of the value `id` its by-value
parameter holds when it is compared: a copy of an `id_type` holds a fresh value, see
`id_type.copy`. -/
def controller_has_id (controller : abstract_interface) (id : Nat) : Bool :=
  controller.get_id == id

/-- The function `controller_has_type`. -/
def controller_has_type (cntr : abstract_interface) (type : String) : Bool :=
  cntr.get_type == type

/-- The function `is_controller`: equality of two shared pointers, the second of which may
be null. -/
def is_controller (controller_1 : abstract_interface) (controller_2 : Option Nat) : Bool :=
  controller_2 == some controller_1.value

/-- The function `returns_true`. -/
def returns_true (_controller : abstract_interface) : Bool := true

namespace message

/-- The private `enum {immediate, conditional}` of `parcel`. -/
inductive parcel_type where
  | immediate
  | conditional
deriving DecidableEq, Repr

/-- The class `parcel` of `controller/message.h`. The `condition::ptr` is the handle of a
condition object (`none` for a null pointer); what its virtual `send()` answers is given
by the behaviour of the step. -/
structure parcel where
  message : parameter
  parameters : parameter_list
  type : parcel_type
  condition : Option Nat
deriving DecidableEq, Repr

/-- The constructor `parcel(const parameter& msg)`. -/
def parcel.of_message (msg : parameter) : parcel :=
  { message := msg, parameters := [], type := .immediate, condition := none }

/-- The constructor `parcel(const parameter& msg, const parameter_list& params)`. -/
def parcel.of_message_params (msg : parameter) (params : parameter_list) : parcel :=
  { message := msg, parameters := params, type := .immediate, condition := none }

/-- The constructor `parcel(const parameter& msg, condition::ptr& cond)`. -/
def parcel.of_message_condition (msg : parameter) (cond : Option Nat) : parcel :=
  { message := msg, parameters := [], type := .conditional, condition := cond }

/-- Modelled from the spec: the body of `parcel::send()` is declared in
`controller/message.h` but defined in no source file present. The spec gives every message
a readiness condition, "default: always ready; optionally a time-delay condition, or any
custom boolean predicate": an immediate parcel is ready, a conditional one is ready when
its condition object answers `true` (`conditions` gives that answer for each handle). -/
def parcel.send (conditions : Nat → Bool) (p : parcel) : Bool :=
  match p.type, p.condition with
  | .immediate, _ => true
  | .conditional, some k => conditions k
  | .conditional, none => true

/-- The recipient callbacks `boost::function<bool (ptr)>` that `manager::send_message*`
binds: a closure is represented by the function it binds and the bound argument. -/
inductive recipient_predicate where
  | controller_has_name (name : String)
  | is_controller (target : Option Nat)
  | controller_has_type (type : String)
  | returns_true
deriving DecidableEq, Repr

/-- Calling a recipient callback on a (non-null) controller. -/
def recipient_predicate.call : recipient_predicate → abstract_interface → Bool
  | .controller_has_name name, c => ncc.controller.controller_has_name c name
  | .is_controller target, c => ncc.controller.is_controller c target
  | .controller_has_type type, c => ncc.controller.controller_has_type c type
  | .returns_true, c => ncc.controller.returns_true c

/-- The struct `message` of `controller/message_manager.h`; `from_` is its field `from`. -/
structure message where
  is_recipient : recipient_predicate
  from_ : Option Nat
  message_parcel : parcel
  sent : Bool
deriving DecidableEq, Repr

/-- The constructor `message::message(sender, is_recipient_callback, msg_parcel)`. -/
def message.create (sender : Option Nat) (is_recipient_callback : recipient_predicate)
    (msg_parcel : parcel) : message :=
  { is_recipient := is_recipient_callback, from_ := sender, message_parcel := msg_parcel,
    sent := false }

/-- The class `message::manager`: the list of queued messages. -/
structure manager where
  messages : List message
deriving DecidableEq, Repr

/-- The method `manager::add_message`: a non-null message is pushed at the back. -/
def manager.add_message (q : manager) (msg : Option message) : manager :=
  match msg with
  | none => q
  | some m => { messages := q.messages ++ [m] }

end message

/-- One recorded invocation of a virtual method of a controller. `control c` is a call of
`control()` on the controller with id `c`; `handle_message r i msg params s` is a call of
`handle_message(msg, params, *s)` on the controller with id `r`, made for the message at
position `i` of the queue. -/
inductive event where
  | control (controller : Nat)
  | handle_message (recipient : Nat) (index : Nat) (msg : parameter)
      (params : parameter_list) (sender : Nat)
deriving DecidableEq, Repr

/-- The arguments of one `new message::message(sender, callback, parcel)` a callback makes
through a `send_message*` entry point. -/
structure send_request where
  sender : Option Nat
  is_recipient : message.recipient_predicate
  msg_parcel : message.parcel
deriving DecidableEq, Repr

/-- What one invocation of a callback does to the scheduler: whether it calls
`remove_self()`, whether it calls `set_name` on itself, and the messages it sends. -/
structure effects where
  remove_self : Bool
  set_name : Option String
  sends : List send_request
deriving DecidableEq, Repr

/-- The user code of a step: the virtual `control()` (its return value and effects), the
virtual `handle_message(message, params, from)`, both as functions of the controller they
run on, and the answers of the condition objects. -/
structure behaviour where
  control : abstract_interface → Bool × effects
  handle_message : abstract_interface → parameter → parameter_list → Nat → effects
  conditions : Nat → Bool

/-- The state a callback changes on its own controller. -/
def abstract_interface.apply (c : abstract_interface) (e : effects) : abstract_interface :=
  let c1 := match e.set_name with
    | some n => c.set_name n
    | none => c
  if e.remove_self then c1.remove_self else c1

/-- The state threaded through a traversal of a step: the message manager and the log. -/
structure pass_state where
  message_manager : message.manager
  log : List event
deriving DecidableEq, Repr

/-- Record an invocation and enqueue what the callback sends. -/
def pass_state.invoke (s : pass_state) (ev : event) (e : effects) : pass_state :=
  { message_manager :=
      e.sends.foldl
        (fun q r => q.add_message (some (message.message.create r.sender r.is_recipient
          r.msg_parcel)))
        s.message_manager,
    log := s.log ++ [ev] }

namespace message

/-- The inline function `handle_message` of `message_manager.cpp`: the virtual
`handle_message` of the recipient is called when the sender pointer is not null. -/
def handle_message (B : behaviour) (s : pass_state × abstract_interface) (index : Nat)
    (sender : Option Nat) (msg : parameter) (params : parameter_list) :
    pass_state × abstract_interface :=
  match sender with
  | none => s
  | some f =>
    let e := B.handle_message s.2 msg params f
    (s.1.invoke (event.handle_message s.2.value index msg params f) e, s.2.apply e)

/-- The function `send_message_to(recipient, msg)`: `msg` points to the queue entry at
position `index`. When the controller is a recipient the message is handed to it and the
entry is flagged `sent`. -/
def send_message_to (B : behaviour) (s : pass_state × abstract_interface) (index : Nat) :
    pass_state × abstract_interface :=
  match s.1.message_manager.messages[index]? with
  | none => s
  | some m =>
    if m.is_recipient.call s.2 then
      let s1 := handle_message B s index m.from_ m.message_parcel.message
        m.message_parcel.parameters
      ({ s1.1 with
          message_manager :=
            { messages := s1.1.message_manager.messages.set index { m with sent := true } } },
        s1.2)
    else s

/-- The visitor `send_message(controller, messages)`: every ready message is offered to the
controller, in order; the traversal always continues. -/
def send_message (B : behaviour) (ready_messages : List Nat) (s : pass_state)
    (c : abstract_interface) : pass_state × abstract_interface × Bool :=
  let r := ready_messages.foldl (send_message_to B) (s, c)
  (r.1, r.2, true)

/-- The predicate `message_sent`: a message with a null sender counts as sent. -/
def message_sent (msg : message) : Bool :=
  match msg.from_ with
  | none => true
  | some _ => msg.sent

/-- The loop of `add_ready_message` over the queue: the positions of the messages whose
parcel answers `send()`. -/
def ready_messages (conditions : Nat → Bool) (messages : List message) : List Nat :=
  (List.range messages.length).filter
    (fun i => match messages[i]? with
      | some m => m.message_parcel.send conditions
      | none => false)

/-- The method `manager::send_messages(root)`. -/
def send_messages (B : behaviour) (s : pass_state) (root : ptr) : pass_state × ptr :=
  if s.message_manager.messages.isEmpty then (s, root)
  else
    let ready := ready_messages B.conditions s.message_manager.messages
    if ready.isEmpty then (s, root)
    else
      let r := tree.transverse_depth_first (send_message B ready) s root
      ({ r.1 with
          message_manager :=
            { messages := r.1.message_manager.messages.filter (fun m => !message_sent m) } },
        r.2)

end message

/-- The class `controller::manager`: the root of the controller tree, the prototype
catalog and the message manager. -/
structure manager where
  root_controller : ptr
  prototypes : List (String × ptr)
  message_manager : message.manager

/-- The static method `manager::remove_controller(ptr&)` on a non-null controller. -/
def remove_controller (controller : abstract_interface) : abstract_interface :=
  controller.remove_self

/-- The visitor `remove_controller_by_name`. -/
def remove_controller_by_name (name : String) (s : Unit) (controller : abstract_interface) :
    Unit × abstract_interface × Bool :=
  if controller.get_name.length != 0 && controller.get_name == name then
    (s, remove_controller controller, false)
  else (s, controller, true)

/-- The visitor `remove_controller_by_id`, as a function of the value `id` the comparison
`controller->get_id() == id` is made with. In a call of `manager::remove_controller(id_type)`
that value is the one of a copy of the caller's `id_type`, not the caller's: the call is
`remove_controller_id_type`, the visitor with its copies `remove_controller_by_id_copy`. -/
def remove_controller_by_id (id : Nat) (s : Unit) (controller : abstract_interface) :
    Unit × abstract_interface × Bool :=
  if controller.get_id == id then (s, remove_controller controller, false)
  else (s, controller, true)

/-- The method `manager::remove_controller(const std::string& name)`. -/
def manager.remove_controller_name (m : manager) (name : String) : manager :=
  { m with
    root_controller :=
      (tree.transverse_depth_first (remove_controller_by_name name) () m.root_controller).2 }

/-- The traversal of `manager::remove_controller(id_type id)`, as a function of the value
`id` the comparisons are made with. It is not the call a user makes with the `id_type` of a
controller, which is `remove_controller_id_type`: there the value compared with is that of a
copy, and no controller is flagged. -/
def manager.remove_controller_id (m : manager) (id : Nat) : manager :=
  { m with
    root_controller :=
      (tree.transverse_depth_first (remove_controller_by_id id) () m.root_controller).2 }

/-- A stateless predicate on the controller a non-null pointer refers to, as a predicate
object of the tree algorithms. -/
def on_controller (p : abstract_interface → Bool) (s : Unit) (n : ptr) : Unit × Bool :=
  (s, match n with
    | .null => false
    | .node c _ => p c)

/-- The method `manager::find_controller(const std::string& name)`. -/
def manager.find_controller_name (m : manager) (name : String) : ptr :=
  (tree.depth_first_search (on_controller (fun c => controller_has_name c name)) ()
    m.root_controller).2

/-- The search of `manager::find_controller(const id_type& controller_id)`, as a function
of the value the comparisons are made with; it serves to locate the node with a given id.
In a call a user makes, `controller_has_id` compares with a copy of `controller_id`, which
holds a fresh value, so that the handle returned is empty. -/
def manager.find_controller_id (m : manager) (controller_id : Nat) : ptr :=
  (tree.depth_first_search (on_controller (fun c => controller_has_id c controller_id)) ()
    m.root_controller).2

/-- The visitor `control`: the virtual `control()` of the controller is invoked. -/
def control (B : behaviour) (s : pass_state) (controller : abstract_interface) :
    pass_state × abstract_interface × Bool :=
  let r := B.control controller
  (s.invoke (event.control controller.value) r.2, controller.apply r.2, r.1)

/-- The predicate `should_remove`: a null pointer, or a controller that is not alive. -/
def should_remove (s : Unit) (controller : ptr) : Unit × Bool :=
  match controller with
  | .null => (s, true)
  | .node c _ => (s, !c.is_alive)

/-- First phase of `manager::step`: `tree::transverse_depth_first(root_controller, control)`,
started with an empty log. -/
def manager.step_control (B : behaviour) (m : manager) : pass_state × ptr :=
  tree.transverse_depth_first (control B) { message_manager := m.message_manager, log := [] }
    m.root_controller

/-- Second phase of `manager::step`: `message_manager.send_messages(root_controller)`. -/
def manager.step_deliver (B : behaviour) (m : manager) : pass_state × ptr :=
  message.send_messages B (m.step_control B).1 (m.step_control B).2

/-- The method `manager::step`: control, delivery, then
`tree::remove_if(root_controller, should_remove)`. The log of the invocations made is
returned with the new manager. -/
def manager.step (B : behaviour) (m : manager) : manager × List event :=
  ({ m with
      root_controller := (tree.remove_if should_remove () (m.step_deliver B).2).2,
      message_manager := (m.step_deliver B).1.message_manager },
    (m.step_deliver B).1.log)

/-- The ids of the controllers whose `control()` a log records, in order of invocation. -/
def control_calls (log : List event) : List Nat :=
  log.filterMap (fun e => match e with
    | .control c => some c
    | .handle_message _ _ _ _ _ => none)

/-- The id of a controller of the pre-order enumeration when `control()` returned `true` on
every one of its proper ancestors, and nothing for the others and for null pointers. -/
def control_reached (B : behaviour)
    (p : List abstract_interface × Option abstract_interface) : Option Nat :=
  match p.2 with
  | some c => if p.1.all (fun a => (B.control a).1) then some c.value else none
  | none => none

end controller

end ncc

namespace ncc

namespace tree

/-- A predicate on what a pointer refers to (its own state), as a predicate object that
records every pointer it is evaluated on. -/
def logged {α : Type} (p : Option α → Bool) (log : List (Option α)) (n : node_type α) :
    List (Option α) × Bool :=
  (log ++ [n.data?], p n.data?)

/-- An entry of the pre-order enumeration is the root, or neither one of its ancestors
strictly below the root nor itself satisfies `p`. -/
def survives {α : Type} (p : Option α → Bool) (x : List α × Option α) : Bool :=
  x.1.isEmpty || ((x.1.drop 1).all (fun a => !p (some a)) && !p x.2)

/-- An entry of the pre-order enumeration is not the root and none of its ancestors
strictly below the root satisfies `p`. -/
def tested {α : Type} (p : Option α → Bool) (x : List α × Option α) : Bool :=
  !x.1.isEmpty && (x.1.drop 1).all (fun a => !p (some a))

end tree

namespace controller

/-- The predicate `should_remove` as a predicate on what the pointer refers to. -/
def flagged_dead (o : Option abstract_interface) : Bool :=
  match o with
  | none => true
  | some c => !c.is_alive

end controller

end ncc

namespace ncc.controller

/-- What a callback can do to the state of its own controller: the id and the type are
kept and a dead controller stays dead. -/
def evolves (c c1 : abstract_interface) : Prop :=
  c1.value = c.value ∧ c1.type = c.type ∧ c1.type_id = c.type_id ∧
    (c.alive = false → c1.alive = false)

/-- The behaviour renames no controller: no callback calls `set_name`. -/
def behaviour.renames_nothing (B : behaviour) : Prop :=
  (∀ c, (B.control c).2.set_name = none) ∧
    ∀ c msg params sender, (B.handle_message c msg params sender).set_name = none

/-- Successive calls of `manager::step`, one for each behaviour of the list. -/
def manager.steps : List behaviour → manager → manager
  | [], m => m
  | B :: rest, m => manager.steps rest (m.step B).1

/-- The ids of the controllers of a tree, in pre-order. -/
def ids (t : ptr) : List Nat := (tree.nodes t).map (fun c => c.value)

end ncc.controller

namespace ncc.controller

/-! Example data: a root with one child named "e1" that calls `remove_self()` from its
`control()`. -/

/-- A root controller. -/
def c3_root : abstract_interface := ⟨0, "", true, "root", 0⟩
/-- A controller of type "enemy" named "e1". -/
def c3_child : abstract_interface := ⟨1, "e1", true, "enemy", 1⟩
/-- The manager whose root has the one child `c3_child`. -/
def c3_manager : manager := ⟨.node c3_root [.node c3_child []], [], ⟨[]⟩⟩
/-- Every `control()` returns `true`; the controller with id 1 calls `remove_self()`. -/
def c3_behaviour : behaviour :=
  { control := fun c => (true, ⟨c.value == 1, none, []⟩),
    handle_message := fun _ _ _ _ => ⟨false, none, []⟩,
    conditions := fun _ => true }

end ncc.controller

namespace ncc.controller

/-- A controller named "e1" whose liveness flag is already false. -/
def c2_dead : abstract_interface := ⟨1, "e1", false, "enemy", 1⟩
/-- The manager whose root has the one, dead, child `c2_dead`. -/
def c2_manager : manager := ⟨.node c3_root [.node c2_dead []], [], ⟨[]⟩⟩
/-- Every `control()` returns `true` and no callback has an effect. -/
def c2_behaviour : behaviour :=
  { control := fun _ => (true, ⟨false, none, []⟩),
    handle_message := fun _ _ _ _ => ⟨false, none, []⟩,
    conditions := fun _ => true }

end ncc.controller

namespace ncc.controller

/-- What a callback that does not call `set_name` can do to its own controller. -/
def evolves_named (c c1 : abstract_interface) : Prop :=
  evolves c c1 ∧ c1.name_holder = c.name_holder

mutual
/-- Every controller of the tree named `n` is dead or lies below a dead controller
named `n`. -/
def covered (n : String) : ptr → Prop
  | .null => True
  | .node c ch =>
    (c.name_holder = n ∧ c.alive = false) ∨ (c.name_holder ≠ n ∧ covered_children n ch)
/-- Every tree of the list is `covered`. -/
def covered_children (n : String) : List ptr → Prop
  | [] => True
  | child :: rest => covered n child ∧ covered_children n rest
end

end ncc.controller

namespace ncc.controller

/-- A second controller named "e1", held below `c3_child`. -/
def c10_inner : abstract_interface := ⟨2, "e1", true, "enemy", 1⟩
/-- A controller with another name. -/
def c10_other : abstract_interface := ⟨3, "p1", true, "player", 2⟩
/-- An unnamed root over a controller named "e1" that has a child named "e1", and a
controller named "p1". -/
def c10_manager : manager :=
  ⟨.node c3_root [.node c3_child [.node c10_inner []], .node c10_other []], [], ⟨[]⟩⟩

end ncc.controller

namespace ncc.controller

namespace message

/-- The queue `q2` holds, at every position of `q`, the entry of `q` or that entry flagged
`sent`; what it holds beyond the positions of `q` was pushed at the back since. -/
def marked (q q2 : List message) : Prop :=
  ∀ (i : Nat) (a : message), q[i]? = some a →
    q2[i]? = some a ∨ q2[i]? = some { a with sent := true }

end message

/-- The event is an invocation of `handle_message` made for the queue entry at position
`k`. -/
def event.for_message (k : Nat) : event → Bool
  | .control _ => false
  | .handle_message _ i _ _ _ => i == k

/-- The invocation of `handle_message` on controller `c` for the message `m0` at position
`k` of the queue, sent by `f`. -/
def event.delivery (k : Nat) (m0 : message.message) (f : Nat) (c : abstract_interface) :
    event :=
  .handle_message c.value k m0.message_parcel.message m0.message_parcel.parameters f

/-- The method `send_message(sender, name, const message::parcel&)`. -/
def manager.send_message_name_parcel (m : manager) (sender : Option Nat) (name : String)
    (msg : message.parcel) : manager :=
  match sender with
  | none => m
  | some f =>
    { m with
      message_manager :=
        m.message_manager.add_message
          (some (message.message.create (some f) (.controller_has_name name) msg)) }

/-- The method `send_message(sender, name, const parameter&)`, which does not test the
sender. The `parcel&` it returns serves to chain further parameters and is not modelled. -/
def manager.send_message_name (m : manager) (sender : Option Nat) (name : String)
    (msg : parameter) : manager :=
  { m with
    message_manager :=
      m.message_manager.add_message
        (some (message.message.create sender (.controller_has_name name)
          (message.parcel.of_message msg))) }

/-- The method `send_message(sender, name, const parameter&, const parameter_list&)`. -/
def manager.send_message_name_params (m : manager) (sender : Option Nat) (name : String)
    (msg : parameter) (params : parameter_list) : manager :=
  match sender with
  | none => m
  | some f =>
    { m with
      message_manager :=
        m.message_manager.add_message
          (some (message.message.create (some f) (.controller_has_name name)
            (message.parcel.of_message_params msg params))) }

/-- The method `send_message(sender, ptr& to, const message::parcel&)`. -/
def manager.send_message_to_parcel (m : manager) (sender : Option Nat)
    (target : Option Nat) (msg : message.parcel) : manager :=
  match sender with
  | none => m
  | some f =>
    { m with
      message_manager :=
        m.message_manager.add_message
          (some (message.message.create (some f) (.is_controller target) msg)) }

/-- The method `send_message(sender, ptr& to, const parameter&)`, which does not test the
sender. -/
def manager.send_message_to (m : manager) (sender : Option Nat) (target : Option Nat)
    (msg : parameter) : manager :=
  { m with
    message_manager :=
      m.message_manager.add_message
        (some (message.message.create sender (.is_controller target)
          (message.parcel.of_message msg))) }

/-- The method `send_message(sender, ptr& to, const parameter&, const parameter_list&)`. -/
def manager.send_message_to_params (m : manager) (sender : Option Nat)
    (target : Option Nat) (msg : parameter) (params : parameter_list) : manager :=
  match sender with
  | none => m
  | some f =>
    { m with
      message_manager :=
        m.message_manager.add_message
          (some (message.message.create (some f) (.is_controller target)
            (message.parcel.of_message_params msg params))) }

/-- The method `send_message_to_all(sender, type, const message::parcel&)`. -/
def manager.send_message_to_all_type_parcel (m : manager) (sender : Option Nat)
    (type : String) (msg : message.parcel) : manager :=
  match sender with
  | none => m
  | some f =>
    { m with
      message_manager :=
        m.message_manager.add_message
          (some (message.message.create (some f) (.controller_has_type type) msg)) }

/-- The method `send_message_to_all(sender, type, const parameter&)`, which does not test
the sender. -/
def manager.send_message_to_all_type (m : manager) (sender : Option Nat) (type : String)
    (msg : parameter) : manager :=
  { m with
    message_manager :=
      m.message_manager.add_message
        (some (message.message.create sender (.controller_has_type type)
          (message.parcel.of_message msg))) }

/-- The method `send_message_to_all(sender, type, const parameter&,
const parameter_list&)`. -/
def manager.send_message_to_all_type_params (m : manager) (sender : Option Nat)
    (type : String) (msg : parameter) (params : parameter_list) : manager :=
  match sender with
  | none => m
  | some f =>
    { m with
      message_manager :=
        m.message_manager.add_message
          (some (message.message.create (some f) (.controller_has_type type)
            (message.parcel.of_message_params msg params))) }

/-- The method `send_message_to_all(sender, const message::parcel&)`. -/
def manager.send_message_to_all_parcel (m : manager) (sender : Option Nat)
    (msg : message.parcel) : manager :=
  match sender with
  | none => m
  | some f =>
    { m with
      message_manager :=
        m.message_manager.add_message
          (some (message.message.create (some f) .returns_true msg)) }

/-- The method `send_message_to_all(sender, const parameter&)`, which does not test the
sender. -/
def manager.send_message_to_all (m : manager) (sender : Option Nat) (msg : parameter) :
    manager :=
  { m with
    message_manager :=
      m.message_manager.add_message
        (some (message.message.create sender .returns_true
          (message.parcel.of_message msg))) }

/-- The method `send_message_to_all(sender, const parameter&, const parameter_list&)`. -/
def manager.send_message_to_all_params (m : manager) (sender : Option Nat)
    (msg : parameter) (params : parameter_list) : manager :=
  match sender with
  | none => m
  | some f =>
    { m with
      message_manager :=
        m.message_manager.add_message
          (some (message.message.create (some f) .returns_true
            (message.parcel.of_message_params msg params))) }

end ncc.controller

namespace ncc.controller

/-- The invocations of `handle_message` that offering the queue entry `mk` at position `k`
to the recipient `c` makes: one when the sender pointer is not null, none otherwise. -/
def event.deliveries (k : Nat) (mk : message.message) (c : abstract_interface) :
    List event :=
  match mk.from_ with
  | some f => [event.delivery k mk f c]
  | none => []

/-- An invocation of `handle_message` made for a ready entry of the queue `q` whose sender
pointer is not null, with the payload and the sender of that entry. -/
def event.from_queue (q : List message.message) (ready : List Nat) (ev : event) : Prop :=
  ∃ (r i f : Nat) (a : message.message), i ∈ ready ∧ q[i]? = some a ∧ a.from_ = some f ∧
    ev = .handle_message r i a.message_parcel.message a.message_parcel.parameters f

end ncc.controller

namespace ncc.controller

/-- The delivery pass, seen from the queue `q` it started with: the queue stays `marked`
and every event added is an invocation for a ready entry of `q`. -/
def deliver_inv (q : List message.message) (ready : List Nat) (s s1 : pass_state) : Prop :=
  message.marked q s.message_manager.messages →
    message.marked q s1.message_manager.messages ∧
      ∃ added, s1.log = s.log ++ added ∧ ∀ ev ∈ added, event.from_queue q ready ev


end ncc.controller

namespace ncc.controller

/-- The invocations of `handle_message` that offering the queue entry `mk` at position `k`
to the controllers `l`, in order, makes. -/
def event.pass_deliveries (k : Nat) (mk : message.message) (l : List abstract_interface) :
    List event :=
  match mk.from_ with
  | some f => (l.filter (fun c => mk.is_recipient.call c)).map (event.delivery k mk f)
  | none => []

/-- The delivery pass between two states, seen from the queue entry at position `k`, when
the controllers `l` were visited in between: the entry is flagged when it is ready and one
of them is a recipient, and the invocations made for it are those on the recipients. -/
def entry_pass (ready : List Nat) (k : Nat) (s s1 : pass_state)
    (l : List abstract_interface) : Prop :=
  ∀ mk : message.message, s.message_manager.messages[k]? = some mk →
    s1.message_manager.messages[k]?
        = some { mk with
            sent := mk.sent || (decide (k ∈ ready) && l.any (fun c => mk.is_recipient.call c)) } ∧
      s1.log.filter (event.for_message k)
        = s.log.filter (event.for_message k) ++
            (if k ∈ ready then event.pass_deliveries k mk l else [])

end ncc.controller

namespace ncc.controller

/-- The control phase between two states: messages are only pushed at the back of the
queue and only invocations of `control()` are recorded. -/
def control_inv (s s1 : pass_state) : Prop :=
  (∃ new, s1.message_manager.messages = s.message_manager.messages ++ new) ∧
    ∃ added, s1.log = s.log ++ added ∧ ∀ ev ∈ added, ∃ c, ev = event.control c

/-- The purge `messages.remove_if(message_sent)` keeps the entries this holds of. -/
def message.kept (msg : message.message) : Bool := !message.message_sent msg

/-- The queue of the manager. -/
def manager.queue (m : manager) : List message.message := m.message_manager.messages

end ncc.controller

namespace ncc.controller

/-- A second controller of type "enemy". -/
def c5_enemy : abstract_interface := ⟨2, "e2", true, "enemy", 1⟩
/-- A root with two controllers of type "enemy" and one of type "player", and in the queue
the message that `send_message_to_all(sender, "enemy", "destroy")` with the "player"
controller as sender enqueues. -/
def c5_manager : manager :=
  (manager.mk (.node c3_root [.node c3_child [], .node c5_enemy [], .node c10_other []]) []
    ⟨[]⟩).send_message_to_all_type (some 3) "enemy" "destroy"
/-- The message in the queue of `c5_manager`. -/
def c5_message : message.message :=
  message.message.create (some 3) (.controller_has_type "enemy")
    (message.parcel.of_message "destroy")

end ncc.controller

namespace ncc.controller

/-- The manager `c3_manager` after `send_message(sender, "ghost", "hi")` by its controller
"e1": no controller is named "ghost". -/
def c8_manager : manager := c3_manager.send_message_name (some 1) "ghost" "hi"
/-- The message in the queue of `c8_manager`. -/
def c8_message : message.message :=
  message.message.create (some 1) (.controller_has_name "ghost")
    (message.parcel.of_message "hi")

end ncc.controller

namespace ncc.controller

/-- The message that `send_message(sender, "e1", parcel("hi", condition))` enqueues: a
conditional parcel on the condition object `0`, sent by the controller with id 3. -/
def c7_message : message.message :=
  message.message.create (some 3) (.controller_has_name "e1")
    (message.parcel.of_message_condition "hi" (some 0))
/-- The manager `c10_manager` with `c7_message` in its queue. -/
def c7_manager : manager :=
  c10_manager.send_message_name_parcel (some 3) "e1"
    (message.parcel.of_message_condition "hi" (some 0))
/-- No callback has an effect and every condition object answers `false`. -/
def c7_silent : behaviour :=
  { control := fun _ => (true, ⟨false, none, []⟩),
    handle_message := fun _ _ _ _ => ⟨false, none, []⟩,
    conditions := fun _ => false }

end ncc.controller

namespace ncc.controller

/-- The manager `c3_manager` after `send_message_to_all(0, "hi")`, a send with a null
sender through the overload that returns `parcel&`. -/
def c9_manager : manager := c3_manager.send_message_to_all none "hi"

end ncc.controller

namespace ncc.controller

/-- A root with the sender "e1" (id 1) and the recipient "p1" (id 3). -/
def c6_manager : manager :=
  ⟨.node c3_root [.node c3_child [], .node c10_other []], [], ⟨[]⟩⟩
/-- The message the sender enqueues: to the controller named "p1", conditional on the
condition object `0`. -/
def c6_message : message.message :=
  message.message.create (some 1) (.controller_has_name "p1")
    (message.parcel.of_message_condition "hi" (some 0))
/-- In its `control()` the controller with id 1 sends `c6_message` and calls
`remove_self()`; every condition object answers `false`. -/
def c6_first : behaviour :=
  { control := fun c =>
      (true, ⟨c.value == 1, none,
        if c.value == 1 then
          [⟨some 1, .controller_has_name "p1",
            message.parcel.of_message_condition "hi" (some 0)⟩]
        else []⟩),
    handle_message := fun _ _ _ _ => ⟨false, none, []⟩,
    conditions := fun _ => false }

end ncc.controller

namespace ncc.tree

/-- A visitor that records the node it is called on, updates it by `u` and answers `v`. -/
def visiting {α : Type} (u : α → α) (v : α → Bool) (log : List α) (d : α) :
    List α × α × Bool :=
  (log ++ [d], u d, v d)

/-- The node of an entry of the pre-order enumeration when `v` answers `true` on every one
of its proper ancestors, and nothing for the other entries and for null pointers. -/
def reached {α : Type} (v : α → Bool) (x : List α × Option α) : Option α :=
  if x.1.all v then x.2 else none

mutual
/-- The non-null pointers of a tree in pre-order, each as the subtree it points to. -/
def subtrees {α : Type} : node_type α → List (node_type α)
  | .null => []
  | .node d ch => .node d ch :: subtrees_children ch
/-- The non-null pointers of a list of sibling subtrees, in pre-order. -/
def subtrees_children {α : Type} : List (node_type α) → List (node_type α)
  | [] => []
  | child :: rest => subtrees child ++ subtrees_children rest
end

/-- A stateless predicate on pointers, as a predicate object that records every pointer it
is evaluated on. -/
def recording {α : Type} (p : node_type α → Bool) (log : List (node_type α))
    (n : node_type α) : List (node_type α) × Bool :=
  (log ++ [n], p n)

end ncc.tree

namespace ncc.tree

/-- The pointers a search evaluates `p` on in the sequence `l`: those before the first one
that satisfies `p`, and that one. -/
def examined {α : Type} (p : node_type α → Bool) (l : List (node_type α)) :
    List (node_type α) :=
  l.takeWhile (fun n => !p n) ++ (l.find? p).toList

/-- The first pointer of the sequence `l` that satisfies `p`, null when there is none. -/
def first_match {α : Type} (p : node_type α → Bool) (l : List (node_type α)) :
    node_type α :=
  (l.find? p).getD .null

end ncc.tree

namespace ncc.controller

/-- What `remove_controller` with the test `q` leaves of an entry of the pre-order
enumeration: the controller is flagged dead when `q` holds of it and of none of its proper
ancestors, and is as it was otherwise. -/
def flag_topmost (q : abstract_interface → Bool)
    (x : List abstract_interface × Option abstract_interface) : Option abstract_interface :=
  x.2.map (fun c => if q c && x.1.all (fun a => !q a) then c.remove_self else c)

end ncc.controller

namespace ncc.tree

/-! The class `is_node` with its pointers: node objects live in a store, a pointer is the
address of an object (`none` for a null pointer). -/

/-- The fields of `is_node<data_type>`: `parent_ptr`, `this_ptr` and `child_list`. -/
structure is_node where
  parent_ptr : Option Nat
  this_ptr : Option Nat
  child_list : List (Option Nat)
deriving DecidableEq, Repr

/-- The node objects, by address. -/
abbrev store := Nat → is_node

/-- The constructor `is_node(data_type* derived_this_ptr)`. -/
def is_node.create (derived_this_ptr : Option Nat) : is_node :=
  { parent_ptr := none, this_ptr := derived_this_ptr, child_list := [] }

/-- The method `is_node::add_child`, called on the object at address `self`: a null
pointer and a pointer found in `child_list` are refused; otherwise the pointer is pushed at
the back and the `parent_ptr` of the new child is set to `this_ptr`. -/
def is_node.add_child (h : store) (self : Nat) (new_child : Option Nat) : store × Bool :=
  match new_child with
  | none => (h, false)
  | some c =>
    if new_child ∈ (h self).child_list then (h, false)
    else
      let h1 := Function.update h self
        { h self with child_list := (h self).child_list ++ [new_child] }
      (Function.update h1 c { h1 c with parent_ptr := (h self).this_ptr }, true)

/-- The method `is_node::remove_child`, called on the object at address `self`: the first
occurrence of the pointer in `child_list`, when there is one, is erased. -/
def is_node.remove_child (h : store) (self : Nat) (target_child : Option Nat) :
    store × Bool :=
  if target_child ∈ (h self).child_list then
    (Function.update h self
      { h self with child_list := (h self).child_list.erase target_child }, true)
  else (h, false)

/-- A call of `add_child` or of `remove_child` on the node at address `self`. -/
inductive node_call where
  | add_child (self : Nat) (new_child : Option Nat)
  | remove_child (self : Nat) (target_child : Option Nat)
deriving DecidableEq, Repr

/-- The store after a call. -/
def node_call.run (h : store) : node_call → store
  | .add_child self new_child => (is_node.add_child h self new_child).1
  | .remove_child self target_child => (is_node.remove_child h self target_child).1

/-- The store after a sequence of calls. -/
def run_calls (h : store) (calls : List node_call) : store :=
  calls.foldl node_call.run h

/-- The store of nodes just constructed, each with its own address as `this_ptr`: no node
has a child or a parent. -/
def fresh : store := fun a => is_node.create (some a)

/-- The node at `a` is a proper ancestor of the node at `c`: `c` is reached from `a`
through child lists. -/
inductive is_ancestor (h : store) : Nat → Nat → Prop where
  | child (a c : Nat) : some c ∈ (h a).child_list → is_ancestor h a c
  | step (a b c : Nat) : some b ∈ (h a).child_list → is_ancestor h b c → is_ancestor h a c

end ncc.tree

namespace ncc.tree

/-- The method `is_node::add_child` read on the value of a tree: called on the node `n`, it
refuses a null pointer and a pointer already in the child list, and otherwise pushes the
new child at the back. Two pointers are equal when the nodes they point to have the same
`key` (for controllers, the id). -/
def node_type.add_child {α : Type} (key : α → Nat) (n new_child : node_type α) :
    node_type α × Bool :=
  match n, new_child with
  | .null, _ => (.null, false)
  | .node d ch, .null => (.node d ch, false)
  | .node d ch, .node c cc =>
    if ch.any (fun x => x.data?.map key == some (key c)) then (.node d ch, false)
    else (.node d (ch ++ [.node c cc]), true)

mutual
/-- The tree after a method that updates a node was called through a pointer to the node
with key `p`: the topmost nodes with that key are updated by `f`. A pointer to a node that
is not in the tree leaves the tree as it is. -/
def at_node {α : Type} (key : α → Nat) (p : Nat) (f : node_type α → node_type α) :
    node_type α → node_type α
  | .null => .null
  | .node d ch => if key d = p then f (.node d ch) else .node d (at_children key p f ch)
/-- The list of sibling subtrees after an update through a pointer. -/
def at_children {α : Type} (key : α → Nat) (p : Nat) (f : node_type α → node_type α) :
    List (node_type α) → List (node_type α)
  | [] => []
  | child :: rest => at_node key p f child :: at_children key p f rest
end

end ncc.tree

namespace ncc.controller

/-- The user code of the life cycle of a controller: the virtual `clone_prototype()` of a
prototype, which returns a new controller or null, and the virtual `initialize(params)`,
with its return value and what it does through the sanctioned interface (`initialize_`
stands for `initialize`). -/
structure lifecycle where
  clone_prototype : abstract_interface → ptr
  initialize_ : abstract_interface → parameter_list → Bool × effects

/-- One recorded invocation of a life cycle method, with the id of the controller it was
invoked on. -/
inductive lifecycle_call where
  | clone_prototype (prototype : Nat)
  | initialize_ (controller : Nat) (params : parameter_list)
deriving DecidableEq, Repr

/-- The exception `boost::bad_weak_ptr`. -/
inductive failure where
  | bad_weak_ptr
deriving DecidableEq, Repr

/-- The messages a callback sends are pushed on the queue of the manager. -/
def manager.enqueue (m : manager) (sends : List send_request) : manager :=
  { m with
    message_manager :=
      sends.foldl
        (fun q r => q.add_message (some (message.message.create r.sender r.is_recipient
          r.msg_parcel)))
        m.message_manager }

/-- The method `manager::find_prototype`: the prototype bound to `type`, null when there is
none. -/
def manager.find_prototype (m : manager) (type : String) : ptr :=
  (m.prototypes.lookup type).getD .null

/-- The method `manager::create_controller`. The statement
`ptr controller_to_create(find_prototype(type))` constructs a `shared_ptr` from the
`weak_ptr` that `find_prototype` returns; that constructor throws `boost::bad_weak_ptr`
when the `weak_ptr` is empty, so the test `if(!controller_to_create)` after it is never
reached with a null pointer. The result comes with the manager after the call and the
record of the life cycle methods invoked. -/
def manager.create_controller (L : lifecycle) (m : manager) (type : String)
    (params : parameter_list) : manager × Except failure ptr × List lifecycle_call :=
  match m.find_prototype type with
  | .null => (m, .error .bad_weak_ptr, [])
  | .node p _ =>
    match L.clone_prototype p with
    | .null => (m, .ok .null, [.clone_prototype p.value])
    | .node c cc =>
      (m.enqueue (L.initialize_ c params).2.sends,
        .ok (if (L.initialize_ c params).1 then
            .node (c.apply (L.initialize_ c params).2) cc
          else .null),
        [.clone_prototype p.value, .initialize_ c.value params])

/-- The method `manager::add_controller(ptr new_controller, ptr parent)`; `parent` is the
id of the controller the pointer refers to, `none` for a null pointer. -/
def manager.add_controller (m : manager) (new_controller : ptr) (parent : Option Nat) :
    manager :=
  match parent, new_controller with
  | none, _ => m
  | some _, .null => m
  | some p, .node c cc =>
    { m with
      root_controller :=
        tree.at_node (fun d => d.value) p
          (fun n => (n.add_child (fun d => d.value) (.node c cc)).1) m.root_controller }

/-- The pointer `root_controller` as an argument for `parent`. -/
def manager.root_pointer (m : manager) : Option Nat :=
  m.root_controller.data?.map (fun d => d.value)

/-- The method `manager::add_controller(ptr new_controller)`. -/
def manager.add_controller_root (m : manager) (new_controller : ptr) : manager :=
  m.add_controller new_controller m.root_pointer

/-- The method `manager::add_controller(ptr new_controller, const parameter_list& params,
ptr& parent)`, with the record of the life cycle methods invoked. -/
def manager.add_controller_params (L : lifecycle) (m : manager) (new_controller : ptr)
    (params : parameter_list) (parent : Option Nat) : manager × List lifecycle_call :=
  match parent, new_controller with
  | none, _ => (m, [])
  | some _, .null => (m, [])
  | some p, .node c cc =>
    if (L.initialize_ c params).1 = false then
      (m.enqueue (L.initialize_ c params).2.sends, [.initialize_ c.value params])
    else
      ({ m.enqueue (L.initialize_ c params).2.sends with
          root_controller :=
            tree.at_node (fun d => d.value) p
              (fun n => (n.add_child (fun d => d.value)
                (.node (c.apply (L.initialize_ c params).2) cc)).1) m.root_controller },
        [.initialize_ c.value params])

/-- The method `manager::add_controller(ptr new_controller,
const parameter_list& params)`. -/
def manager.add_controller_params_root (L : lifecycle) (m : manager) (new_controller : ptr)
    (params : parameter_list) : manager × List lifecycle_call :=
  m.add_controller_params L new_controller params m.root_pointer

/-- The method `manager::add_controller(const std::string& type,
const parameter_list& params, ptr parent)`. The handle returned is given as the pointer the
`weak_ptr` resolves to once the call is over: the new controller when a parent holds it,
null when the local `shared_ptr` was its only owner. -/
def manager.add_controller_type (L : lifecycle) (m : manager) (type : String)
    (params : parameter_list) (parent : Option Nat) :
    manager × Except failure ptr × List lifecycle_call :=
  match m.create_controller L type params with
  | (m1, .error e, calls) => (m1, .error e, calls)
  | (m1, .ok new_controller, calls) =>
    (m1.add_controller new_controller parent,
      .ok (match parent with
        | none => .null
        | some _ => new_controller),
      calls)

/-- The method `manager::add_controller(const std::string& type,
const parameter_list& params)`. -/
def manager.add_controller_type_root (L : lifecycle) (m : manager) (type : String)
    (params : parameter_list) : manager × Except failure ptr × List lifecycle_call :=
  m.add_controller_type L type params m.root_pointer

end ncc.controller

namespace ncc.controller

/-- The prototype bound to "bullet". -/
def c18_bullet : abstract_interface := ⟨7, "", true, "bullet", 3⟩
/-- The prototype bound to "rock", which cannot be cloned. -/
def c18_rock : abstract_interface := ⟨8, "", true, "rock", 4⟩
/-- A "bullet" prototype is cloned into a new controller with id 10, a "rock" prototype is
not clonable; `initialize` names the controller "b" and succeeds when it gets two
parameters. -/
def c18_lifecycle : lifecycle :=
  { clone_prototype := fun p =>
      if p.type == "bullet" then tree.node_type.node { p with value := 10 } [] else .null
    initialize_ := fun _ params => (params.length == 2, ⟨false, some "b", []⟩) }
/-- The manager `c3_manager` with the prototypes "bullet" and "rock" in its catalog. -/
def c18_manager : manager :=
  ⟨.node c3_root [.node c3_child []],
    [("bullet", .node c18_bullet []), ("rock", .node c18_rock [])], ⟨[]⟩⟩

end ncc.controller

namespace ncc.tree

mutual
/-- No pointer strictly below the root of the tree satisfies `p`: a pruning by `p` finds
nothing to remove. -/
def settled {α : Type} (p : Option α → Bool) : node_type α → Bool
  | .null => true
  | .node _ ch => settled_children p ch
/-- No pointer of the list of sibling subtrees, or below one of them, satisfies `p`. -/
def settled_children {α : Type} (p : Option α → Bool) : List (node_type α) → Bool
  | [] => true
  | c :: cs => !p c.data? && settled p c && settled_children p cs
end

end ncc.tree

namespace ncc.controller

/-- The behaviour flags no controller: no callback calls `remove_self()`. -/
def behaviour.flags_nothing (B : behaviour) : Prop :=
  (∀ c, (B.control c).2.remove_self = false) ∧
    ∀ c msg params sender, (B.handle_message c msg params sender).remove_self = false

/-- What a callback that does not call `remove_self()` can do to the state of its own
controller: the liveness flag is kept. -/
def same_flag (c c1 : abstract_interface) : Prop := c1.alive = c.alive

end ncc.controller

namespace ncc.controller

/-- The method `manager::add_prototype`: `if(prototype && !name.empty())
prototypes[name] = prototype;`. The catalog is an association list read by `List.lookup`;
the assignment to `prototypes[name]` drops the binding of `name`, if any, and binds `name`
to the prototype. -/
def manager.add_prototype (m : manager) (name : String) (prototype : ptr) : manager :=
  match prototype with
  | .null => m
  | .node p pc =>
    if name.length != 0 then
      { m with
        prototypes := (name, .node p pc) :: m.prototypes.filter (fun b => b.1 != name) }
    else m

end ncc.controller

namespace ncc

/-- The class `id_type` of `elements/id.h`: its field `value`. The static member
`previous_id` is the counter threaded through the functions below; `unsigned long` is a
natural number, without wraparound. -/
structure id_type where
  value : Nat
deriving DecidableEq, Repr

/-- The method `id_type::create_id`, `value=previous_id;previous_id++;`: the object after
the call and the counter after the call. -/
def id_type.create_id (previous_id : Nat) : id_type × Nat :=
  (⟨previous_id⟩, previous_id + 1)

/-- The default constructor `id_type() {create_id();}`. -/
def id_type.create (previous_id : Nat) : id_type × Nat :=
  id_type.create_id previous_id

/-- The copy constructor `id_type(const id_type&) {create_id();}`: the new object, which
takes nothing from the object copied. -/
def id_type.copy (previous_id : Nat) (_rhs : id_type) : id_type × Nat :=
  id_type.create_id previous_id

/-- The assignment `operator = (const id_type& rhs) {create_id(); return *this;}`: the
object assigned to after the call. -/
def id_type.assign (previous_id : Nat) (_self _rhs : id_type) : id_type × Nat :=
  id_type.create_id previous_id

/-- The `id_type` objects of a program and the static counter: an object is identified by
its position in `objects`. `issued` records the values `create_id` has issued, in order,
and `copies` records, for every copy construction, the value of the object copied from and
the value of the copy. -/
structure id_heap where
  previous_id : Nat
  objects : List id_type
  issued : List Nat
  copies : List (Nat × Nat)
deriving DecidableEq, Repr

/-- A default construction, a copy construction from the object at `rhs`, or an assignment
of the object at `rhs` to the object at `lhs`. -/
inductive id_call where
  | create
  | copy (rhs : Nat)
  | assign (lhs rhs : Nat)
deriving DecidableEq, Repr

/-- The objects after a call; a call that names an object that does not exist does
nothing. -/
def id_call.run (h : id_heap) : id_call → id_heap
  | .create =>
    let r := id_type.create h.previous_id
    { previous_id := r.2, objects := h.objects ++ [r.1], issued := h.issued ++ [r.1.value],
      copies := h.copies }
  | .copy rhs =>
    match h.objects[rhs]? with
    | none => h
    | some x =>
      let r := id_type.copy h.previous_id x
      { previous_id := r.2, objects := h.objects ++ [r.1],
        issued := h.issued ++ [r.1.value], copies := h.copies ++ [(x.value, r.1.value)] }
  | .assign lhs rhs =>
    match h.objects[lhs]?, h.objects[rhs]? with
    | some a, some b =>
      let r := id_type.assign h.previous_id a b
      { previous_id := r.2, objects := h.objects.set lhs r.1,
        issued := h.issued ++ [r.1.value], copies := h.copies }
    | _, _ => h

/-- The objects after a sequence of calls, from a program with no `id_type` object yet and
the counter at `previous_id`. -/
def run_id_calls (previous_id : Nat) (calls : List id_call) : id_heap :=
  calls.foldl id_call.run ⟨previous_id, [], [], []⟩

/-- The invariant of the counter: every value issued is below the counter, the values were
issued in increasing order, every object holds an issued value, no two objects hold the
same value, and a copy holds a value above that of the object it was copied from. -/
def id_heap.inv (h : id_heap) : Prop :=
  (∀ v ∈ h.issued, v < h.previous_id) ∧ h.issued.Pairwise (fun a b => a < b) ∧
    (∀ o ∈ h.objects, o.value ∈ h.issued) ∧ (h.objects.map (fun o => o.value)).Nodup ∧
    ∀ x ∈ h.copies, x.1 < x.2

end ncc

namespace ncc.controller

/-- The method `get_type_id`. -/
def abstract_interface.get_type_id (c : abstract_interface) : Int := c.type_id

/-- The constructor `abstract_interface() : name_holder(), alive(true), is_node(this),
id_type()` of a concrete class whose `get_type()` and `get_type_id()` answer `type` and
`type_id`: the name is empty, the controller is alive and its id comes from the static
counter of `id_type`. The counter after the call is returned with the controller. -/
def abstract_interface.create (previous_id : Nat) (type : String) (type_id : Int) :
    abstract_interface × Nat :=
  let r := id_type.create previous_id
  ({ value := r.1.value, name_holder := "", alive := true, type := type, type_id := type_id },
    r.2)

namespace hidden

/-- The class `hidden::simple_root_controller`: `get_type()` returns "root",
`get_type_id()` returns 0 and the constructor is `simple_root_controller() :
abstract_interface() {}`. -/
def simple_root_controller (previous_id : Nat) : abstract_interface × Nat :=
  abstract_interface.create previous_id "root" 0

end hidden

/-- The constructor `manager::manager()`:
`root_controller = ptr(new hidden::simple_root_controller());`, the catalog and the queue
being default constructed. The counter of `id_type` after the call is returned with the
manager. -/
def manager.create (previous_id : Nat) : manager × Nat :=
  ({ root_controller := .node (hidden.simple_root_controller previous_id).1 [],
     prototypes := [],
     message_manager := ⟨[]⟩ },
    (hidden.simple_root_controller previous_id).2)

end ncc.controller

namespace ncc.tree

/-! Iterators into `child_list` are positions: `child_list.begin()` is position 0 and
`child_list.end()` is the length of the list. -/

/-- The method `child_iterator children_begin() {return child_list.begin();}`. -/
def is_node.children_begin (_n : is_node) : Nat := 0

/-- The method `const_child_iterator children_begin() const {return child_list.begin();}`. -/
def is_node.children_begin_const (_n : is_node) : Nat := 0

/-- The method `child_iterator children_end() { return child_list.end();}`. -/
def is_node.children_end (n : is_node) : Nat := n.child_list.length

/-- The method `const_child_iterator children_end() const {return child_list.begin();}`. -/
def is_node.children_end_const (_n : is_node) : Nat := 0

/-- The loop `for(it = first; it != last; ++it)` reading `*it`, where `l` is what the list
holds from the position `first` on. -/
def walk {β : Type} : List β → Nat → Nat → List β
  | [], _, _ => []
  | x :: rest, first, last => if first = last then [] else x :: walk rest (first + 1) last

/-- The children a loop `for(it = first; it != last; ++it)` over the child list of a node
enumerates. -/
def is_node.enumerate (n : is_node) (first last : Nat) : List (Option Nat) :=
  walk (n.child_list.drop first) first last

end ncc.tree

namespace ncc.tree

/-- The method `is_node::remove_child` read on the value of a tree: called on the node `n`,
it erases the first pointer of the child list equal to `target_child`, when there is one.
Two pointers are equal when both are null or the nodes they point to have the same `key`. -/
def node_type.remove_child {α : Type} (key : α → Nat) (n target_child : node_type α) :
    node_type α × Bool :=
  match n with
  | .null => (.null, false)
  | .node d ch =>
    if ch.any (fun x => x.data?.map key == target_child.data?.map key) then
      (.node d (ch.eraseP (fun x => x.data?.map key == target_child.data?.map key)), true)
    else (.node d ch, false)

end ncc.tree

namespace ncc.controller

/-- The manager `c10_manager` after its controller "p1" (id 3) sent "hi" to the name "e1":
the two controllers named "e1" are the child of the root with id 1 and its own child with
id 2. -/
def c29_manager : manager := c10_manager.send_message_name (some 3) "e1" "hi"
/-- The message in the queue of `c29_manager`. -/
def c29_message : message.message :=
  message.message.create (some 3) (.controller_has_name "e1") (message.parcel.of_message "hi")
/-- In its `control()` the controller with id 1 calls `remove_self()` and returns `false`;
every other `control()` returns `true`, and `handle_message` does nothing. -/
def c29_behaviour : behaviour :=
  { control := fun c => (c.value != 1, ⟨c.value == 1, none, []⟩),
    handle_message := fun _ _ _ _ => ⟨false, none, []⟩,
    conditions := fun _ => true }

end ncc.controller

namespace ncc.controller

/-- The event is an invocation of `handle_message`. -/
def event.is_delivery : event → Bool
  | .control _ => false
  | .handle_message _ _ _ _ _ => true

/-- The queue position of the entry an invocation of `handle_message` was made for. -/
def event.index : event → Option Nat
  | .control _ => none
  | .handle_message _ i _ _ _ => some i

/-- The id of the controller an invocation of `handle_message` was made on. -/
def event.recipient : event → Option Nat
  | .control _ => none
  | .handle_message r _ _ _ _ => some r

/-- The invocations of `handle_message` that the visit of the controller `c` by the
delivery pass makes, when `q` is the queue and `ready` the positions of its ready entries:
for each ready position, in order, those for the entry when `c` is a recipient of it. -/
def event.visit_deliveries (q : List message.message) (ready : List Nat)
    (c : abstract_interface) : List event :=
  ready.flatMap (fun i =>
    match q[i]? with
    | some a => if a.is_recipient.call c then event.deliveries i a c else []
    | none => [])

/-- The invocations `evs` are all of `handle_message` on the controller with id `c`, and
the queue positions they were made for follow one another as in `ready`. -/
def event.block (ready : List Nat) (c : Nat) (evs : List event) : Prop :=
  (∀ ev ∈ evs, ev.recipient = some c) ∧ (evs.filterMap event.index).Sublist ready

/-- The manager `c29_manager` after its controller "p1" (id 3) also sent "bye" to all. -/
def c26_manager : manager := c29_manager.send_message_to_all (some 3) "bye"

end ncc.controller

namespace ncc

/-- Modelled from the spec: the free `operator ==(unsigned long lhs, id_type rhs)`, which
`elements/id.h` declares and the sources at hand do not define, compares `lhs` with the
value `rhs` holds. Its parameter `rhs` is passed by value. -/
def id_type.value_eq (lhs : Nat) (rhs : id_type) : Bool := lhs == rhs.value

end ncc

namespace ncc.controller

/-- The visitor `remove_controller_by_id(ptr& controller, id_type id)` with the `id_type`
objects it constructs, the state being the static counter of `id_type`: its parameter `id`
is copy-constructed from the id the function object holds, `stored`, and the parameter
`rhs` of `operator ==` in `controller->get_id() == id` is copy-constructed from `id`. -/
def remove_controller_by_id_copy (stored : id_type) (previous_id : Nat)
    (controller : abstract_interface) : Nat × abstract_interface × Bool :=
  let id := id_type.copy previous_id stored
  let rhs := id_type.copy id.2 id.1
  if id_type.value_eq controller.get_id rhs.1 then
    (rhs.2, remove_controller controller, false)
  else (rhs.2, controller, true)

/-- The method `manager::remove_controller(id_type id)` as a caller reaches it, with the
static counter of `id_type`: the parameter `id` is copy-constructed from the argument, and
`boost::bind<bool>(remove_controller_by_id, _1, id)` holds a copy of `id`. The counter
after the call is returned with the manager. -/
def manager.remove_controller_id_type (m : manager) (previous_id : Nat)
    (argument : id_type) : manager × Nat :=
  let id := id_type.copy previous_id argument
  let stored := id_type.copy id.2 id.1
  let r := tree.transverse_depth_first (remove_controller_by_id_copy stored.1) stored.2
    m.root_controller
  ({ m with root_controller := r.2 }, r.1)

/-- The root of `c3_manager`, flagged dead. -/
def c28_root : abstract_interface := ⟨0, "", false, "root", 0⟩
/-- A manager whose root is flagged dead, with one live child. -/
def c28_manager : manager := ⟨.node c28_root [.node c3_child []], [], ⟨[]⟩⟩

end ncc.controller

/-! ## Theorems -/

namespace ncc

namespace tree

mutual
theorem preorder_ancestors {α : Type} :
    ∀ (anc : List α) (t : node_type α) (p : List α × Option α),
      p ∈ preorder anc t → anc <+: p.1
  | anc, .null, p, h => by
    simp [preorder] at h
    subst h
    exact List.prefix_refl _
  | anc, .node d ch, p, h => by
    simp only [preorder, List.mem_cons] at h
    rcases h with h | h
    · subst h; exact List.prefix_refl _
    · exact (List.prefix_append anc [d]).trans (preorder_children_ancestors _ ch p h)
theorem preorder_children_ancestors {α : Type} :
    ∀ (anc : List α) (l : List (node_type α)) (p : List α × Option α),
      p ∈ preorder_children anc l → anc <+: p.1
  | anc, [], p, h => by simp [preorder_children] at h
  | anc, c :: cs, p, h => by
    simp only [preorder_children, List.mem_append] at h
    rcases h with h | h
    · exact preorder_ancestors anc c p h
    · exact preorder_children_ancestors anc cs p h
end

mutual
theorem related_refl {α : Type} (R : α → α → Prop) (hR : ∀ d, R d d) :
    ∀ t : node_type α, related R t t
  | .null => by simp [related]
  | .node d ch => by
    simp only [related]
    exact ⟨d, ch, rfl, hR d, related_children_refl R hR ch⟩
theorem related_children_refl {α : Type} (R : α → α → Prop) (hR : ∀ d, R d d) :
    ∀ l : List (node_type α), related_children R l l
  | [] => by simp [related_children]
  | c :: cs => by
    simp only [related_children]
    exact ⟨c, cs, rfl, related_refl R hR c, related_children_refl R hR cs⟩
end

mutual
/-- A traversal whose visitor moves the state along a preorder `I` and each node along a
reflexive relation `R` moves the state along `I` and yields a tree related by `R`. -/
theorem transverse_spec {α σ : Type} (visit : σ → α → σ × α × Bool)
    (I : σ → σ → Prop) (R : α → α → Prop) (P : α → Prop)
    (hI : ∀ s, I s s) (hT : ∀ a b c, I a b → I b c → I a c) (hR : ∀ d, R d d)
    (hstep : ∀ s d, P d → I s (visit s d).1 ∧ R d (visit s d).2.1) :
    ∀ (t : node_type α) (s : σ), (∀ d ∈ nodes t, P d) →
      I s (transverse_depth_first visit s t).1 ∧
        related R t (transverse_depth_first visit s t).2
  | .null, s, _ => by simp [transverse_depth_first, related, hI]
  | .node d ch, s, hP => by
    have hd : P d := hP d (by simp [nodes])
    have hch : ∀ x ∈ nodes_children ch, P x := fun x hx => hP x (by simp [nodes, hx])
    obtain ⟨h1, h2⟩ := hstep s d hd
    rcases hv : visit s d with ⟨s1, d1, b⟩
    rw [hv] at h1 h2
    cases b with
    | false =>
      simp only [transverse_depth_first, hv, related]
      exact ⟨h1, d1, ch, rfl, h2, related_children_refl R hR ch⟩
    | true =>
      obtain ⟨h3, h4⟩ := transverse_children_spec visit I R P hI hT hR hstep ch s1 hch
      simp only [transverse_depth_first, hv, related]
      exact ⟨hT _ _ _ h1 h3, d1, _, rfl, h2, h4⟩
theorem transverse_children_spec {α σ : Type} (visit : σ → α → σ × α × Bool)
    (I : σ → σ → Prop) (R : α → α → Prop) (P : α → Prop)
    (hI : ∀ s, I s s) (hT : ∀ a b c, I a b → I b c → I a c) (hR : ∀ d, R d d)
    (hstep : ∀ s d, P d → I s (visit s d).1 ∧ R d (visit s d).2.1) :
    ∀ (l : List (node_type α)) (s : σ), (∀ d ∈ nodes_children l, P d) →
      I s (transverse_children visit s l).1 ∧
        related_children R l (transverse_children visit s l).2
  | [], s, _ => by simp [transverse_children, related_children, hI]
  | c :: cs, s, hP => by
    have hc : ∀ x ∈ nodes c, P x := fun x hx => hP x (by simp [nodes_children, hx])
    have hcs : ∀ x ∈ nodes_children cs, P x := fun x hx =>
      hP x (by simp [nodes_children, hx])
    obtain ⟨h1, h2⟩ := transverse_spec visit I R P hI hT hR hstep c s hc
    obtain ⟨h3, h4⟩ := transverse_children_spec visit I R P hI hT hR hstep cs
      (transverse_depth_first visit s c).1 hcs
    simp only [transverse_children, related_children]
    exact ⟨hT _ _ _ h1 h3, _, _, rfl, h2, h4⟩
end

end tree

/-- A fold whose every step moves along a preorder moves along it. -/
theorem foldl_preorder {β ι : Type} (f : β → ι → β) (I : β → β → Prop)
    (hI : ∀ x, I x x) (hT : ∀ a b c, I a b → I b c → I a c) (hstep : ∀ x i, I x (f x i)) :
    ∀ (l : List ι) (x : β), I x (l.foldl f x)
  | [], x => hI x
  | i :: l, x => hT _ _ _ (hstep x i) (foldl_preorder f I hI hT hstep l (f x i))

namespace controller
open tree

theorem control_calls_append (l1 l2 : List event) :
    control_calls (l1 ++ l2) = control_calls l1 ++ control_calls l2 := by
  simp [control_calls, List.filterMap_append]

theorem invoke_log (s : pass_state) (ev : event) (e : effects) :
    (s.invoke ev e).log = s.log ++ [ev] := rfl

theorem control_reached_blocked (B : behaviour) (anc : List abstract_interface)
    (h : anc.all (fun a => (B.control a).1) = false)
    (l : List (List abstract_interface × Option abstract_interface))
    (hl : ∀ p ∈ l, anc <+: p.1) : l.filterMap (control_reached B) = [] := by
  rw [List.filterMap_eq_nil_iff]
  intro p hp
  obtain ⟨rest, hrest⟩ := hl p hp
  cases hp2 : p.2 with
  | none => simp [control_reached, hp2]
  | some c =>
    have : p.1.all (fun a => (B.control a).1) = false := by
      rw [← hrest, List.all_append, h, Bool.false_and]
    simp [control_reached, hp2, this]

mutual
theorem control_phase_log (B : behaviour) :
    ∀ (t : ptr) (anc : List abstract_interface) (s : pass_state),
      anc.all (fun a => (B.control a).1) = true →
      control_calls (transverse_depth_first (control B) s t).1.log
        = control_calls s.log ++ (preorder anc t).filterMap (control_reached B)
  | .null, anc, s, _ => by
    simp [transverse_depth_first, preorder, control_reached]
  | .node d ch, anc, s, h => by
    cases hb : (B.control d).1 with
    | false =>
      have hblock : (anc ++ [d]).all (fun a => (B.control a).1) = false := by
        simp [List.all_append, hb]
      have := control_reached_blocked B (anc ++ [d]) hblock (preorder_children (anc ++ [d]) ch)
        (preorder_children_ancestors _ ch)
      simp [transverse_depth_first, control, hb, preorder, this, control_reached, h,
        invoke_log, control_calls_append, control_calls]
    | true =>
      have hgo : (anc ++ [d]).all (fun a => (B.control a).1) = true := by
        simp only [List.all_append, h, Bool.true_and, List.all_cons, hb, List.all_nil]
      have := control_phase_log_children B ch (anc ++ [d])
        ((s.invoke (event.control d.value) (B.control d).2)) hgo
      simp only [transverse_depth_first, control, hb, preorder, List.filterMap_cons,
        control_reached, h]
      rw [this]
      simp [invoke_log, control_calls_append, control_calls]
theorem control_phase_log_children (B : behaviour) :
    ∀ (l : List ptr) (anc : List abstract_interface) (s : pass_state),
      anc.all (fun a => (B.control a).1) = true →
      control_calls (transverse_children (control B) s l).1.log
        = control_calls s.log ++ (preorder_children anc l).filterMap (control_reached B)
  | [], anc, s, _ => by simp [transverse_children, preorder_children]
  | c :: cs, anc, s, h => by
    have h1 := control_phase_log B c anc s h
    have h2 := control_phase_log_children B cs anc (transverse_depth_first (control B) s c).1 h
    simp [transverse_children, preorder_children, h1, h2, List.filterMap_append]
end

end controller

end ncc
namespace ncc.controller
open tree

theorem handle_message_control_calls (B : behaviour) (x : pass_state × abstract_interface)
    (i : Nat) (sender : Option Nat) (msg : parameter) (params : parameter_list) :
    control_calls (message.handle_message B x i sender msg params).1.log
      = control_calls x.1.log := by
  cases sender with
  | none => rfl
  | some f => simp [message.handle_message, invoke_log, control_calls_append, control_calls]

theorem send_message_to_control_calls (B : behaviour) (x : pass_state × abstract_interface)
    (i : Nat) :
    control_calls (message.send_message_to B x i).1.log = control_calls x.1.log := by
  unfold message.send_message_to
  split
  · rfl
  · split
    · exact handle_message_control_calls B x i _ _ _
    · rfl

theorem send_messages_control_calls (B : behaviour) (s : pass_state) (root : ptr) :
    control_calls (message.send_messages B s root).1.log = control_calls s.log := by
  unfold message.send_messages
  split
  · rfl
  · simp only []
    split
    · rfl
    · exact (transverse_spec (message.send_message B _)
        (fun a b => control_calls b.log = control_calls a.log) (fun _ _ => True)
        (fun _ => True) (fun _ => rfl) (fun _ _ _ h1 h2 => h2.trans h1) (fun _ => trivial)
        (fun s d _ => ⟨foldl_preorder (message.send_message_to B)
          (fun a b => control_calls b.1.log = control_calls a.1.log) (fun _ => rfl)
          (fun _ _ _ h1 h2 => h2.trans h1) (send_message_to_control_calls B) _ (s, d), trivial⟩)
        root s (fun _ _ => trivial)).1

theorem step_control_calls (B : behaviour) (m : manager) :
    control_calls (m.step B).2
      = (preorder [] m.root_controller).filterMap (control_reached B) := by
  simp only [manager.step, manager.step_deliver, send_messages_control_calls,
    manager.step_control]
  rw [control_phase_log B m.root_controller [] _ rfl]
  rfl

/-- C1: in every step, `control()` is invoked in pre-order, once for each controller all of
whose proper ancestors returned `true` from `control()` in this step, and on no other
controller; for the chain root, A, B the invocation on A precedes the one on B, which is
skipped when A returns `false`. -/
theorem step_controls_in_preorder (B : behaviour) (m : manager) :
    control_calls (m.step B).2
        = (preorder [] m.root_controller).filterMap (control_reached B) ∧
      ∀ (r a b : abstract_interface) (protos : List (String × ptr)) (q : message.manager),
        control_calls
            ((manager.mk (.node r [.node a [.node b []]]) protos q).step B).2
          = r.value ::
              (if (B.control r).1 then
                a.value :: (if (B.control a).1 then [b.value] else [])
              else []) := by
  refine ⟨step_control_calls B m, ?_⟩
  intro r a b protos q
  rw [step_control_calls]
  cases hr : (B.control r).1 <;> cases ha : (B.control a).1 <;>
    simp [preorder, preorder_children, control_reached, hr, ha]
end ncc.controller

namespace ncc.tree

theorem filter_blocked {α : Type} (p : Option α → Bool) (f : List α × Option α → Bool)
    (anc : List α) (d : α) (hanc : anc ≠ []) (hd : p (some d) = true)
    (hf : ∀ x, f x = true → (x.1.drop 1).all (fun a => !p (some a)) = true)
    (l : List (List α × Option α)) (hl : ∀ x ∈ l, (anc ++ [d]) <+: x.1) :
    l.filter f = [] := by
  rw [List.filter_eq_nil_iff]
  intro x hx hfx
  obtain ⟨rest, hrest⟩ := hl x hx
  have h1 := hf x hfx
  rw [← hrest] at h1
  cases anc with
  | nil => exact hanc rfl
  | cons a anc =>
    simp only [List.cons_append, List.drop_succ_cons, List.drop_zero, List.all_append,
      List.all_cons, hd, Bool.not_true, Bool.false_and, Bool.and_false] at h1
    exact Bool.false_ne_true h1

theorem survives_drop {α : Type} (p : Option α → Bool) (x : List α × Option α)
    (h : survives p x = true) (hx : x.1 ≠ []) :
    (x.1.drop 1).all (fun a => !p (some a)) = true := by
  unfold survives at h
  cases hx1 : x.1 with
  | nil => exact absurd hx1 hx
  | cons a l =>
    rw [hx1] at h
    simp only [List.isEmpty_cons, Bool.false_or, Bool.and_eq_true] at h
    exact h.1

mutual
theorem remove_if_preorder {α σ : Type} (p : Option α → Bool)
    (sr : σ → node_type α → σ × Bool) (hp : ∀ s n, (sr s n).2 = p n.data?) :
    ∀ (t : node_type α) (anc : List α) (s : σ), anc ≠ [] →
      (anc.drop 1).all (fun a => !p (some a)) = true → p t.data? = false →
      preorder anc (remove_if sr s t).2 = (preorder anc t).filter (survives p)
  | .null, anc, s, hanc, hall, hpt => by
    have hpn : p none = false := hpt
    cases anc with
    | nil => exact absurd rfl hanc
    | cons a anc =>
      simp only [List.drop_succ_cons, List.drop_zero] at hall
      simp [remove_if, preorder, survives, hall, hpn]
  | .node d ch, anc, s, hanc, hall, hpt => by
    have hpd : p (some d) = false := hpt
    have hall2 : ((anc ++ [d]).drop 1).all (fun a => !p (some a)) = true := by
      cases anc with
      | nil => exact absurd rfl hanc
      | cons a anc =>
        simp only [List.drop_succ_cons, List.drop_zero] at hall
        simp [hall, hpd]
    have ih := remove_if_children_preorder p sr hp ch (anc ++ [d]) s (by simp) hall2
    have hs : survives p (anc, some d) = true := by
      unfold survives
      simp only [hall, hpd]
      simp
    simp only [remove_if, preorder, List.filter_cons, hs, if_true, ih]
theorem remove_if_children_preorder {α σ : Type} (p : Option α → Bool)
    (sr : σ → node_type α → σ × Bool) (hp : ∀ s n, (sr s n).2 = p n.data?) :
    ∀ (l : List (node_type α)) (anc : List α) (s : σ), anc ≠ [] →
      (anc.drop 1).all (fun a => !p (some a)) = true →
      preorder_children anc (remove_if_children sr s l).2
        = (preorder_children anc l).filter (survives p)
  | [], anc, s, _, _ => by simp [remove_if_children, preorder_children]
  | c :: cs, anc, s, hanc, hall => by
    have hpc := hp s c
    rcases hsr : sr s c with ⟨s1, b⟩
    rw [hsr] at hpc
    simp only at hpc
    cases b with
    | true =>
      have ih := remove_if_children_preorder p sr hp cs anc s1 hanc hall
      have hgone : (preorder anc c).filter (survives p) = [] := by
        cases c with
        | null =>
          have hpn : p none = true := hpc.symm
          simp [preorder, survives, hpn, hanc]
        | node d ch =>
          have hpd : p (some d) = true := hpc.symm
          have := filter_blocked p (survives p) anc d hanc hpd
            (fun x hx => by
              by_cases hx1 : x.1 = []
              · simp [hx1]
              · exact survives_drop p x hx hx1)
            (preorder_children (anc ++ [d]) ch) (preorder_children_ancestors _ ch)
          simp [preorder, survives, hpd, hanc, this]
      simp only [remove_if_children, hsr, preorder_children, List.filter_append, hgone,
        List.nil_append, ih]
    | false =>
      have h1 := remove_if_preorder p sr hp c anc s1 hanc hall hpc.symm
      have h2 := remove_if_children_preorder p sr hp cs anc (remove_if sr s1 c).1 hanc hall
      simp only [remove_if_children, hsr, preorder_children, List.filter_append, h1, h2]
end
end ncc.tree
namespace ncc.tree

theorem tested_drop {α : Type} (p : Option α → Bool) (x : List α × Option α)
    (h : tested p x = true) : (x.1.drop 1).all (fun a => !p (some a)) = true := by
  unfold tested at h
  simp only [Bool.and_eq_true] at h
  exact h.2

mutual
theorem remove_if_log {α : Type} (p : Option α → Bool) :
    ∀ (t : node_type α) (anc : List α) (s : List (Option α)), anc ≠ [] →
      (anc.drop 1).all (fun a => !p (some a)) = true → p t.data? = false →
      (remove_if (logged p) s t).1
        = s ++ (((preorder anc t).filter (tested p)).map (fun x => x.2)).drop 1
  | .null, anc, s, hanc, hall, _ => by
    have ht : tested p (anc, none) = true := by
      unfold tested
      simp only [hall]
      simp [hanc]
    simp [remove_if, preorder, ht]
  | .node d ch, anc, s, hanc, hall, hpt => by
    have hpd : p (some d) = false := hpt
    have hall2 : ((anc ++ [d]).drop 1).all (fun a => !p (some a)) = true := by
      cases anc with
      | nil => exact absurd rfl hanc
      | cons a anc =>
        simp only [List.drop_succ_cons, List.drop_zero] at hall
        simp [hall, hpd]
    have ih := remove_if_children_log p ch (anc ++ [d]) s (by simp) hall2
    have ht : tested p (anc, some d) = true := by
      unfold tested
      simp only [hall]
      simp [hanc]
    simp only [remove_if, preorder, List.filter_cons, ht, if_true, ih, List.map_cons,
      List.drop_succ_cons, List.drop_zero]
theorem remove_if_children_log {α : Type} (p : Option α → Bool) :
    ∀ (l : List (node_type α)) (anc : List α) (s : List (Option α)), anc ≠ [] →
      (anc.drop 1).all (fun a => !p (some a)) = true →
      (remove_if_children (logged p) s l).1
        = s ++ ((preorder_children anc l).filter (tested p)).map (fun x => x.2)
  | [], anc, s, _, _ => by simp [remove_if_children, preorder_children]
  | c :: cs, anc, s, hanc, hall => by
    have hhead : ∀ t : node_type α, ∃ rest,
        ((preorder anc t).filter (tested p)).map (fun x => x.2) = t.data? :: rest := by
      intro t
      have ht : ∀ o : Option α, tested p (anc, o) = true := by
        intro o
        unfold tested
        simp only [hall]
        simp [hanc]
      cases t with
      | null => exact ⟨[], by simp [preorder, ht, node_type.data?]⟩
      | node d ch => exact ⟨_, by simp [preorder, ht, node_type.data?]; rfl⟩
    cases hb : p c.data? with
    | true =>
      have ih := remove_if_children_log p cs anc (s ++ [c.data?]) hanc hall
      have hgone : ((preorder anc c).filter (tested p)).map (fun x => x.2) = [c.data?] := by
        have ht : ∀ o : Option α, tested p (anc, o) = true := by
          intro o
          unfold tested
          simp only [hall]
          simp [hanc]
        cases c with
        | null => simp [preorder, ht, node_type.data?]
        | node d ch =>
          have hpd : p (some d) = true := hb
          have := filter_blocked p (tested p) anc d hanc hpd (fun x hx => tested_drop p x hx)
            (preorder_children (anc ++ [d]) ch) (preorder_children_ancestors _ ch)
          simp [preorder, ht, this, node_type.data?]
      simp only [remove_if_children, logged, hb, preorder_children, List.filter_append,
        List.map_append, hgone, ih, List.append_assoc]
    | false =>
      have h1 := remove_if_log p c anc (s ++ [c.data?]) hanc hall hb
      have h2 := remove_if_children_log p cs anc (remove_if (logged p) (s ++ [c.data?]) c).1
        hanc hall
      obtain ⟨rest, hrest⟩ := hhead c
      rw [hrest] at h1
      simp only [List.drop_succ_cons, List.drop_zero] at h1
      simp only [remove_if_children, logged, hb, preorder_children, List.filter_append,
        List.map_append, hrest]
      rw [h2, h1]
      simp
end
end ncc.tree
namespace ncc.controller
open tree

theorem should_remove_eq (s : Unit) (n : ptr) : (should_remove s n).2 = flagged_dead n.data? := by
  cases n <;> rfl

theorem remove_if_root_preorder {α σ : Type} (p : Option α → Bool)
    (sr : σ → node_type α → σ × Bool) (hp : ∀ s n, (sr s n).2 = p n.data?)
    (s : σ) (root : node_type α) :
    preorder [] (remove_if sr s root).2 = (preorder [] root).filter (survives p) := by
  cases root with
  | null => simp [remove_if, preorder, survives]
  | node d ch =>
    have := remove_if_children_preorder p sr hp ch [d] s (by simp) (by simp)
    simp only [remove_if, preorder, List.nil_append, this]
    simp [survives]

/-- C4: after `remove_if(root, p)` the surviving pointers are the root and those none of
whose ancestors strictly below the root, nor themselves, satisfy `p`; `p` is evaluated on
the pointers none of whose ancestors strictly below the root satisfy it, so never below a
removed node; the prune phase of `step()` is the instance `p` = "not alive or null", which
removes a live child of a dead controller with it. -/
theorem remove_if_prunes_subtrees {α : Type} (p : Option α → Bool) (root : node_type α) :
    preorder [] (remove_if (logged p) [] root).2 = (preorder [] root).filter (survives p) ∧
      (remove_if (logged p) [] root).1
        = ((preorder [] root).filter (tested p)).map (fun x => x.2) ∧
      (∀ (B : behaviour) (m : manager),
        preorder [] (m.step B).1.root_controller
          = (preorder [] (m.step_deliver B).2).filter (survives flagged_dead)) ∧
      ∀ r a b : abstract_interface,
        (remove_if should_remove ()
          (.node r [.node { a with alive := false } [.node { b with alive := true } []]])).2
          = .node r [] := by
  refine ⟨remove_if_root_preorder p (logged p) (fun _ _ => rfl) [] root, ?_, ?_, ?_⟩
  · cases root with
    | null => simp [remove_if, preorder, tested]
    | node d ch =>
      have := remove_if_children_log p ch [d] [] (by simp) (by simp)
      simp only [remove_if, preorder, List.nil_append, this]
      simp [tested]
  · intro B m
    exact remove_if_root_preorder flagged_dead should_remove should_remove_eq () _
  · intro r a b
    simp [remove_if, remove_if_children, should_remove, abstract_interface.is_alive]
end ncc.controller

namespace ncc.tree

mutual
theorem nodes_eq_preorder {α : Type} :
    ∀ (t : node_type α) (anc : List α), nodes t = (preorder anc t).filterMap (fun x => x.2)
  | .null, anc => by simp [nodes, preorder]
  | .node d ch, anc => by
    simp [nodes, preorder, nodes_children_eq_preorder ch (anc ++ [d])]
theorem nodes_children_eq_preorder {α : Type} :
    ∀ (l : List (node_type α)) (anc : List α),
      nodes_children l = (preorder_children anc l).filterMap (fun x => x.2)
  | [], anc => by simp [nodes_children, preorder_children]
  | c :: cs, anc => by
    simp [nodes_children, preorder_children, List.filterMap_append,
      ← nodes_eq_preorder c anc, ← nodes_children_eq_preorder cs anc]
end

mutual
theorem related_nodes {α : Type} (R : α → α → Prop) :
    ∀ (t t1 : node_type α), related R t t1 → List.Forall₂ R (nodes t) (nodes t1)
  | .null, t1, h => by
    simp only [related] at h
    subst h
    simp [nodes]
  | .node d ch, t1, h => by
    simp only [related] at h
    obtain ⟨d1, ch1, rfl, hd, hch⟩ := h
    simp only [nodes]
    exact List.Forall₂.cons hd (related_children_nodes R ch ch1 hch)
theorem related_children_nodes {α : Type} (R : α → α → Prop) :
    ∀ (l l1 : List (node_type α)), related_children R l l1 →
      List.Forall₂ R (nodes_children l) (nodes_children l1)
  | [], l1, h => by
    simp only [related_children] at h
    subst h
    simp [nodes_children]
  | c :: cs, l1, h => by
    simp only [related_children] at h
    obtain ⟨c1, cs1, rfl, hc, hcs⟩ := h
    simp only [nodes_children]
    exact List.rel_append (related_nodes R c c1 hc) (related_children_nodes R cs cs1 hcs)
end

mutual
theorem related_trans {α : Type} (R : α → α → Prop) (hR : ∀ a b c, R a b → R b c → R a c) :
    ∀ (t t1 t2 : node_type α), related R t t1 → related R t1 t2 → related R t t2
  | .null, t1, t2, h1, h2 => by
    simp only [related] at h1
    subst h1
    simp only [related] at h2
    subst h2
    simp [related]
  | .node d ch, t1, t2, h1, h2 => by
    simp only [related] at h1
    obtain ⟨d1, ch1, rfl, hd, hch⟩ := h1
    simp only [related] at h2
    obtain ⟨d2, ch2, rfl, hd2, hch2⟩ := h2
    simp only [related]
    exact ⟨d2, ch2, rfl, hR _ _ _ hd hd2, related_children_trans R hR ch ch1 ch2 hch hch2⟩
theorem related_children_trans {α : Type} (R : α → α → Prop)
    (hR : ∀ a b c, R a b → R b c → R a c) :
    ∀ (l l1 l2 : List (node_type α)), related_children R l l1 → related_children R l1 l2 →
      related_children R l l2
  | [], l1, l2, h1, h2 => by
    simp only [related_children] at h1
    subst h1
    simp only [related_children] at h2
    subst h2
    simp [related_children]
  | c :: cs, l1, l2, h1, h2 => by
    simp only [related_children] at h1
    obtain ⟨c1, cs1, rfl, hc, hcs⟩ := h1
    simp only [related_children] at h2
    obtain ⟨c2, cs2, rfl, hc2, hcs2⟩ := h2
    simp only [related_children]
    exact ⟨c2, cs2, rfl, related_trans R hR c c1 c2 hc hc2,
      related_children_trans R hR cs cs1 cs2 hcs hcs2⟩
end

mutual
theorem remove_if_sublist {α σ : Type} (sr : σ → node_type α → σ × Bool) :
    ∀ (t : node_type α) (s : σ), (nodes (remove_if sr s t).2).Sublist (nodes t)
  | .null, s => by simp [remove_if]
  | .node d ch, s => by
    simp only [remove_if, nodes]
    exact (remove_if_children_sublist sr ch s).cons₂ d
theorem remove_if_children_sublist {α σ : Type} (sr : σ → node_type α → σ × Bool) :
    ∀ (l : List (node_type α)) (s : σ),
      (nodes_children (remove_if_children sr s l).2).Sublist (nodes_children l)
  | [], s => by simp [remove_if_children]
  | c :: cs, s => by
    rcases hsr : sr s c with ⟨s1, b⟩
    cases b with
    | true =>
      simp only [remove_if_children, hsr, nodes_children]
      exact (remove_if_children_sublist sr cs s1).trans (List.sublist_append_right _ _)
    | false =>
      simp only [remove_if_children, hsr, nodes_children]
      exact (remove_if_sublist sr c s1).append (remove_if_children_sublist sr cs _)
end

mutual
theorem remove_if_clears {α σ : Type} (p : Option α → Bool)
    (sr : σ → node_type α → σ × Bool) (hp : ∀ s n, (sr s n).2 = p n.data?) :
    ∀ (t : node_type α) (s : σ),
      ∀ c ∈ nodes_children (remove_if sr s t).2.children, p (some c) = false
  | .null, s => by simp [remove_if, node_type.children, nodes_children]
  | .node d ch, s => by
    simp only [remove_if, node_type.children]
    exact remove_if_children_clears p sr hp ch s
theorem remove_if_children_clears {α σ : Type} (p : Option α → Bool)
    (sr : σ → node_type α → σ × Bool) (hp : ∀ s n, (sr s n).2 = p n.data?) :
    ∀ (l : List (node_type α)) (s : σ),
      ∀ c ∈ nodes_children (remove_if_children sr s l).2, p (some c) = false
  | [], s => by simp [remove_if_children, nodes_children]
  | c :: cs, s => by
    have hpc := hp s c
    rcases hsr : sr s c with ⟨s1, b⟩
    rw [hsr] at hpc
    simp only at hpc
    cases b with
    | true =>
      simp only [remove_if_children, hsr]
      exact remove_if_children_clears p sr hp cs s1
    | false =>
      simp only [remove_if_children, hsr, nodes_children, List.mem_append]
      intro x hx
      rcases hx with hx | hx
      · have h1 := remove_if_clears p sr hp c s1 x
        cases c with
        | null => simp [remove_if, nodes] at hx
        | node d ch =>
          simp only [remove_if, nodes, List.mem_cons] at hx
          rcases hx with hx | hx
          · subst hx; exact hpc.symm
          · exact h1 (by simpa [remove_if, node_type.children] using hx)
      · exact remove_if_children_clears p sr hp cs _ x hx
end

mutual
theorem depth_first_search_none {α : Type} (q : node_type α → Bool) :
    ∀ (t : node_type α), (∀ d ch, q (.node d ch) = true → d ∉ nodes t) →
      (depth_first_search (fun (s : Unit) n => (s, q n)) () t).2 = .null
  | .null, _ => by simp [depth_first_search]
  | .node d ch, h => by
    have hq : q (.node d ch) = false := by
      cases hqq : q (.node d ch) with
      | false => rfl
      | true => exact absurd (by simp [nodes]) (h d ch hqq)
    simp only [depth_first_search, hq]
    exact depth_first_search_children_none q ch
      (fun d1 ch1 h1 hm => h d1 ch1 h1 (by simp [nodes, hm]))
theorem depth_first_search_children_none {α : Type} (q : node_type α → Bool) :
    ∀ (l : List (node_type α)), (∀ d ch, q (.node d ch) = true → d ∉ nodes_children l) →
      (depth_first_search_children (fun (s : Unit) n => (s, q n)) () l).2 = .null
  | [], _ => by simp [depth_first_search_children]
  | c :: cs, h => by
    have h1 := depth_first_search_none q c
      (fun d1 ch1 hq hm => h d1 ch1 hq (by simp [nodes_children, hm]))
    have h2 := depth_first_search_children_none q cs
      (fun d1 ch1 hq hm => h d1 ch1 hq (by simp [nodes_children, hm]))
    rcases hr : depth_first_search (fun (s : Unit) n => (s, q n)) () c with ⟨s1, r⟩
    rw [hr] at h1
    simp only at h1
    subst h1
    simp only [depth_first_search_children, hr]
    exact h2
end
end ncc.tree

namespace ncc.controller
open tree

theorem evolves_refl (c : abstract_interface) : evolves c c := ⟨rfl, rfl, rfl, id⟩

theorem evolves_trans (a b c : abstract_interface) (h1 : evolves a b) (h2 : evolves b c) :
    evolves a c :=
  ⟨h2.1.trans h1.1, h2.2.1.trans h1.2.1, h2.2.2.1.trans h1.2.2.1,
    fun h => h2.2.2.2 (h1.2.2.2 h)⟩

theorem apply_evolves (c : abstract_interface) (e : effects) : evolves c (c.apply e) := by
  unfold abstract_interface.apply
  cases e.set_name <;> cases e.remove_self <;>
    simp [evolves, abstract_interface.set_name, abstract_interface.remove_self]

theorem apply_name (c : abstract_interface) (e : effects) (h : e.set_name = none) :
    (c.apply e).name_holder = c.name_holder := by
  unfold abstract_interface.apply
  rw [h]
  cases e.remove_self <;> simp [abstract_interface.remove_self]

theorem send_message_to_evolves (B : behaviour) (x : pass_state × abstract_interface)
    (i : Nat) : evolves x.2 (message.send_message_to B x i).2 := by
  unfold message.send_message_to
  split
  · exact evolves_refl _
  · split
    · simp only [message.handle_message]
      split
      · exact evolves_refl _
      · exact apply_evolves _ _
    · exact evolves_refl _

theorem send_message_evolves (B : behaviour) (ready : List Nat) (s : pass_state)
    (c : abstract_interface) : evolves c (message.send_message B ready s c).2.1 :=
  foldl_preorder (message.send_message_to B) (fun a b => evolves a.2 b.2)
    (fun _ => evolves_refl _) (fun _ _ _ h1 h2 => evolves_trans _ _ _ h1 h2)
    (send_message_to_evolves B) ready (s, c)

theorem step_control_related (B : behaviour) (m : manager) :
    related evolves m.root_controller (m.step_control B).2 :=
  (transverse_spec (control B) (fun _ _ => True) evolves (fun _ => True) (fun _ => trivial)
    (fun _ _ _ _ _ => trivial) evolves_refl
    (fun _ d _ => ⟨trivial, apply_evolves d _⟩) m.root_controller _ (fun _ _ => trivial)).2

theorem send_messages_related (B : behaviour) (s : pass_state) (root : ptr) :
    related evolves root (message.send_messages B s root).2 := by
  unfold message.send_messages
  split
  · exact related_refl _ evolves_refl _
  · simp only []
    split
    · exact related_refl _ evolves_refl _
    · exact (transverse_spec (message.send_message B _) (fun _ _ => True) evolves
        (fun _ => True) (fun _ => trivial) (fun _ _ _ _ _ => trivial) evolves_refl
        (fun s d _ => ⟨trivial, send_message_evolves B _ s d⟩) root s
        (fun _ _ => trivial)).2

theorem step_deliver_related (B : behaviour) (m : manager) :
    related evolves m.root_controller (m.step_deliver B).2 :=
  related_trans evolves evolves_trans _ _ _ (step_control_related B m)
    (send_messages_related B _ _)

theorem forall₂_evolves_ids (l l1 : List abstract_interface)
    (h : List.Forall₂ evolves l l1) :
    l1.map (fun c => c.value) = l.map (fun c => c.value) := by
  induction h with
  | nil => rfl
  | cons hab _ ih => simp [ih, hab.1]

theorem related_ids (t t1 : ptr) (h : related evolves t t1) : ids t1 = ids t :=
  forall₂_evolves_ids _ _ (related_nodes evolves t t1 h)

theorem forall₂_mem_left {α : Type} (R : α → α → Prop) (l l1 : List α)
    (h : List.Forall₂ R l l1) : ∀ x ∈ l, ∃ y ∈ l1, R x y := by
  induction h with
  | nil => simp
  | cons hab _ ih =>
    intro x hx
    rcases List.mem_cons.1 hx with rfl | hx
    · exact ⟨_, List.mem_cons_self _ _, hab⟩
    · obtain ⟨y, hy, hr⟩ := ih x hx
      exact ⟨y, List.mem_cons_of_mem _ hy, hr⟩

theorem forall₂_mem_right {α : Type} (R : α → α → Prop) (l l1 : List α)
    (h : List.Forall₂ R l l1) : ∀ y ∈ l1, ∃ x ∈ l, R x y := by
  induction h with
  | nil => simp
  | cons hab _ ih =>
    intro y hy
    rcases List.mem_cons.1 hy with rfl | hy
    · exact ⟨_, List.mem_cons_self _ _, hab⟩
    · obtain ⟨x, hx, hr⟩ := ih y hy
      exact ⟨x, List.mem_cons_of_mem _ hx, hr⟩

/-- The prune phase on a tree with pairwise different ids: the id of a dead controller
below the root is the id of no controller of the pruned tree. -/
theorem prune_removes (t : ptr) (hn : (ids t).Nodup) (x : abstract_interface)
    (hx : x ∈ nodes_children t.children) (hdead : x.alive = false) :
    x.value ∉ ids (remove_if should_remove () t).2 := by
  cases t with
  | null => simp [node_type.children, nodes_children] at hx
  | node d ch =>
    simp only [node_type.children] at hx
    simp only [ids, nodes, List.map_cons, List.nodup_cons] at hn
    have hclear := remove_if_children_clears flagged_dead should_remove should_remove_eq ch ()
    have hsub := remove_if_children_sublist should_remove ch ()
    simp only [ids, remove_if, nodes, List.map_cons, List.mem_cons, List.mem_map, not_or]
    constructor
    · intro h
      exact hn.1 (h ▸ List.mem_map_of_mem (fun c => c.value) hx)
    · rintro ⟨y, hy, hyx⟩
      have hy1 := hsub.subset hy
      have := List.inj_on_of_nodup_map hn.2 hy1 hx hyx
      subst this
      have := hclear y hy
      simp [flagged_dead, abstract_interface.is_alive, hdead] at this

end ncc.controller

namespace ncc.controller
open tree

theorem find_controller_id_none (m : manager) (id : Nat) (h : id ∉ ids m.root_controller) :
    m.find_controller_id id = .null := by
  unfold manager.find_controller_id
  apply depth_first_search_none
    (fun n => match n with
      | .null => false
      | .node c _ => controller_has_id c id)
  intro d ch hq hd
  simp only [controller_has_id, abstract_interface.get_id, beq_iff_eq] at hq
  exact h (hq ▸ List.mem_map_of_mem (fun c => c.value) hd)

theorem step_root (B : behaviour) (m : manager) :
    (m.step B).1.root_controller = (remove_if should_remove () (m.step_deliver B).2).2 := rfl

theorem step_control_ids (B : behaviour) (m : manager) :
    ids (m.step_control B).2 = ids m.root_controller :=
  related_ids _ _ (step_control_related B m)

theorem step_deliver_ids (B : behaviour) (m : manager) :
    ids (m.step_deliver B).2 = ids m.root_controller :=
  related_ids _ _ (step_deliver_related B m)

/-- C3: a controller below the root whose liveness flag is false when the prune phase runs
is a member of the tree during the control and delivery phases (which remove nothing), is
not in the tree after `step()`, and `find_controller` with its id then returns null. -/
theorem dead_controller_excised_by_step (B : behaviour) (m : manager)
    (hn : (ids m.root_controller).Nodup) (x : abstract_interface)
    (hx : x ∈ nodes_children (m.step_deliver B).2.children) (hdead : x.alive = false) :
    ids (m.step_control B).2 = ids m.root_controller ∧
      ids (m.step_deliver B).2 = ids m.root_controller ∧
      x.value ∈ ids (m.step_control B).2 ∧
      x.value ∈ ids (m.step_deliver B).2 ∧
      x.value ∉ ids (m.step B).1.root_controller ∧
      (m.step B).1.find_controller_id x.value = .null := by
  have h2 : x.value ∈ ids (m.step_deliver B).2 := by
    cases ht : (m.step_deliver B).2 with
    | null => rw [ht] at hx; simp [node_type.children, nodes_children] at hx
    | node d ch =>
      rw [ht] at hx
      simp only [node_type.children] at hx
      simp only [ids, nodes, List.map_cons, List.mem_cons]
      exact Or.inr (List.mem_map_of_mem (fun c => c.value) hx)
  have h3 : x.value ∉ ids (m.step B).1.root_controller := by
    rw [step_root]
    exact prune_removes _ (by rw [step_deliver_ids]; exact hn) x hx hdead
  refine ⟨step_control_ids B m, step_deliver_ids B m, ?_, h2, h3,
    find_controller_id_none _ _ h3⟩
  rw [step_control_ids, ← step_deliver_ids B m]
  exact h2

theorem dead_controller_excised_by_step_witness :
    (ids c3_manager.root_controller).Nodup ∧
      c3_child.remove_self ∈ nodes_children (c3_manager.step_deliver c3_behaviour).2.children ∧
      c3_child.remove_self.alive = false ∧
      1 ∉ ids (c3_manager.step c3_behaviour).1.root_controller ∧
      (c3_manager.step c3_behaviour).1.find_controller_id 1 = .null :=
  ⟨by decide, by decide, rfl,
    (dead_controller_excised_by_step c3_behaviour c3_manager (by decide) c3_child.remove_self
      (by decide) rfl).2.2.2.2.1,
    (dead_controller_excised_by_step c3_behaviour c3_manager (by decide) c3_child.remove_self
      (by decide) rfl).2.2.2.2.2⟩
end ncc.controller

namespace ncc.controller
open tree

theorem step_ids_sublist (B : behaviour) (m : manager) :
    (ids (m.step B).1.root_controller).Sublist (ids m.root_controller) := by
  rw [step_root, ← step_deliver_ids B m]
  exact (remove_if_sublist should_remove _ ()).map _

theorem steps_ids_subset :
    ∀ (later : List behaviour) (m : manager),
      ids (m.steps later).root_controller ⊆ ids m.root_controller
  | [], _ => List.Subset.refl _
  | B :: rest, m => by
    simp only [manager.steps]
    exact (steps_ids_subset rest (m.step B).1).trans (step_ids_sublist B m).subset

theorem control_calls_subset_ids (B : behaviour) (m : manager) :
    control_calls (m.step B).2 ⊆ ids m.root_controller := by
  intro v hv
  rw [step_control_calls, List.mem_filterMap] at hv
  obtain ⟨p, hp, hv⟩ := hv
  rcases p with ⟨anc, o⟩
  cases o with
  | none => simp [control_reached] at hv
  | some c =>
    simp only [control_reached] at hv
    split at hv
    · simp only [Option.some.injEq] at hv
      subst hv
      have hc : c ∈ nodes m.root_controller := by
        rw [nodes_eq_preorder _ [], List.mem_filterMap]
        exact ⟨_, hp, rfl⟩
      exact List.mem_map_of_mem (fun c => c.value) hc
    · exact absurd hv (by simp)

theorem below_root_of_entry (t : ptr) (anc : List abstract_interface)
    (x : abstract_interface) (hx : (anc, some x) ∈ preorder [] t) (hanc : anc ≠ []) :
    x ∈ nodes_children t.children := by
  cases t with
  | null => simp [preorder] at hx
  | node d ch =>
    simp only [preorder, List.mem_cons, Prod.mk.injEq, List.nil_append] at hx
    rcases hx with ⟨h, _⟩ | hx
    · exact absurd h hanc
    · simp only [node_type.children]
      rw [nodes_children_eq_preorder ch [d], List.mem_filterMap]
      exact ⟨_, hx, rfl⟩

theorem related_below_root (t t1 : ptr) (h : related evolves t t1) (x : abstract_interface)
    (hx : x ∈ nodes_children t.children) :
    ∃ y ∈ nodes_children t1.children, evolves x y := by
  cases t with
  | null => simp [node_type.children, nodes_children] at hx
  | node d ch =>
    simp only [related] at h
    obtain ⟨d1, ch1, rfl, _, hch⟩ := h
    exact forall₂_mem_left evolves _ _ (related_children_nodes evolves ch ch1 hch) x hx

/-- A dead controller below the root is in no tree any later step works on. -/
theorem dead_below_root_gone (B : behaviour) (m : manager)
    (hn : (ids m.root_controller).Nodup) (x : abstract_interface)
    (hx : x ∈ nodes_children m.root_controller.children) (hdead : x.alive = false) :
    x.value ∉ ids (m.step B).1.root_controller := by
  obtain ⟨y, hy, hev⟩ := related_below_root _ _ (step_deliver_related B m) x hx
  rw [step_root, ← hev.1]
  exact prune_removes _ (by rw [step_deliver_ids]; exact hn) y hy (hev.2.2.2 hdead)

/-- C2 (as amended): the control phase does not consult the liveness flag. A controller
flagged dead before `step()` still has `control()` invoked in that step when all its
proper ancestors return `true`; when it is not the root and ids are pairwise different it
is excised by the prune phase of that step, so no later step invokes its `control()`. -/
theorem dead_controller_controlled_until_pruned (B : behaviour) (m : manager)
    (anc : List abstract_interface) (x : abstract_interface)
    (hx : (anc, some x) ∈ preorder [] m.root_controller) (hdead : x.alive = false) :
    (anc.all (fun a => (B.control a).1) = true → x.value ∈ control_calls (m.step B).2) ∧
      (anc ≠ [] → (ids m.root_controller).Nodup →
        ∀ (later : List behaviour) (B1 : behaviour),
          x.value ∉ control_calls (((m.step B).1.steps later).step B1).2) := by
  constructor
  · intro hall
    rw [step_control_calls, List.mem_filterMap]
    exact ⟨_, hx, by simp only [control_reached, hall, if_true]⟩
  · intro hanc hn later B1 hmem
    have h1 := control_calls_subset_ids B1 _ hmem
    have h2 := steps_ids_subset later _ h1
    exact dead_below_root_gone B m hn x (below_root_of_entry _ anc x hx hanc) hdead h2

theorem dead_controller_controlled_until_pruned_witness :
    ([c3_root], some c2_dead) ∈ preorder [] c2_manager.root_controller ∧
      c2_dead.alive = false ∧
      c2_dead.value ∈ control_calls (c2_manager.step c2_behaviour).2 ∧
      ∀ (later : List behaviour) (B1 : behaviour),
        c2_dead.value ∉
          control_calls (((c2_manager.step c2_behaviour).1.steps later).step B1).2 :=
  ⟨by decide, rfl,
    (dead_controller_controlled_until_pruned c2_behaviour c2_manager [c3_root] c2_dead
      (by decide) rfl).1 (by decide),
    (dead_controller_controlled_until_pruned c2_behaviour c2_manager [c3_root] c2_dead
      (by decide) rfl).2 (by decide) (by decide)⟩

/-- C2 (as stated) fails: a child of the root flagged dead before `step()` has its
`control()` invoked by that step. -/
theorem dead_controller_never_controlled_fails :
    ¬ ∀ (B : behaviour) (m : manager) (x : abstract_interface),
        x ∈ nodes m.root_controller → x.alive = false →
          x.value ∉ control_calls (m.step B).2 := by
  intro h
  exact h c2_behaviour c2_manager c2_dead (by decide) rfl (by decide)
end ncc.controller

namespace ncc.controller
open tree

theorem string_length_zero (n : String) (h : n.length = 0) : n = "" := by
  cases n with
  | mk l =>
    have : l = [] := List.length_eq_zero.1 h
    subst this
    rfl

theorem evolves_named_refl (c : abstract_interface) : evolves_named c c :=
  ⟨evolves_refl c, rfl⟩

theorem evolves_named_trans (a b c : abstract_interface) (h1 : evolves_named a b)
    (h2 : evolves_named b c) : evolves_named a c :=
  ⟨evolves_trans _ _ _ h1.1 h2.1, h2.2.trans h1.2⟩

theorem send_message_to_evolves_named (B : behaviour) (hB : B.renames_nothing)
    (x : pass_state × abstract_interface) (i : Nat) :
    evolves_named x.2 (message.send_message_to B x i).2 := by
  unfold message.send_message_to
  split
  · exact evolves_named_refl _
  · split
    · simp only [message.handle_message]
      split
      · exact evolves_named_refl _
      · exact ⟨apply_evolves _ _, apply_name _ _ (hB.2 _ _ _ _)⟩
    · exact evolves_named_refl _

theorem send_message_evolves_named (B : behaviour) (hB : B.renames_nothing)
    (ready : List Nat) (s : pass_state) (c : abstract_interface) :
    evolves_named c (message.send_message B ready s c).2.1 :=
  foldl_preorder (message.send_message_to B) (fun a b => evolves_named a.2 b.2)
    (fun _ => evolves_named_refl _) (fun _ _ _ h1 h2 => evolves_named_trans _ _ _ h1 h2)
    (send_message_to_evolves_named B hB) ready (s, c)

theorem step_control_related_named (B : behaviour) (hB : B.renames_nothing) (m : manager) :
    related evolves_named m.root_controller (m.step_control B).2 :=
  (transverse_spec (control B) (fun _ _ => True) evolves_named (fun _ => True)
    (fun _ => trivial) (fun _ _ _ _ _ => trivial) evolves_named_refl
    (fun _ d _ => ⟨trivial, apply_evolves d _, apply_name d _ (hB.1 d)⟩) m.root_controller _
    (fun _ _ => trivial)).2

theorem send_messages_related_named (B : behaviour) (hB : B.renames_nothing)
    (s : pass_state) (root : ptr) :
    related evolves_named root (message.send_messages B s root).2 := by
  unfold message.send_messages
  split
  · exact related_refl _ evolves_named_refl _
  · simp only []
    split
    · exact related_refl _ evolves_named_refl _
    · exact (transverse_spec (message.send_message B _) (fun _ _ => True) evolves_named
        (fun _ => True) (fun _ => trivial) (fun _ _ _ _ _ => trivial) evolves_named_refl
        (fun s d _ => ⟨trivial, send_message_evolves_named B hB _ s d⟩) root s
        (fun _ _ => trivial)).2

theorem step_deliver_related_named (B : behaviour) (hB : B.renames_nothing) (m : manager) :
    related evolves_named m.root_controller (m.step_deliver B).2 :=
  related_trans evolves_named evolves_named_trans _ _ _ (step_control_related_named B hB m)
    (send_messages_related_named B hB _ _)

mutual
theorem remove_by_name_covered (n : String) (hn : n ≠ "") :
    ∀ t : ptr, covered n (transverse_depth_first (remove_controller_by_name n) () t).2
  | .null => by simp [transverse_depth_first, covered]
  | .node d ch => by
    by_cases h : (d.get_name.length != 0 && d.get_name == n) = true
    · simp only [transverse_depth_first, remove_controller_by_name, h, if_true, covered]
      left
      simp only [Bool.and_eq_true, beq_iff_eq] at h
      exact ⟨h.2, rfl⟩
    · simp only [transverse_depth_first, remove_controller_by_name, h, covered]
      right
      refine ⟨?_, remove_by_name_covered_children n hn ch⟩
      intro hname
      apply h
      have hname2 : d.get_name = n := hname
      have hlen : n.length ≠ 0 := fun h0 => hn (string_length_zero n h0)
      simp [hname2, hlen]
theorem remove_by_name_covered_children (n : String) (hn : n ≠ "") :
    ∀ l : List ptr,
      covered_children n (transverse_children (remove_controller_by_name n) () l).2
  | [] => by simp [transverse_children, covered_children]
  | c :: cs => by
    simp only [transverse_children, covered_children]
    exact ⟨remove_by_name_covered n hn c, remove_by_name_covered_children n hn cs⟩
end
end ncc.controller
namespace ncc.controller
open tree

mutual
theorem covered_related (n : String) :
    ∀ (t t1 : ptr), related evolves_named t t1 → covered n t → covered n t1
  | .null, t1, h, _ => by
    simp only [related] at h
    subst h
    simp [covered]
  | .node d ch, t1, h, hc => by
    simp only [related] at h
    obtain ⟨d1, ch1, rfl, hd, hch⟩ := h
    simp only [covered] at hc ⊢
    rcases hc with ⟨h1, h2⟩ | ⟨h1, h2⟩
    · exact Or.inl ⟨hd.2.trans h1, hd.1.2.2.2 h2⟩
    · exact Or.inr ⟨fun hh => h1 (hd.2 ▸ hh), covered_children_related n ch ch1 hch h2⟩
theorem covered_children_related (n : String) :
    ∀ (l l1 : List ptr), related_children evolves_named l l1 → covered_children n l →
      covered_children n l1
  | [], l1, h, _ => by
    simp only [related_children] at h
    subst h
    simp [covered_children]
  | c :: cs, l1, h, hc => by
    simp only [related_children] at h
    obtain ⟨c1, cs1, rfl, h1, h2⟩ := h
    simp only [covered_children] at hc ⊢
    exact ⟨covered_related n c c1 h1 hc.1, covered_children_related n cs cs1 h2 hc.2⟩
end

mutual
theorem prune_covered (n : String) :
    ∀ (t : ptr), covered_children n t.children →
      ∀ c ∈ nodes_children (remove_if should_remove () t).2.children, c.name_holder ≠ n
  | .null, _ => by simp [remove_if, node_type.children, nodes_children]
  | .node d ch, h => by
    simp only [remove_if, node_type.children] at h ⊢
    exact prune_covered_children n ch h
theorem prune_covered_children (n : String) :
    ∀ (l : List ptr), covered_children n l →
      ∀ c ∈ nodes_children (remove_if_children should_remove () l).2, c.name_holder ≠ n
  | [], _ => by simp [remove_if_children, nodes_children]
  | c :: cs, h => by
    simp only [covered_children] at h
    have ih := prune_covered_children n cs h.2
    cases c with
    | null =>
      simpa only [remove_if_children, should_remove] using ih
    | node d ch =>
      cases ha : d.alive with
      | false =>
        simpa only [remove_if_children, should_remove, abstract_interface.is_alive, ha,
          Bool.not_false] using ih
      | true =>
        have hc := h.1
        simp only [covered, ha] at hc
        rcases hc with ⟨_, h2⟩ | ⟨h1, h2⟩
        · exact absurd h2 (by simp)
        · have ih1 := prune_covered n (.node d ch) h2
          simp only [remove_if_children, should_remove, abstract_interface.is_alive, ha,
            Bool.not_true, nodes_children, List.mem_append]
          intro x hx
          rcases hx with hx | hx
          · simp only [remove_if, nodes, List.mem_cons] at hx
            rcases hx with hx | hx
            · subst hx; exact h1
            · exact ih1 x (by simpa only [remove_if, node_type.children] using hx)
          · exact ih x hx
end

theorem remove_by_name_related (n : String) (t : ptr) :
    related evolves_named t (transverse_depth_first (remove_controller_by_name n) () t).2 :=
  (transverse_spec (remove_controller_by_name n) (fun _ _ => True) evolves_named
    (fun _ => True) (fun _ => trivial) (fun _ _ _ _ _ => trivial) evolves_named_refl
    (fun s d _ => ⟨trivial, by
      unfold remove_controller_by_name
      split
      · exact ⟨⟨rfl, rfl, rfl, fun _ => rfl⟩, rfl⟩
      · exact evolves_named_refl d⟩) t () (fun _ _ => trivial)).2

theorem find_controller_name_none (m : manager) (n : String)
    (h : ∀ c ∈ nodes m.root_controller, c.name_holder ≠ n) :
    m.find_controller_name n = .null := by
  unfold manager.find_controller_name
  apply depth_first_search_none
    (fun x => match x with
      | .null => false
      | .node c _ => controller_has_name c n)
  intro d ch hq hd
  simp only [controller_has_name, abstract_interface.get_name, Bool.and_eq_true,
    beq_iff_eq] at hq
  exact h d hd hq.2

/-- C10: under an unnamed root, after `remove_controller(n)` with `n` not empty and one
`step()` whose callbacks rename nothing, no controller named `n` is left in the tree, also
not one that was below another controller named `n`, and `find_controller(n)` returns
null. -/
theorem remove_controller_then_step_clears_name (B : behaviour) (m : manager) (n : String)
    (hroot : ∀ c, m.root_controller.data? = some c → c.name_holder = "") (hn : n ≠ "")
    (hB : B.renames_nothing) :
    (∀ c ∈ nodes ((m.remove_controller_name n).step B).1.root_controller,
        c.name_holder ≠ n) ∧
      ((m.remove_controller_name n).step B).1.find_controller_name n = .null := by
  have hall : ∀ c ∈ nodes ((m.remove_controller_name n).step B).1.root_controller,
      c.name_holder ≠ n := by
    have hrel1 := remove_by_name_related n m.root_controller
    have hrel2 := step_deliver_related_named B hB (m.remove_controller_name n)
    have hrel := related_trans evolves_named evolves_named_trans _ _ _ hrel1 hrel2
    have hcov := covered_related n _ _ hrel2 (remove_by_name_covered n hn m.root_controller)
    rw [step_root]
    cases hm : m.root_controller with
    | null =>
      rw [hm] at hrel
      simp only [related] at hrel
      have h2 : ((m.remove_controller_name n).step_deliver B).2 = .null := hrel
      rw [h2]
      simp [remove_if, nodes]
    | node r ch =>
      rw [hm] at hrel
      simp only [related] at hrel
      obtain ⟨r1, ch1, h2, hr1, _⟩ := hrel
      have h3 : ((m.remove_controller_name n).step_deliver B).2 = .node r1 ch1 := h2
      rw [h3] at hcov ⊢
      have hrn : r1.name_holder ≠ n := by
        rw [hr1.2, hroot r (by rw [hm]; rfl)]
        exact fun h => hn h.symm
      simp only [covered] at hcov
      rcases hcov with ⟨h4, _⟩ | ⟨_, h4⟩
      · exact absurd h4 hrn
      · have := prune_covered n (.node r1 ch1) h4
        intro c hc
        simp only [remove_if, nodes, List.mem_cons] at hc
        rcases hc with hc | hc
        · subst hc; exact hrn
        · exact this c (by simpa only [remove_if, node_type.children] using hc)
  exact ⟨hall, find_controller_name_none _ n hall⟩
end ncc.controller
namespace ncc.controller
open tree

theorem remove_controller_then_step_clears_name_witness :
    (∀ c, c10_manager.root_controller.data? = some c → c.name_holder = "") ∧
      "e1" ≠ "" ∧ c2_behaviour.renames_nothing ∧
      (c10_manager.find_controller_name "e1").is_null = false ∧
      ((c10_manager.remove_controller_name "e1").step c2_behaviour).1.find_controller_name
          "e1" = .null :=
  ⟨fun c h => by cases h; rfl, by decide, ⟨fun _ => rfl, fun _ _ _ _ => rfl⟩, by decide,
    (remove_controller_then_step_clears_name c2_behaviour c10_manager "e1"
      (fun c h => by cases h; rfl) (by decide) ⟨fun _ => rfl, fun _ _ _ _ => rfl⟩).2⟩
end ncc.controller

namespace ncc.tree

mutual
/-- A traversal whose visitor always continues visits every node, in pre-order: a relation
`J` between the state before, the state after and the nodes visited between the two, that
composes along concatenation, holds of the whole traversal and the nodes of the tree. -/
theorem transverse_visits {α σ : Type} (visit : σ → α → σ × α × Bool)
    (J : σ → σ → List α → Prop) (P : α → Prop)
    (hnil : ∀ s, J s s [])
    (hcomp : ∀ a b c l l1, J a b l → J b c l1 → J a c (l ++ l1))
    (hvisit : ∀ s d, P d → J s (visit s d).1 [d] ∧ (visit s d).2.2 = true) :
    ∀ (t : node_type α) (s : σ), (∀ d ∈ nodes t, P d) →
      J s (transverse_depth_first visit s t).1 (nodes t)
  | .null, s, _ => by simpa [transverse_depth_first, nodes] using hnil s
  | .node d ch, s, hP => by
    have hd : P d := hP d (by simp [nodes])
    have hch : ∀ x ∈ nodes_children ch, P x := fun x hx => hP x (by simp [nodes, hx])
    obtain ⟨h1, h2⟩ := hvisit s d hd
    rcases hv : visit s d with ⟨s1, d1, b⟩
    rw [hv] at h1 h2
    simp only at h2
    subst h2
    have h3 := transverse_children_visits visit J P hnil hcomp hvisit ch s1 hch
    simp only [transverse_depth_first, hv, nodes]
    exact hcomp _ _ _ [d] _ h1 h3
theorem transverse_children_visits {α σ : Type} (visit : σ → α → σ × α × Bool)
    (J : σ → σ → List α → Prop) (P : α → Prop)
    (hnil : ∀ s, J s s [])
    (hcomp : ∀ a b c l l1, J a b l → J b c l1 → J a c (l ++ l1))
    (hvisit : ∀ s d, P d → J s (visit s d).1 [d] ∧ (visit s d).2.2 = true) :
    ∀ (l : List (node_type α)) (s : σ), (∀ d ∈ nodes_children l, P d) →
      J s (transverse_children visit s l).1 (nodes_children l)
  | [], s, _ => by simpa [transverse_children, nodes_children] using hnil s
  | c :: cs, s, hP => by
    have hc : ∀ x ∈ nodes c, P x := fun x hx => hP x (by simp [nodes_children, hx])
    have hcs : ∀ x ∈ nodes_children cs, P x := fun x hx =>
      hP x (by simp [nodes_children, hx])
    have h1 := transverse_visits visit J P hnil hcomp hvisit c s hc
    have h2 := transverse_children_visits visit J P hnil hcomp hvisit cs
      (transverse_depth_first visit s c).1 hcs
    simp only [transverse_children, nodes_children]
    exact hcomp _ _ _ _ _ h1 h2
end
end ncc.tree

namespace ncc

/-- A fold whose every step at an element of the list moves along a preorder moves along
it. -/
theorem foldl_preorder_mem {β ι : Type} (f : β → ι → β) (I : β → β → Prop)
    (hI : ∀ x, I x x) (hT : ∀ a b c, I a b → I b c → I a c) :
    ∀ (l : List ι) (x : β), (∀ y, ∀ i ∈ l, I y (f y i)) → I x (l.foldl f x)
  | [], x, _ => hI x
  | i :: l, x, h =>
    hT _ _ _ (h x i (List.mem_cons_self _ _))
      (foldl_preorder_mem f I hI hT l (f x i)
        (fun y j hj => h y j (List.mem_cons_of_mem _ hj)))

namespace controller
open tree

theorem enqueue_messages (sends : List send_request) :
    ∀ q : message.manager,
      (sends.foldl
        (fun q r => q.add_message (some (message.message.create r.sender r.is_recipient
          r.msg_parcel))) q).messages
        = q.messages ++ sends.map (fun r => message.message.create r.sender r.is_recipient
            r.msg_parcel) := by
  induction sends with
  | nil => intro q; simp
  | cons r rest ih =>
    intro q
    rw [List.foldl_cons, ih]
    simp [message.manager.add_message]

theorem invoke_messages (s : pass_state) (ev : event) (e : effects) :
    (s.invoke ev e).message_manager.messages
      = s.message_manager.messages ++ e.sends.map (fun r =>
          message.message.create r.sender r.is_recipient r.msg_parcel) :=
  enqueue_messages e.sends s.message_manager

/-- What the state is after `send_message_to`, case by case. -/
theorem send_message_to_cases (B : behaviour) (x : pass_state × abstract_interface)
    (i : Nat) :
    (message.send_message_to B x i = x ∧
        ∀ mi, x.1.message_manager.messages[i]? = some mi → mi.is_recipient.call x.2 = false) ∨
      ∃ mi new, x.1.message_manager.messages[i]? = some mi ∧
        mi.is_recipient.call x.2 = true ∧
        (message.send_message_to B x i).1.message_manager.messages
          = (x.1.message_manager.messages ++ new).set i { mi with sent := true } ∧
        (message.send_message_to B x i).1.log = x.1.log ++ event.deliveries i mi x.2 ∧
        ((message.send_message_to B x i).2 = x.2 ∨
          ∃ f, mi.from_ = some f ∧
            (message.send_message_to B x i).2
              = x.2.apply (B.handle_message x.2 mi.message_parcel.message
                  mi.message_parcel.parameters f)) := by
  unfold message.send_message_to
  cases hm : x.1.message_manager.messages[i]? with
  | none => left; simp
  | some mi =>
    cases hc : mi.is_recipient.call x.2 with
    | false =>
      left
      simp only [hc, Bool.false_eq_true, if_false, true_and]
      intro mi2 h2
      cases h2
      exact hc
    | true =>
      right
      refine ⟨mi, ?_⟩
      cases hf : mi.from_ with
      | none =>
        refine ⟨[], rfl, hc, ?_, ?_, Or.inl ?_⟩ <;>
          simp [hc, message.handle_message, hf, event.deliveries]
      | some f =>
        refine ⟨(B.handle_message x.2 mi.message_parcel.message mi.message_parcel.parameters
          f).sends.map (fun r => message.message.create r.sender r.is_recipient
            r.msg_parcel), rfl, hc, ?_, ?_, Or.inr ⟨f, rfl, ?_⟩⟩
        · simp only [hc, if_true, message.handle_message, hf, invoke_messages]
        · simp [hc, message.handle_message, hf, event.deliveries, invoke_log, event.delivery]
        · simp [hc, message.handle_message, hf]
end controller
end ncc

namespace ncc.controller
open tree

theorem entry_after_set {β : Type} (l new : List β) (i j : Nat) (v a : β)
    (h : l[j]? = some a) :
    ((l ++ new).set i v)[j]? = if i = j then some v else some a := by
  have hj : j < l.length := (List.getElem?_eq_some.1 h).1
  rw [List.getElem?_set]
  by_cases hij : i = j
  · subst hij
    simp [hj, Nat.lt_add_right]
  · simp [hij, List.getElem?_append_left hj, h]

theorem exists_entry {β : Type} (q : List β) (i : Nat) (h : i < q.length) :
    ∃ a, q[i]? = some a := by
  cases hq : q[i]? with
  | none => exact absurd (List.getElem?_eq_none_iff.1 hq) (Nat.not_le.2 h)
  | some a => exact ⟨a, rfl⟩

theorem flag_flag (a : message.message) :
    ({ ({ a with sent := true } : message.message) with sent := true } : message.message)
      = { a with sent := true } := rfl

theorem marked_refl (q : List message.message) : message.marked q q :=
  fun _ _ h => Or.inl h

theorem marked_trans (q q1 q2 : List message.message) (h1 : message.marked q q1)
    (h2 : message.marked q1 q2) : message.marked q q2 := by
  intro i a ha
  rcases h1 i a ha with h | h
  · exact h2 i a h
  · rcases h2 i _ h with h3 | h3
    · exact Or.inr h3
    · exact Or.inr h3

theorem marked_append (q new : List message.message) : message.marked q (q ++ new) := by
  intro i a ha
  left
  rw [List.getElem?_append_left (List.getElem?_eq_some.1 ha).1]
  exact ha

theorem send_message_to_marked (B : behaviour) (x : pass_state × abstract_interface)
    (i : Nat) :
    message.marked x.1.message_manager.messages
      (message.send_message_to B x i).1.message_manager.messages := by
  rcases send_message_to_cases B x i with ⟨h, _⟩ | ⟨mi, new, hmi, _, hq, _, _⟩
  · rw [h]; exact marked_refl _
  · rw [hq]
    intro j a ha
    rw [entry_after_set _ _ _ _ _ _ ha]
    by_cases hij : i = j
    · subst hij
      rw [hmi] at ha
      cases ha
      simp
    · simp [hij]

theorem deliver_inv_refl (q : List message.message) (ready : List Nat) (s : pass_state) :
    deliver_inv q ready s s :=
  fun h => ⟨h, [], by simp, by simp⟩

theorem deliver_inv_trans (q : List message.message) (ready : List Nat)
    (a b c : pass_state) (h1 : deliver_inv q ready a b) (h2 : deliver_inv q ready b c) :
    deliver_inv q ready a c := by
  intro h
  obtain ⟨hb, l1, hl1, hg1⟩ := h1 h
  obtain ⟨hc, l2, hl2, hg2⟩ := h2 hb
  refine ⟨hc, l1 ++ l2, by rw [hl2, hl1, List.append_assoc], ?_⟩
  intro ev hev
  rcases List.mem_append.1 hev with h | h
  · exact hg1 ev h
  · exact hg2 ev h

theorem send_message_to_deliver_inv (B : behaviour) (q : List message.message)
    (ready : List Nat) (hr : ∀ i ∈ ready, i < q.length)
    (x : pass_state × abstract_interface) (i : Nat) (hi : i ∈ ready) :
    deliver_inv q ready x.1 (message.send_message_to B x i).1 := by
  intro hm
  refine ⟨marked_trans _ _ _ hm (send_message_to_marked B x i), ?_⟩
  rcases send_message_to_cases B x i with ⟨h, _⟩ | ⟨mi, new, hmi, _, _, hlog, _⟩
  · rw [h]; exact ⟨[], by simp, by simp⟩
  · refine ⟨_, hlog, ?_⟩
    intro ev hev
    obtain ⟨a, ha⟩ := exists_entry q i (hr i hi)
    have hmia : mi.from_ = a.from_ ∧ mi.message_parcel = a.message_parcel := by
      rcases hm i a ha with h | h
      · rw [hmi] at h; cases h; exact ⟨rfl, rfl⟩
      · rw [hmi] at h; cases h; exact ⟨rfl, rfl⟩
    unfold event.deliveries at hev
    cases hf : mi.from_ with
    | none => rw [hf] at hev; simp at hev
    | some f =>
      rw [hf] at hev
      simp only [List.mem_singleton] at hev
      subst hev
      exact ⟨x.2.value, i, f, a, hi, ha, hmia.1 ▸ hf, by
        simp only [event.delivery, hmia.2]⟩

theorem send_message_deliver_inv (B : behaviour) (q : List message.message)
    (ready : List Nat) (hr : ∀ i ∈ ready, i < q.length) (s : pass_state)
    (c : abstract_interface) :
    deliver_inv q ready s (message.send_message B ready s c).1 :=
  foldl_preorder_mem (message.send_message_to B)
    (fun a b => deliver_inv q ready a.1 b.1) (fun _ => deliver_inv_refl _ _ _)
    (fun _ _ _ h1 h2 => deliver_inv_trans _ _ _ _ _ h1 h2) ready (s, c)
    (fun y i hi => send_message_to_deliver_inv B q ready hr y i hi)

theorem traverse_deliver_inv (B : behaviour) (q : List message.message)
    (ready : List Nat) (hr : ∀ i ∈ ready, i < q.length) (s : pass_state) (root : ptr) :
    deliver_inv q ready s
      (transverse_depth_first (message.send_message B ready) s root).1 :=
  (transverse_spec (message.send_message B ready) (deliver_inv q ready) (fun _ _ => True)
    (fun _ => True) (deliver_inv_refl _ _) (deliver_inv_trans _ _) (fun _ => trivial)
    (fun s d _ => ⟨send_message_deliver_inv B q ready hr s d, trivial⟩) root s
    (fun _ _ => trivial)).1
end ncc.controller

namespace ncc.controller
open tree

theorem call_stable (p : message.recipient_predicate) (c c1 : abstract_interface)
    (h : evolves_named c c1) : p.call c1 = p.call c := by
  obtain ⟨⟨hv, ht, _, _⟩, hn⟩ := h
  cases p <;>
    simp [message.recipient_predicate.call, controller_has_name, is_controller,
      controller_has_type, returns_true, abstract_interface.get_name,
      abstract_interface.get_type, hv, ht, hn]

theorem filter_deliveries_same (k : Nat) (mk : message.message) (c : abstract_interface) :
    (event.deliveries k mk c).filter (event.for_message k) = event.deliveries k mk c := by
  unfold event.deliveries
  cases mk.from_ <;> simp [event.delivery, event.for_message]

theorem filter_deliveries_other (k i : Nat) (h : i ≠ k) (mi : message.message)
    (c : abstract_interface) :
    (event.deliveries i mi c).filter (event.for_message k) = [] := by
  unfold event.deliveries
  cases mi.from_ <;> simp [event.delivery, event.for_message, h]

/-- One `send_message_to`, seen from the queue entry at position `k`. -/
theorem send_message_to_entry (B : behaviour) (x : pass_state × abstract_interface)
    (i k : Nat) (mk : message.message)
    (hk : x.1.message_manager.messages[k]? = some mk) :
    (message.send_message_to B x i).1.message_manager.messages[k]?
        = some { mk with sent := mk.sent || (i == k && mk.is_recipient.call x.2) } ∧
      (message.send_message_to B x i).1.log.filter (event.for_message k)
        = x.1.log.filter (event.for_message k) ++
            (if (i == k && mk.is_recipient.call x.2) = true then event.deliveries k mk x.2
              else []) := by
  rcases send_message_to_cases B x i with ⟨h, hno⟩ | ⟨mi, new, hmi, hcall, hq, hlog, _⟩
  · rw [h]
    by_cases hik : i = k
    · subst hik
      have := hno mk hk
      simp [this, hk]
    · have hb : (i == k) = false := beq_false_of_ne hik
      rcases mk with ⟨p, f, pa, se⟩
      simp [hb, hk]
  · rw [hq, hlog, entry_after_set _ _ _ _ _ _ hk, List.filter_append]
    by_cases hik : i = k
    · subst hik
      rw [hmi] at hk
      cases hk
      simp [hcall, filter_deliveries_same]
    · have hb : (i == k) = false := beq_false_of_ne hik
      rcases mk with ⟨p, f, pa, se⟩
      simp [hik, hb, filter_deliveries_other k i hik]

theorem deliveries_stable (k : Nat) (mk mk1 : message.message) (c c1 : abstract_interface)
    (hf : mk1.from_ = mk.from_) (hp : mk1.message_parcel = mk.message_parcel)
    (hv : c1.value = c.value) : event.deliveries k mk1 c1 = event.deliveries k mk c := by
  unfold event.deliveries
  rw [hf]
  cases mk.from_ <;> simp [event.delivery, hp, hv]

/-- The visit of one controller by the delivery pass, seen from the queue entry at
position `k`. -/
theorem send_message_entry (B : behaviour) (hB : B.renames_nothing) (k : Nat) :
    ∀ (ready : List Nat), ready.Nodup →
      ∀ (x : pass_state × abstract_interface) (mk : message.message),
        x.1.message_manager.messages[k]? = some mk →
        (ready.foldl (message.send_message_to B) x).1.message_manager.messages[k]?
            = some { mk with
                sent := mk.sent || (decide (k ∈ ready) && mk.is_recipient.call x.2) } ∧
          (ready.foldl (message.send_message_to B) x).1.log.filter (event.for_message k)
            = x.1.log.filter (event.for_message k) ++
                (if (decide (k ∈ ready) && mk.is_recipient.call x.2) = true then
                  event.deliveries k mk x.2
                else []) := by
  intro ready
  induction ready with
  | nil =>
    intro _ x mk hk
    simp [hk]
  | cons i rest ih =>
    intro hnd x mk hk
    obtain ⟨h1, h2⟩ := send_message_to_entry B x i k mk hk
    have hev := send_message_to_evolves_named B hB x i
    obtain ⟨h3, h4⟩ := ih (List.nodup_cons.1 hnd).2 (message.send_message_to B x i) _ h1
    have hcs := call_stable mk.is_recipient _ _ hev
    have hds := deliveries_stable k mk
      { mk with sent := mk.sent || (i == k && mk.is_recipient.call x.2) } x.2
      (message.send_message_to B x i).2 rfl rfl hev.1.1
    simp only [List.foldl_cons]
    rw [h3, h4, h2, hds]
    simp only [hcs]
    have hnot : i = k → k ∉ rest := fun h => h ▸ (List.nodup_cons.1 hnd).1
    by_cases hik : i = k
    · subst hik
      have hr : decide (i ∈ rest) = false := by simpa using hnot rfl
      cases hc : mk.is_recipient.call x.2 <;> simp [hr, hc]
    · have hki : ¬ k = i := fun h => hik h.symm
      cases hc : mk.is_recipient.call x.2 <;> cases hr : decide (k ∈ rest) <;>
        simp [hik, hki, hc, hr, List.mem_cons]
end ncc.controller
namespace ncc.controller
open tree

theorem entry_pass_nil (ready : List Nat) (k : Nat) (s : pass_state) :
    entry_pass ready k s s [] := by
  intro mk hk
  rcases mk with ⟨p, f, pa, se⟩
  cases f <;> simp [hk, event.pass_deliveries]

theorem pass_deliveries_append (k : Nat) (mk : message.message)
    (l l1 : List abstract_interface) :
    event.pass_deliveries k mk (l ++ l1)
      = event.pass_deliveries k mk l ++ event.pass_deliveries k mk l1 := by
  unfold event.pass_deliveries
  cases mk.from_ <;> simp

theorem entry_pass_comp (ready : List Nat) (k : Nat) (a b c : pass_state)
    (l l1 : List abstract_interface) (h1 : entry_pass ready k a b l)
    (h2 : entry_pass ready k b c l1) : entry_pass ready k a c (l ++ l1) := by
  intro mk hk
  obtain ⟨h3, h4⟩ := h1 mk hk
  obtain ⟨h5, h6⟩ := h2 _ h3
  rw [h5, h6, h4, pass_deliveries_append]
  have hpd : ∀ b : Bool, event.pass_deliveries k
      ({ mk with sent := b } : message.message) l1 = event.pass_deliveries k mk l1 :=
    fun _ => rfl
  rw [hpd]
  constructor
  · rcases mk with ⟨p, f, pa, se⟩
    simp only [List.any_append, Option.some.injEq, message.message.mk.injEq, true_and]
    cases se <;> cases decide (k ∈ ready) <;> cases l.any (fun c => p.call c) <;> simp
  · by_cases hr : k ∈ ready <;> simp [hr]

theorem send_message_entry_pass (B : behaviour) (hB : B.renames_nothing)
    (ready : List Nat) (hnd : ready.Nodup) (k : Nat) (s : pass_state)
    (d : abstract_interface) :
    entry_pass ready k s (message.send_message B ready s d).1 [d] := by
  intro mk hk
  obtain ⟨h1, h2⟩ := send_message_entry B hB k ready hnd (s, d) mk hk
  simp only [message.send_message]
  rw [h1, h2]
  constructor
  · simp
  · simp only [event.pass_deliveries, event.deliveries]
    by_cases hr : k ∈ ready <;> cases hc : mk.is_recipient.call d <;>
      cases hf : mk.from_ <;> simp [hr, hc]

/-- The traversal of the delivery pass, seen from the queue entry at position `k`. -/
theorem traverse_entry_pass (B : behaviour) (hB : B.renames_nothing) (ready : List Nat)
    (hnd : ready.Nodup) (k : Nat) (s : pass_state) (root : ptr) :
    entry_pass ready k s
      (transverse_depth_first (message.send_message B ready) s root).1 (nodes root) :=
  transverse_visits (message.send_message B ready) (entry_pass ready k) (fun _ => True)
    (entry_pass_nil ready k) (entry_pass_comp ready k)
    (fun s d _ => ⟨send_message_entry_pass B hB ready hnd k s d, rfl⟩) root s
    (fun _ _ => trivial)
end ncc.controller

namespace ncc.controller
open tree

theorem control_inv_refl (s : pass_state) : control_inv s s :=
  ⟨⟨[], by simp⟩, [], by simp, by simp⟩

theorem control_inv_trans (a b c : pass_state) (h1 : control_inv a b)
    (h2 : control_inv b c) : control_inv a c := by
  obtain ⟨⟨n1, hn1⟩, l1, hl1, hg1⟩ := h1
  obtain ⟨⟨n2, hn2⟩, l2, hl2, hg2⟩ := h2
  refine ⟨⟨n1 ++ n2, by rw [hn2, hn1, List.append_assoc]⟩, l1 ++ l2,
    by rw [hl2, hl1, List.append_assoc], ?_⟩
  intro ev hev
  rcases List.mem_append.1 hev with h | h
  · exact hg1 ev h
  · exact hg2 ev h

theorem step_control_inv (B : behaviour) (m : manager) :
    control_inv { message_manager := m.message_manager, log := [] } (m.step_control B).1 :=
  (transverse_spec (control B) control_inv (fun _ _ => True) (fun _ => True)
    control_inv_refl control_inv_trans (fun _ => trivial)
    (fun s d _ => ⟨⟨⟨_, invoke_messages s _ _⟩, [event.control d.value], invoke_log s _ _,
      by simp⟩, trivial⟩) m.root_controller _ (fun _ _ => trivial)).1

theorem step_control_queue (B : behaviour) (m : manager) :
    ∃ new, (m.step_control B).1.message_manager.messages = m.queue ++ new :=
  (step_control_inv B m).1

theorem step_control_entry (B : behaviour) (m : manager) (k : Nat) (a : message.message)
    (h : m.queue[k]? = some a) :
    (m.step_control B).1.message_manager.messages[k]? = some a := by
  obtain ⟨new, hnew⟩ := step_control_queue B m
  rw [hnew, List.getElem?_append_left (List.getElem?_eq_some.1 h).1]
  exact h

theorem step_control_log (B : behaviour) (m : manager) :
    ∀ ev ∈ (m.step_control B).1.log, ∃ c, ev = event.control c := by
  obtain ⟨_, added, hl, hg⟩ := step_control_inv B m
  rw [hl]
  simpa using hg

theorem step_control_log_filter (B : behaviour) (m : manager) (k : Nat) :
    (m.step_control B).1.log.filter (event.for_message k) = [] := by
  rw [List.filter_eq_nil_iff]
  intro ev hev
  obtain ⟨c, rfl⟩ := step_control_log B m ev hev
  simp [event.for_message]

theorem mem_ready_messages (conditions : Nat → Bool) (q : List message.message) (i : Nat) :
    i ∈ message.ready_messages conditions q ↔
      ∃ a, q[i]? = some a ∧ a.message_parcel.send conditions = true := by
  unfold message.ready_messages
  rw [List.mem_filter, List.mem_range]
  constructor
  · rintro ⟨hi, h⟩
    obtain ⟨a, ha⟩ := exists_entry q i hi
    rw [ha] at h
    exact ⟨a, ha, h⟩
  · rintro ⟨a, ha, hs⟩
    refine ⟨(List.getElem?_eq_some.1 ha).1, ?_⟩
    rw [ha]
    exact hs

theorem ready_messages_nodup (conditions : Nat → Bool) (q : List message.message) :
    (message.ready_messages conditions q).Nodup :=
  (List.nodup_range _).filter _

theorem ready_messages_lt (conditions : Nat → Bool) (q : List message.message) :
    ∀ i ∈ message.ready_messages conditions q, i < q.length := by
  intro i hi
  obtain ⟨a, ha, _⟩ := (mem_ready_messages conditions q i).1 hi
  exact (List.getElem?_eq_some.1 ha).1

/-- The delivery phase when some entry of the queue is ready: the traversal runs and the
purge follows. -/
theorem send_messages_ready (B : behaviour) (s : pass_state) (root : ptr) (k : Nat)
    (hk : k ∈ message.ready_messages B.conditions s.message_manager.messages) :
    (message.send_messages B s root).1.message_manager.messages
        = (transverse_depth_first
            (message.send_message B
              (message.ready_messages B.conditions s.message_manager.messages)) s
            root).1.message_manager.messages.filter message.kept ∧
      (message.send_messages B s root).1.log
        = (transverse_depth_first
            (message.send_message B
              (message.ready_messages B.conditions s.message_manager.messages)) s
            root).1.log := by
  have h1 : s.message_manager.messages.isEmpty = false := by
    have := ready_messages_lt _ _ k hk
    cases hq : s.message_manager.messages with
    | nil => rw [hq] at this; simp at this
    | cons a l => rfl
  have h2 : (message.ready_messages B.conditions s.message_manager.messages).isEmpty
      = false := by
    cases hr : message.ready_messages B.conditions s.message_manager.messages with
    | nil => rw [hr] at hk; simp at hk
    | cons a l => rfl
  unfold message.send_messages
  simp only [h1, h2, Bool.false_eq_true, if_false]
  constructor <;> first | rfl | trivial

/-- Every invocation a step records is one of `control()`, or one of `handle_message` for
a ready entry of the queue as the control phase left it. -/
theorem step_events (B : behaviour) (m : manager) :
    ∀ ev ∈ (m.step B).2, (∃ c, ev = event.control c) ∨
      event.from_queue (m.step_control B).1.message_manager.messages
        (message.ready_messages B.conditions
          (m.step_control B).1.message_manager.messages) ev := by
  intro ev hev
  have hlog : (m.step B).2 = (message.send_messages B (m.step_control B).1
      (m.step_control B).2).1.log := rfl
  rw [hlog] at hev
  unfold message.send_messages at hev
  split at hev
  · exact Or.inl (step_control_log B m ev hev)
  · simp only [] at hev
    split at hev
    · exact Or.inl (step_control_log B m ev hev)
    · obtain ⟨_, added, hl, hg⟩ := traverse_deliver_inv B _ _ (ready_messages_lt _ _)
        (m.step_control B).1 (m.step_control B).2 (marked_refl _)
      simp only [] at hev
      rw [hl, List.mem_append] at hev
      rcases hev with h | h
      · exact Or.inl (step_control_log B m ev h)
      · exact Or.inr (hg ev h)
end ncc.controller

namespace ncc.controller
open tree

theorem recipients_related (k : Nat) (mk : message.message)
    (l l1 : List abstract_interface) (h : List.Forall₂ evolves_named l l1) :
    l1.any (fun c => mk.is_recipient.call c) = l.any (fun c => mk.is_recipient.call c) ∧
      event.pass_deliveries k mk l1 = event.pass_deliveries k mk l := by
  induction h with
  | nil => exact ⟨rfl, rfl⟩
  | @cons a b l l1 hab _ ih =>
    have hc := call_stable mk.is_recipient a b hab
    have hv : b.value = a.value := hab.1.1
    obtain ⟨ih1, ih2⟩ := ih
    constructor
    · simp only [List.any_cons, hc, ih1]
    · unfold event.pass_deliveries at ih2 ⊢
      cases hf : mk.from_ with
      | none => rfl
      | some f =>
        rw [hf] at ih2
        simp only at ih2
        simp only [List.filter_cons, hc]
        cases hca : mk.is_recipient.call a with
        | false => simpa using ih2
        | true => simp [ih2, event.delivery, hv]

theorem step_queue (B : behaviour) (m : manager) :
    (m.step B).1.queue
      = (message.send_messages B (m.step_control B).1
          (m.step_control B).2).1.message_manager.messages := rfl

theorem step_log (B : behaviour) (m : manager) :
    (m.step B).2
      = (message.send_messages B (m.step_control B).1 (m.step_control B).2).1.log := rfl

/-- A step whose queue has a ready entry purges the `marked` queue its delivery pass
leaves. -/
theorem step_purges (B : behaviour) (m : manager) (k : Nat) (m0 : message.message)
    (hk : m.queue[k]? = some m0) (hready : m0.message_parcel.send B.conditions = true) :
    ∃ q2, message.marked m.queue q2 ∧ (m.step B).1.queue = q2.filter message.kept := by
  have hk1 := step_control_entry B m k m0 hk
  have hr := (mem_ready_messages B.conditions _ k).2 ⟨m0, hk1, hready⟩
  obtain ⟨hq, _⟩ := send_messages_ready B (m.step_control B).1 (m.step_control B).2 k hr
  obtain ⟨hm, _⟩ := traverse_deliver_inv B _ _ (ready_messages_lt _ _)
    (m.step_control B).1 (m.step_control B).2 (marked_refl _)
  obtain ⟨new, hnew⟩ := step_control_queue B m
  refine ⟨_, marked_trans _ _ _ ?_ hm, by rw [step_queue, hq]⟩
  rw [hnew]
  exact marked_append _ _

/-- A step of a behaviour that renames nothing, seen from a ready entry of the queue. -/
theorem step_entry (B : behaviour) (hB : B.renames_nothing) (m : manager) (k : Nat)
    (m0 : message.message) (hk : m.queue[k]? = some m0)
    (hready : m0.message_parcel.send B.conditions = true) :
    (∃ q2, message.marked m.queue q2 ∧
        q2[k]? = some { m0 with
          sent := m0.sent ||
            (nodes m.root_controller).any (fun c => m0.is_recipient.call c) } ∧
        (m.step B).1.queue = q2.filter message.kept) ∧
      (m.step B).2.filter (event.for_message k)
        = event.pass_deliveries k m0 (nodes m.root_controller) := by
  have hk1 := step_control_entry B m k m0 hk
  have hr := (mem_ready_messages B.conditions _ k).2 ⟨m0, hk1, hready⟩
  obtain ⟨hq, hl⟩ := send_messages_ready B (m.step_control B).1 (m.step_control B).2 k hr
  obtain ⟨hm, _⟩ := traverse_deliver_inv B _ _ (ready_messages_lt _ _)
    (m.step_control B).1 (m.step_control B).2 (marked_refl _)
  obtain ⟨new, hnew⟩ := step_control_queue B m
  obtain ⟨he1, he2⟩ := traverse_entry_pass B hB _ (ready_messages_nodup B.conditions _) k
    (m.step_control B).1 (m.step_control B).2 m0 hk1
  obtain ⟨hr1, hr2⟩ := recipients_related k m0 _ _
    (related_nodes evolves_named _ _ (step_control_related_named B hB m))
  constructor
  · refine ⟨_, marked_trans _ _ _ ?_ hm, ?_, by rw [step_queue, hq]⟩
    · rw [hnew]
      exact marked_append _ _
    · rw [he1, hr1]
      simp [hr]
  · rw [step_log, hl, he2, step_control_log_filter, hr2]
    simp [hr]
end ncc.controller

namespace ncc.controller
open tree

/-- C5: in a step whose callbacks rename nothing, the invocations of `handle_message` made
for a ready queue entry with a non-null sender are, in pre-order, one on each controller of
the tree (root included) that its recipient predicate holds of, with its payload,
parameters and sender, and none on another controller; when there is a recipient the entry
is flagged `sent` and the purge drops it. A `send_message_to_all(sender, T, msg)` reaches
each controller of type `T` once. -/
theorem ready_message_reaches_every_recipient (B : behaviour) (hB : B.renames_nothing)
    (m : manager) (k : Nat) (m0 : message.message) (f : Nat)
    (hk : m.queue[k]? = some m0) (hfrom : m0.from_ = some f)
    (hready : m0.message_parcel.send B.conditions = true) :
    (m.step B).2.filter (event.for_message k)
        = ((nodes m.root_controller).filter (fun c => m0.is_recipient.call c)).map
            (event.delivery k m0 f) ∧
      ((∃ c ∈ nodes m.root_controller, m0.is_recipient.call c = true) →
        ∃ q2, message.marked m.queue q2 ∧ q2[k]? = some { m0 with sent := true } ∧
          message.kept { m0 with sent := true } = false ∧
          (m.step B).1.queue = q2.filter message.kept) ∧
      ∀ (T : String) (msg : parameter),
        ((m.send_message_to_all_type (some f) T msg).step B).2.filter
            (event.for_message m.queue.length)
          = ((nodes m.root_controller).filter (fun c => c.get_type == T)).map
              (fun c => event.handle_message c.value m.queue.length msg [] f) := by
  obtain ⟨⟨q2, hq2, hentry, hfinal⟩, hlog⟩ := step_entry B hB m k m0 hk hready
  refine ⟨?_, ?_, ?_⟩
  · rw [hlog]
    simp only [event.pass_deliveries, hfrom]
  · rintro ⟨c, hc, hcall⟩
    have hany : (nodes m.root_controller).any (fun c => m0.is_recipient.call c) = true :=
      List.any_eq_true.2 ⟨c, hc, hcall⟩
    refine ⟨q2, hq2, ?_, ?_, hfinal⟩
    · rw [hentry, hany, Bool.or_true]
    · simp [message.kept, message.message_sent, hfrom]
  · intro T msg
    have h := (step_entry B hB (m.send_message_to_all_type (some f) T msg) m.queue.length
      (message.message.create (some f) (.controller_has_type T)
        (message.parcel.of_message msg))
      (by simp [manager.queue, manager.send_message_to_all_type,
        message.manager.add_message])
      rfl).2
    rw [h]
    rfl

theorem ready_message_reaches_every_recipient_witness :
    c2_behaviour.renames_nothing ∧ c5_manager.queue[0]? = some c5_message ∧
      c5_message.from_ = some 3 ∧
      c5_message.message_parcel.send c2_behaviour.conditions = true ∧
      (c5_manager.step c2_behaviour).2.filter (event.for_message 0)
        = [event.handle_message 1 0 "destroy" [] 3, event.handle_message 2 0 "destroy" [] 3] ∧
      (c5_manager.step c2_behaviour).1.queue = [] :=
  ⟨⟨fun _ => rfl, fun _ _ _ _ => rfl⟩, by decide, rfl, rfl,
    (ready_message_reaches_every_recipient c2_behaviour ⟨fun _ => rfl, fun _ _ _ _ => rfl⟩
      c5_manager 0 c5_message 3 (by decide) rfl rfl).1.trans (by decide),
    by decide⟩
end ncc.controller

namespace ncc.controller
open tree

theorem split_at_entry {β : Type} :
    ∀ (l : List β) (k : Nat) (a : β), l[k]? = some a →
      l = l.take k ++ a :: l.drop (k + 1)
  | [], k, a, h => by simp at h
  | b :: l, 0, a, h => by
    simp only [List.getElem?_cons_zero, Option.some.injEq] at h
    subst h
    simp
  | b :: l, k + 1, a, h => by
    simp only [List.getElem?_cons_succ] at h
    have := split_at_entry l k a h
    simp only [List.take_succ_cons, List.drop_succ_cons, List.cons_append,
      List.cons.injEq, true_and]
    exact this

theorem marked_tail (a b : message.message) (q q2 : List message.message)
    (h : message.marked (a :: q) (b :: q2)) :
    (b = a ∨ b = { a with sent := true }) ∧ message.marked q q2 := by
  constructor
  · have := h 0 a (by simp)
    simpa using this
  · intro i x hx
    have := h (i + 1) x (by simpa using hx)
    simpa using this

theorem kept_flag (a : message.message) :
    message.kept ({ a with sent := true } : message.message) = false := by
  unfold message.kept message.message_sent
  cases a.from_ <;> rfl

/-- The entries the purge keeps among the first `k` of a `marked` queue are entries of the
old queue, untouched and in their order. -/
theorem kept_sublist :
    ∀ (q q2 : List message.message) (k : Nat), message.marked q q2 → k ≤ q.length →
      ((q2.take k).filter message.kept).Sublist (q.take k)
  | _, _, 0, _, _ => by simp
  | [], _, k + 1, _, hk => by simp at hk
  | a :: q, [], k + 1, h, _ => by
    have := h 0 a (by simp)
    simp at this
  | a :: q, b :: q2, k + 1, h, hk => by
    obtain ⟨hb, ht⟩ := marked_tail a b q q2 h
    have ih := kept_sublist q q2 k ht (Nat.le_of_succ_le_succ hk)
    simp only [List.take_succ_cons, List.filter_cons]
    rcases hb with rfl | rfl
    · split
      · exact ih.cons₂ _
      · exact ih.cons _
    · rw [kept_flag]
      simp only [Bool.false_eq_true, if_false]
      exact ih.cons _

/-- C8: in a step whose callbacks rename nothing, a ready, pending message with a non-null
sender whose recipient predicate holds of no controller of the tree causes no invocation of
`handle_message` and is still in the queue afterwards, behind the survivors of the entries
that were before it and before everything else. -/
theorem unmatched_message_stays_queued (B : behaviour) (hB : B.renames_nothing)
    (m : manager) (k : Nat) (m0 : message.message) (f : Nat)
    (hk : m.queue[k]? = some m0) (hfrom : m0.from_ = some f) (hsent : m0.sent = false)
    (hready : m0.message_parcel.send B.conditions = true)
    (hnone : ∀ c ∈ nodes m.root_controller, m0.is_recipient.call c = false) :
    (m.step B).2.filter (event.for_message k) = [] ∧
      ∃ q2, message.marked m.queue q2 ∧ q2[k]? = some m0 ∧
        (m.step B).1.queue
          = (q2.take k).filter message.kept ++ m0 :: (q2.drop (k + 1)).filter message.kept ∧
        ((q2.take k).filter message.kept).Sublist (m.queue.take k) := by
  obtain ⟨⟨q2, hq2, hentry, hfinal⟩, hlog⟩ := step_entry B hB m k m0 hk hready
  have hfil : (nodes m.root_controller).filter (fun c => m0.is_recipient.call c) = [] :=
    List.filter_eq_nil_iff.2 (fun c hc => by simp [hnone c hc])
  have hany : (nodes m.root_controller).any (fun c => m0.is_recipient.call c) = false := by
    rw [List.any_eq_false]
    intro c hc
    simp [hnone c hc]
  have hentry2 : q2[k]? = some m0 := by
    rw [hentry, hany, hsent]
    rcases m0 with ⟨p, fr, pa, se⟩
    simp only at hsent
    subst hsent
    rfl
  have hkept : message.kept m0 = true := by
    simp [message.kept, message.message_sent, hfrom, hsent]
  refine ⟨?_, q2, hq2, hentry2, ?_, ?_⟩
  · rw [hlog]
    simp only [event.pass_deliveries, hfrom, hfil, List.map_nil]
  · rw [hfinal]
    conv_lhs => rw [split_at_entry q2 k m0 hentry2]
    rw [List.filter_append, List.filter_cons, hkept]
    rfl
  · exact kept_sublist _ _ k hq2 (Nat.le_of_lt (List.getElem?_eq_some.1 hk).1)

theorem unmatched_message_stays_queued_witness :
    c2_behaviour.renames_nothing ∧ c8_manager.queue[0]? = some c8_message ∧
      c8_message.from_ = some 1 ∧ c8_message.sent = false ∧
      c8_message.message_parcel.send c2_behaviour.conditions = true ∧
      (∀ c ∈ nodes c8_manager.root_controller, c8_message.is_recipient.call c = false) ∧
      (c8_manager.step c2_behaviour).2.filter (event.for_message 0) = [] ∧
      (c8_manager.step c2_behaviour).1.queue = [c8_message] :=
  ⟨⟨fun _ => rfl, fun _ _ _ _ => rfl⟩, by decide, rfl, rfl, rfl, by decide,
    (unmatched_message_stays_queued c2_behaviour ⟨fun _ => rfl, fun _ _ _ _ => rfl⟩
      c8_manager 0 c8_message 1 (by decide) rfl rfl rfl (by decide)).1,
    by decide⟩
end ncc.controller

namespace ncc.controller
open tree

theorem send_message_to_other (B : behaviour) (x : pass_state × abstract_interface)
    (i k : Nat) (hik : i ≠ k) (mk : message.message)
    (hk : x.1.message_manager.messages[k]? = some mk) :
    (message.send_message_to B x i).1.message_manager.messages[k]? = some mk := by
  rw [(send_message_to_entry B x i k mk hk).1]
  have hb : (i == k) = false := beq_false_of_ne hik
  rcases mk with ⟨p, f, pa, se⟩
  simp [hb]

/-- The delivery pass leaves an entry that is not ready as it is. -/
theorem traverse_unready (B : behaviour) (ready : List Nat) (k : Nat) (hk : k ∉ ready)
    (s : pass_state) (root : ptr) (mk : message.message)
    (h : s.message_manager.messages[k]? = some mk) :
    (transverse_depth_first (message.send_message B ready) s
      root).1.message_manager.messages[k]? = some mk :=
  (transverse_spec (message.send_message B ready)
    (fun a b => ∀ mk, a.message_manager.messages[k]? = some mk →
      b.message_manager.messages[k]? = some mk)
    (fun _ _ => True) (fun _ => True) (fun _ _ h => h) (fun _ _ _ h1 h2 mk h => h2 mk (h1 mk h))
    (fun _ => trivial)
    (fun s d _ => ⟨foldl_preorder_mem (message.send_message_to B)
      (fun a b => ∀ mk, a.1.message_manager.messages[k]? = some mk →
        b.1.message_manager.messages[k]? = some mk)
      (fun _ _ h => h) (fun _ _ _ h1 h2 mk h => h2 mk (h1 mk h)) ready (s, d)
      (fun y i hi mk h => send_message_to_other B y i k (fun e => hk (e ▸ hi)) mk h),
      trivial⟩)
    root s (fun _ _ => trivial)).1 mk h

/-- One step in which a pending message is not ready: no invocation is made for a queue
position that holds it, and it is in the queue afterwards. -/
theorem step_unready (B : behaviour) (m : manager) (m0 : message.message) (f : Nat)
    (hmem : m0 ∈ m.queue) (hfrom : m0.from_ = some f) (hsent : m0.sent = false)
    (hnot : m0.message_parcel.send B.conditions = false) :
    m0 ∈ (m.step B).1.queue ∧
      ∀ r i msg ps s, event.handle_message r i msg ps s ∈ (m.step B).2 →
        m.queue[i]? ≠ some m0 := by
  constructor
  · obtain ⟨k, hk⟩ := List.mem_iff_getElem?.1 hmem
    have hk1 := step_control_entry B m k m0 hk
    have hkn : k ∉ message.ready_messages B.conditions
        (m.step_control B).1.message_manager.messages := by
      intro hr
      obtain ⟨a, ha, hs⟩ := (mem_ready_messages _ _ k).1 hr
      rw [hk1] at ha
      cases ha
      rw [hnot] at hs
      exact Bool.false_ne_true hs
    rw [step_queue]
    unfold message.send_messages
    split
    · exact List.mem_iff_getElem?.2 ⟨k, hk1⟩
    · simp only []
      split
      · exact List.mem_iff_getElem?.2 ⟨k, hk1⟩
      · simp only []
        rw [List.mem_filter]
        refine ⟨List.mem_iff_getElem?.2 ⟨k, traverse_unready B _ k hkn _ _ m0 hk1⟩, ?_⟩
        simp [message.message_sent, hfrom, hsent]
  · intro r i msg ps s hev hq
    rcases step_events B m _ hev with ⟨c, hc⟩ | ⟨r1, i1, f1, a, hi, ha, _, he⟩
    · cases hc
    · cases he
      obtain ⟨a1, ha1, hs⟩ := (mem_ready_messages _ _ i).1 hi
      rw [step_control_entry B m i m0 hq] at ha1
      cases ha1
      rw [hnot] at hs
      exact Bool.false_ne_true hs

theorem steps_append :
    ∀ (l l1 : List behaviour) (m : manager),
      m.steps (l ++ l1) = (m.steps l).steps l1
  | [], _, _ => rfl
  | B :: l, l1, m => by
    simp only [List.cons_append, manager.steps]
    exact steps_append l l1 _

theorem steps_unready (m0 : message.message) (f : Nat) (hfrom : m0.from_ = some f)
    (hsent : m0.sent = false) :
    ∀ (l : List behaviour) (m : manager), m0 ∈ m.queue →
      (∀ B ∈ l, m0.message_parcel.send B.conditions = false) → m0 ∈ (m.steps l).queue
  | [], _, h, _ => h
  | B :: l, m, h, hnot => by
    simp only [manager.steps]
    exact steps_unready m0 f hfrom hsent l _
      (step_unready B m m0 f h hfrom hsent (hnot B (List.mem_cons_self _ _))).1
      (fun B1 h1 => hnot B1 (List.mem_cons_of_mem _ h1))

/-- C7: a pending message with a non-null sender whose condition is false at each of the
steps of a run causes no invocation of `handle_message` in any of them and is still in the
queue after the last; in a next step that renames nothing, where its condition is true and
some controller of the tree is a recipient, `handle_message` is invoked on a recipient. -/
theorem unready_message_waits (steps : List behaviour) (m : manager)
    (m0 : message.message) (f : Nat) (hmem : m0 ∈ m.queue) (hfrom : m0.from_ = some f)
    (hsent : m0.sent = false)
    (hnot : ∀ B ∈ steps, m0.message_parcel.send B.conditions = false) :
    (∀ (done : List behaviour) (B : behaviour) (rest : List behaviour),
        steps = done ++ B :: rest →
        ∀ r i msg ps s, event.handle_message r i msg ps s ∈ ((m.steps done).step B).2 →
          (m.steps done).queue[i]? ≠ some m0) ∧
      m0 ∈ (m.steps steps).queue ∧
      ∀ next : behaviour, next.renames_nothing →
        m0.message_parcel.send next.conditions = true →
        (∃ c ∈ nodes (m.steps steps).root_controller, m0.is_recipient.call c = true) →
        ∃ k, (m.steps steps).queue[k]? = some m0 ∧
          ∃ c ∈ nodes (m.steps steps).root_controller, m0.is_recipient.call c = true ∧
            event.delivery k m0 f c ∈ ((m.steps steps).step next).2 := by
  have hlast := steps_unready m0 f hfrom hsent steps m hmem hnot
  refine ⟨?_, hlast, ?_⟩
  · intro done B rest hsplit
    have hdone : m0 ∈ (m.steps done).queue :=
      steps_unready m0 f hfrom hsent done m hmem
        (fun B1 h1 => hnot B1 (by rw [hsplit]; exact List.mem_append_left _ h1))
    exact (step_unready B _ m0 f hdone hfrom hsent
      (hnot B (by rw [hsplit]; simp))).2
  · intro next hB hready ⟨c, hc, hcall⟩
    obtain ⟨k, hk⟩ := List.mem_iff_getElem?.1 hlast
    refine ⟨k, hk, c, hc, hcall, ?_⟩
    have hlog := (step_entry next hB _ k m0 hk hready).2
    have : event.delivery k m0 f c ∈ event.pass_deliveries k m0
        (nodes (m.steps steps).root_controller) := by
      simp only [event.pass_deliveries, hfrom]
      exact List.mem_map_of_mem _ (List.mem_filter.2 ⟨hc, hcall⟩)
    rw [← hlog] at this
    exact (List.mem_filter.1 this).1

theorem unready_message_waits_witness :
    c7_message ∈ c7_manager.queue ∧ c7_message.from_ = some 3 ∧ c7_message.sent = false ∧
      (∀ B ∈ [c7_silent, c7_silent],
        c7_message.message_parcel.send B.conditions = false) ∧
      (∀ (done : List behaviour) (B : behaviour) (rest : List behaviour),
        [c7_silent, c7_silent] = done ++ B :: rest →
        ∀ r i msg ps s,
          event.handle_message r i msg ps s ∈ ((c7_manager.steps done).step B).2 →
            (c7_manager.steps done).queue[i]? ≠ some c7_message) ∧
      (c7_manager.steps [c7_silent, c7_silent]).queue = [c7_message] ∧
      ((c7_manager.steps [c7_silent, c7_silent]).step c2_behaviour).2.filter
          (event.for_message 0)
        = [event.handle_message 1 0 "hi" [] 3, event.handle_message 2 0 "hi" [] 3] :=
  ⟨by decide, rfl, rfl,
    fun B hB => by
      simp only [List.mem_cons, List.mem_singleton, List.not_mem_nil, or_false, or_self] at hB
      subst hB
      rfl,
    (unready_message_waits [c7_silent, c7_silent] c7_manager c7_message 3 (by decide) rfl rfl
      (fun B hB => by
        simp only [List.mem_cons, List.mem_singleton, List.not_mem_nil, or_false,
          or_self] at hB
        subst hB
        rfl)).1,
    by decide, by decide⟩
end ncc.controller

namespace ncc.controller
open tree

/-- C9: with a null sender the `send_message` and `send_message_to_all` overloads taking a
parcel or a parameter with a parameter list leave the manager as it is; the overloads
taking only a parameter push one message with a null sender and an immediate parcel; and a
ready queue entry with a null sender causes no invocation of `handle_message` in a step and
is dropped by the purge of that step. -/
theorem null_sender_messages (m : manager) (name type : String) (target : Option Nat)
    (p : message.parcel) (msg : parameter) (params : parameter_list) :
    (m.send_message_name_parcel none name p = m ∧
        m.send_message_name_params none name msg params = m ∧
        m.send_message_to_parcel none target p = m ∧
        m.send_message_to_params none target msg params = m ∧
        m.send_message_to_all_type_parcel none type p = m ∧
        m.send_message_to_all_type_params none type msg params = m ∧
        m.send_message_to_all_parcel none p = m ∧
        m.send_message_to_all_params none msg params = m) ∧
      (∀ m1 ∈ [m.send_message_name none name msg, m.send_message_to none target msg,
          m.send_message_to_all_type none type msg, m.send_message_to_all none msg],
        m1.root_controller = m.root_controller ∧
          ∃ a, m1.queue = m.queue ++ [a] ∧ a.from_ = none ∧
            ∀ B : behaviour, a.message_parcel.send B.conditions = true) ∧
      ∀ (B : behaviour) (m1 : manager) (k : Nat) (a : message.message),
        m1.queue[k]? = some a → a.from_ = none →
        a.message_parcel.send B.conditions = true →
        (∀ r msg1 ps s, event.handle_message r k msg1 ps s ∉ (m1.step B).2) ∧
          ∃ q2, message.marked m1.queue q2 ∧
            (∃ a2, q2[k]? = some a2 ∧ message.kept a2 = false) ∧
            (m1.step B).1.queue = q2.filter message.kept := by
  refine ⟨⟨rfl, rfl, rfl, rfl, rfl, rfl, rfl, rfl⟩, ?_, ?_⟩
  · intro m1 hm1
    simp only [List.mem_cons, List.mem_singleton, List.not_mem_nil, or_false] at hm1
    rcases hm1 with rfl | rfl | rfl | rfl <;>
      exact ⟨rfl, _, rfl, rfl, fun _ => rfl⟩
  · intro B m1 k a hk hfrom hready
    constructor
    · intro r msg1 ps s hev
      rcases step_events B m1 _ hev with ⟨c, hc⟩ | ⟨r1, i1, f1, a1, _, ha1, hf1, he⟩
      · cases hc
      · cases he
        rw [step_control_entry B m1 k a hk] at ha1
        cases ha1
        rw [hfrom] at hf1
        cases hf1
    · obtain ⟨q2, hq2, hfinal⟩ := step_purges B m1 k a hk hready
      refine ⟨q2, hq2, ?_, hfinal⟩
      rcases hq2 k a hk with h | h
      · exact ⟨_, h, by simp [message.kept, message.message_sent, hfrom]⟩
      · exact ⟨_, h, kept_flag a⟩

theorem null_sender_messages_witness :
    c9_manager.queue = [message.message.create none .returns_true
        (message.parcel.of_message "hi")] ∧
      (∀ r msg1 ps s,
        event.handle_message r 0 msg1 ps s ∉ (c9_manager.step c2_behaviour).2) ∧
      (c9_manager.step c2_behaviour).1.queue = [] :=
  ⟨rfl,
    ((null_sender_messages c3_manager "" "" none (message.parcel.of_message "") "" []).2.2
      c2_behaviour c9_manager 0 _ rfl rfl rfl).1,
    by decide⟩
end ncc.controller

namespace ncc.controller
open tree

/-- C6, the code at the failing input: the sender is excised by the first step while its
message stays queued; a later step in which the message is ready hands it to the recipient
with the address of the excised sender, and a later step in which it is not ready leaves it
in the queue. -/
theorem dead_sender_message_is_delivered :
    1 ∉ ids (c6_manager.step c6_first).1.root_controller ∧
      (c6_manager.step c6_first).1.queue = [c6_message] ∧
      ((c6_manager.step c6_first).1.step c2_behaviour).2
        = [event.control 0, event.control 3, event.handle_message 3 0 "hi" [] 1] ∧
      ((c6_manager.step c6_first).1.step c7_silent).2 = [event.control 0, event.control 3] ∧
      ((c6_manager.step c6_first).1.step c7_silent).1.queue = [c6_message] := by
  decide
end ncc.controller

namespace ncc.tree

theorem reached_blocked {α : Type} (v : α → Bool) (anc : List α)
    (h : anc.all v = false) (l : List (List α × Option α))
    (hl : ∀ x ∈ l, anc <+: x.1) : l.filterMap (reached v) = [] := by
  rw [List.filterMap_eq_nil_iff]
  intro x hx
  obtain ⟨rest, hrest⟩ := hl x hx
  have : x.1.all v = false := by
    rw [← hrest, List.all_append, h, Bool.false_and]
  simp [reached, this]

mutual
theorem transverse_log {α : Type} (u : α → α) (v : α → Bool) :
    ∀ (t : node_type α) (anc : List α) (s : List α), anc.all v = true →
      (transverse_depth_first (visiting u v) s t).1
        = s ++ (preorder anc t).filterMap (reached v)
  | .null, anc, s, _ => by
    simp [transverse_depth_first, preorder, reached]
  | .node d ch, anc, s, h => by
    cases hb : v d with
    | false =>
      have hblock : (anc ++ [d]).all v = false := by
        simp [List.all_append, hb]
      have := reached_blocked v (anc ++ [d]) hblock (preorder_children (anc ++ [d]) ch)
        (preorder_children_ancestors _ ch)
      simp [transverse_depth_first, visiting, hb, preorder, this, reached, h]
    | true =>
      have hgo : (anc ++ [d]).all v = true := by
        simp only [List.all_append, h, Bool.true_and, List.all_cons, hb, List.all_nil]
      have := transverse_children_log u v ch (anc ++ [d]) (s ++ [d]) hgo
      simp only [transverse_depth_first, visiting, hb, preorder, List.filterMap_cons,
        reached, h, if_true]
      rw [this]
      simp
theorem transverse_children_log {α : Type} (u : α → α) (v : α → Bool) :
    ∀ (l : List (node_type α)) (anc : List α) (s : List α), anc.all v = true →
      (transverse_children (visiting u v) s l).1
        = s ++ (preorder_children anc l).filterMap (reached v)
  | [], anc, s, _ => by simp [transverse_children, preorder_children]
  | c :: cs, anc, s, h => by
    have h1 := transverse_log u v c anc s h
    have h2 := transverse_children_log u v cs anc
      (transverse_depth_first (visiting u v) s c).1 h
    simp only [transverse_children, preorder_children, List.filterMap_append]
    rw [h2, h1, List.append_assoc]
end

/-- C13: `transverse_depth_first(root, v)` calls `v`, in pre-order and once each, on the
nodes all of whose proper ancestors received `true` from `v`, and on no other node: a
`false` for `x` skips what is below `x` while the later sibling `z` is still visited; a null
root visits nothing. -/
theorem transverse_depth_first_visits {α : Type} (u : α → α) (v : α → Bool)
    (root : node_type α) :
    (transverse_depth_first (visiting u v) [] root).1
        = (preorder [] root).filterMap (reached v) ∧
      (∀ r x y z : α,
        (transverse_depth_first (visiting u v) []
            (.node r [.node x [.node y []], .node z []])).1
          = r :: (if v r then x :: ((if v x then [y] else []) ++ [z]) else [])) ∧
      (transverse_depth_first (visiting u v) [] (.null : node_type α)).1 = [] := by
  refine ⟨by simpa using transverse_log u v root [] [] rfl, ?_, rfl⟩
  intro r x y z
  have := transverse_log u v (.node r [.node x [.node y []], .node z []]) [] [] rfl
  rw [this]
  cases hr : v r <;> cases hx : v x <;>
    simp [preorder, preorder_children, reached, hr, hx]
end ncc.tree

namespace ncc.tree

mutual
theorem subtrees_not_null {α : Type} :
    ∀ (t x : node_type α), x ∈ subtrees t → ∃ d ch, x = .node d ch
  | .null, x, h => by simp [subtrees] at h
  | .node d ch, x, h => by
    simp only [subtrees, List.mem_cons] at h
    rcases h with h | h
    · exact ⟨d, ch, h⟩
    · exact subtrees_children_not_null ch x h
theorem subtrees_children_not_null {α : Type} :
    ∀ (l : List (node_type α)) (x : node_type α), x ∈ subtrees_children l →
      ∃ d ch, x = .node d ch
  | [], x, h => by simp [subtrees_children] at h
  | c :: cs, x, h => by
    simp only [subtrees_children, List.mem_append] at h
    rcases h with h | h
    · exact subtrees_not_null c x h
    · exact subtrees_children_not_null cs x h
end

theorem examined_append_none {α : Type} (p : node_type α → Bool) :
    ∀ (l l1 : List (node_type α)), l.find? p = none →
      examined p (l ++ l1) = l ++ examined p l1 ∧ first_match p (l ++ l1) = first_match p l1
  | [], l1, _ => by simp
  | a :: l, l1, h => by
    have ha : p a = false := by
      cases hp : p a with
      | false => rfl
      | true => simp [List.find?_cons, hp] at h
    have hl : l.find? p = none := by simpa [List.find?_cons, ha] using h
    obtain ⟨h1, h2⟩ := examined_append_none p l l1 hl
    simp only [examined, first_match] at h1 h2 ⊢
    simp only [List.cons_append, List.takeWhile_cons, ha, Bool.not_false, if_true,
      List.find?_cons]
    exact ⟨by rw [h1], h2⟩

theorem examined_append_some {α : Type} (p : node_type α → Bool) :
    ∀ (l l1 : List (node_type α)) (x : node_type α), l.find? p = some x →
      examined p (l ++ l1) = examined p l ∧ first_match p (l ++ l1) = first_match p l
  | [], l1, x, h => by simp at h
  | a :: l, l1, x, h => by
    cases ha : p a with
    | true =>
      unfold examined first_match
      simp [List.takeWhile_cons, List.find?_cons, ha]
    | false =>
      have hl : l.find? p = some x := by simpa [List.find?_cons, ha] using h
      obtain ⟨h1, h2⟩ := examined_append_some p l l1 x hl
      simp only [examined, first_match] at h1 h2 ⊢
      simp only [List.cons_append, List.takeWhile_cons, ha, Bool.not_false, if_true,
        List.find?_cons]
      exact ⟨by rw [h1], h2⟩

mutual
theorem depth_first_search_spec {α : Type} (p : node_type α → Bool) :
    ∀ (t : node_type α) (s : List (node_type α)),
      depth_first_search (recording p) s t
        = (s ++ examined p (subtrees t), first_match p (subtrees t))
  | .null, s => by simp [depth_first_search, subtrees, examined, first_match]
  | .node d ch, s => by
    cases hp : p (.node d ch) with
    | true =>
      simp [depth_first_search, recording, hp, subtrees, examined, first_match,
        List.takeWhile_cons, List.find?_cons]
    | false =>
      have ih := depth_first_search_children_spec p ch (s ++ [.node d ch])
      simp only [depth_first_search, recording, hp, ih, subtrees, examined, first_match,
        List.takeWhile_cons, List.find?_cons, Bool.not_false, if_true]
      simp
theorem depth_first_search_children_spec {α : Type} (p : node_type α → Bool) :
    ∀ (l : List (node_type α)) (s : List (node_type α)),
      depth_first_search_children (recording p) s l
        = (s ++ examined p (subtrees_children l), first_match p (subtrees_children l))
  | [], s => by simp [depth_first_search_children, subtrees_children, examined, first_match]
  | c :: cs, s => by
    have h1 := depth_first_search_spec p c s
    have h2 := depth_first_search_children_spec p cs (s ++ examined p (subtrees c))
    cases hf : (subtrees c).find? p with
    | none =>
      obtain ⟨h3, h4⟩ := examined_append_none p (subtrees c) (subtrees_children cs) hf
      have hnull : first_match p (subtrees c) = .null := by simp [first_match, hf]
      have hex : examined p (subtrees c) = subtrees c := by
        have := (examined_append_none p (subtrees c) [] hf).1
        simpa [examined] using this
      rw [hnull] at h1
      rw [hex] at h1 h2
      simp only [depth_first_search_children, h1, h2, subtrees_children, h3, h4,
        List.append_assoc]
    | some x =>
      obtain ⟨h3, h4⟩ := examined_append_some p (subtrees c) (subtrees_children cs) x hf
      obtain ⟨d, ch, rfl⟩ := subtrees_not_null c x (List.mem_of_find?_eq_some hf)
      have hx : first_match p (subtrees c) = .node d ch := by simp [first_match, hf]
      rw [hx] at h1
      simp only [depth_first_search_children, h1, subtrees_children, h3, h4, hx]
end
end ncc.tree
namespace ncc.tree

/-- C12: `depth_first_search(root, p)` returns the first pointer in pre-order (root first,
then the children in insertion order, recursively) that satisfies `p`, null exactly when
none does, and evaluates `p` once on each pointer of the pre-order sequence up to and
including the one returned, and on none after it. -/
theorem depth_first_search_first_match {α : Type} (p : node_type α → Bool)
    (root : node_type α) :
    depth_first_search (recording p) [] root
        = ((subtrees root).takeWhile (fun n => !p n) ++ ((subtrees root).find? p).toList,
            ((subtrees root).find? p).getD .null) ∧
      ((depth_first_search (recording p) [] root).2 = .null ↔
        ∀ n ∈ subtrees root, p n = false) := by
  have h := depth_first_search_spec p root []
  simp only [List.nil_append, examined, first_match] at h
  refine ⟨h, ?_⟩
  rw [h]
  cases hf : (subtrees root).find? p with
  | none =>
    simp only [Option.getD_none, true_iff]
    intro n hn
    have := List.find?_eq_none.1 hf n hn
    simpa using this
  | some x =>
    obtain ⟨d, ch, rfl⟩ := subtrees_not_null root x (List.mem_of_find?_eq_some hf)
    simp only [Option.getD_some]
    constructor
    · intro hnull
      cases hnull
    · intro hall
      have h1 := hall _ (List.mem_of_find?_eq_some hf)
      rw [List.find?_some hf] at h1
      exact absurd h1 (by simp)
end ncc.tree

namespace ncc.tree

theorem remove_if_data {α σ : Type} (sr : σ → node_type α → σ × Bool) (s : σ)
    (t : node_type α) : (remove_if sr s t).2.data? = t.data? := by
  cases t <;> rfl

theorem remove_if_children_data {α σ : Type} (p : Option α → Bool)
    (sr : σ → node_type α → σ × Bool) (hp : ∀ s n, (sr s n).2 = p n.data?) :
    ∀ (l : List (node_type α)) (s : σ),
      (remove_if_children sr s l).2.map (fun c => c.data?)
        = (l.map (fun c => c.data?)).filter (fun o => !p o)
  | [], s => by simp [remove_if_children]
  | c :: cs, s => by
    have hpc := hp s c
    rcases hsr : sr s c with ⟨s1, b⟩
    rw [hsr] at hpc
    simp only at hpc
    cases b with
    | true =>
      simp only [remove_if_children, hsr, List.map_cons, List.filter_cons, ← hpc,
        Bool.not_true, Bool.false_eq_true, if_false]
      exact remove_if_children_data p sr hp cs s1
    | false =>
      simp only [remove_if_children, hsr, List.map_cons, List.filter_cons, ← hpc,
        Bool.not_false, if_true, remove_if_data]
      rw [remove_if_children_data p sr hp cs _]

theorem remove_if_children_unit {α : Type} (sr : Unit → node_type α → Unit × Bool) :
    ∀ (l : List (node_type α)),
      (remove_if_children sr () l).2
        = (l.filter (fun c => !(sr () c).2)).map (fun c => (remove_if sr () c).2)
  | [] => by simp [remove_if_children]
  | c :: cs => by
    rcases hsr : sr () c with ⟨s1, b⟩
    cases b with
    | true =>
      simp only [remove_if_children, hsr, List.filter_cons, Bool.not_true,
        Bool.false_eq_true, if_false]
      exact remove_if_children_unit sr cs
    | false =>
      simp only [remove_if_children, hsr, List.filter_cons, Bool.not_false, if_true,
        List.map_cons]
      rw [← remove_if_children_unit sr cs]

/-- C14: after `remove_if(root, p)` the children of the root are those of its children that
do not satisfy `p`, in their order (each with its own children pruned in turn); the root is
kept and `p` is evaluated only on pointers below it. -/
theorem remove_if_filters_children {α : Type} (p : Option α → Bool) (d : α)
    (ch : List (node_type α)) :
    (remove_if (logged p) [] (.node d ch)).2.data? = some d ∧
      (remove_if (logged p) [] (.node d ch)).2.children.map (fun c => c.data?)
        = (ch.map (fun c => c.data?)).filter (fun o => !p o) ∧
      (remove_if (fun (s : Unit) n => (s, p n.data?)) () (.node d ch)).2
        = .node d ((ch.filter (fun c => !p c.data?)).map
            (fun c => (remove_if (fun (s : Unit) n => (s, p n.data?)) () c).2)) ∧
      (remove_if (logged p) [] (.node d ch)).1
        = ((preorder_children [d] ch).filter (tested p)).map (fun x => x.2) ∧
      (remove_if (logged (fun o : Option Nat => o.any (fun k => k % 2 == 1))) []
          (.node 0 [.node 1 [], .node 2 [], .node 3 [], .node 4 []])).2.children.map
            (fun c => c.data?)
        = [some 2, some 4] := by
  refine ⟨rfl, ?_, ?_, ?_, by decide⟩
  · simp only [remove_if, node_type.children]
    exact remove_if_children_data p (logged p) (fun _ _ => rfl) ch []
  · simp only [remove_if]
    rw [remove_if_children_unit]
  · have := remove_if_children_log p ch [d] [] (by simp) (by simp)
    simpa only [remove_if, List.nil_append] using this
end ncc.tree

namespace ncc.controller
open tree

theorem flag_topmost_blocked (q : abstract_interface → Bool) (anc : List abstract_interface)
    (h : anc.all (fun a => !q a) = false)
    (l : List (List abstract_interface × Option abstract_interface))
    (hl : ∀ x ∈ l, anc <+: x.1) :
    l.filterMap (flag_topmost q) = l.filterMap (fun x => x.2) := by
  apply List.filterMap_congr
  intro x hx
  obtain ⟨rest, hrest⟩ := hl x hx
  have : x.1.all (fun a => !q a) = false := by
    rw [← hrest, List.all_append, h, Bool.false_and]
  cases hx2 : x.2 <;> simp [flag_topmost, hx2, this]

mutual
theorem remove_controller_nodes (q : abstract_interface → Bool)
    (vis : Unit → abstract_interface → Unit × abstract_interface × Bool)
    (hvis : ∀ s c, vis s c = if q c then (s, remove_controller c, false) else (s, c, true)) :
    ∀ (t : ptr) (anc : List abstract_interface), anc.all (fun a => !q a) = true →
      nodes (transverse_depth_first vis () t).2
        = (preorder anc t).filterMap (flag_topmost q)
  | .null, anc, _ => by simp [transverse_depth_first, nodes, preorder, flag_topmost]
  | .node d ch, anc, h => by
    cases hq : q d with
    | true =>
      have hblock : (anc ++ [d]).all (fun a => !q a) = false := by
        simp [List.all_append, hq]
      have := flag_topmost_blocked q (anc ++ [d]) hblock
        (preorder_children (anc ++ [d]) ch) (preorder_children_ancestors _ ch)
      simp only [transverse_depth_first, hvis, hq, if_true, nodes, preorder,
        List.filterMap_cons, flag_topmost, Option.map_some', h, Bool.and_self]
      rw [nodes_children_eq_preorder ch (anc ++ [d])]
      simp only [flag_topmost] at this
      rw [this]
      rfl
    | false =>
      have hgo : (anc ++ [d]).all (fun a => !q a) = true := by
        simp only [List.all_append, h, Bool.true_and, List.all_cons, hq, Bool.not_false,
          List.all_nil, Bool.and_self]
      have ih := remove_controller_children_nodes q vis hvis ch (anc ++ [d]) hgo
      simp only [transverse_depth_first, hvis, hq, Bool.false_eq_true, if_false, nodes,
        preorder, List.filterMap_cons, flag_topmost, Option.map_some', Bool.false_and]
      rw [← ih]
theorem remove_controller_children_nodes (q : abstract_interface → Bool)
    (vis : Unit → abstract_interface → Unit × abstract_interface × Bool)
    (hvis : ∀ s c, vis s c = if q c then (s, remove_controller c, false) else (s, c, true)) :
    ∀ (l : List ptr) (anc : List abstract_interface), anc.all (fun a => !q a) = true →
      nodes_children (transverse_children vis () l).2
        = (preorder_children anc l).filterMap (flag_topmost q)
  | [], anc, _ => by simp [transverse_children, nodes_children, preorder_children]
  | c :: cs, anc, h => by
    have h1 := remove_controller_nodes q vis hvis c anc h
    have h2 := remove_controller_children_nodes q vis hvis cs anc h
    simp only [transverse_children, nodes_children, preorder_children,
      List.filterMap_append]
    rw [← h1, ← h2]
end
end ncc.controller
namespace ncc.controller
open tree

end ncc.controller

namespace ncc.controller
open tree

end ncc.controller

namespace ncc.tree

/-- C15: for a node `n` and a pointer `c`, not null and not among the children of `n`,
`n.add_child(c)` returns `true`, the child list of `n` becomes the old one followed by `c`,
the parent back-reference of `c` is the `this_ptr` of `n`, which is `n` for a node
constructed with its own address, and no other node changes. -/
theorem add_child_appends (h : store) (n c : Nat)
    (hnew : some c ∉ (h n).child_list) :
    (is_node.add_child h n (some c)).2 = true ∧
      ((is_node.add_child h n (some c)).1 n).child_list = (h n).child_list ++ [some c] ∧
      ((is_node.add_child h n (some c)).1 c).parent_ptr = (h n).this_ptr ∧
      ((h n).this_ptr = some n →
        ((is_node.add_child h n (some c)).1 c).parent_ptr = some n) ∧
      ∀ x, x ≠ n → x ≠ c → (is_node.add_child h n (some c)).1 x = h x := by
  have hc : ((is_node.add_child h n (some c)).1 c).parent_ptr = (h n).this_ptr := by
    simp [is_node.add_child, hnew]
  refine ⟨by simp [is_node.add_child, hnew], ?_, hc, fun ht => hc.trans ht, ?_⟩
  · by_cases hnc : n = c
    · subst hnc
      simp [is_node.add_child, hnew]
    · simp [is_node.add_child, hnew, Function.update_noteq hnc]
  · intro x hxn hxc
    simp [is_node.add_child, hnew, Function.update_noteq hxn, Function.update_noteq hxc]

theorem add_child_appends_witness :
    some 2 ∉ (fresh 1).child_list ∧
      ((is_node.add_child fresh 1 (some 2)).1 1).child_list = [some 2] ∧
      ((is_node.add_child fresh 1 (some 2)).1 2).parent_ptr = some 1 :=
  ⟨by decide, (add_child_appends fresh 1 2 (by decide)).2.1,
    (add_child_appends fresh 1 2 (by decide)).2.2.2.1 rfl⟩
end ncc.tree
namespace ncc.tree

theorem add_child_refused (h : store) (n : Nat) (c : Option Nat)
    (hc : c = none ∨ c ∈ (h n).child_list) : is_node.add_child h n c = (h, false) := by
  cases c with
  | none => rfl
  | some a =>
    rcases hc with hc | hc
    · cases hc
    · simp [is_node.add_child, hc]

theorem occurs_once {β : Type} [DecidableEq β] :
    ∀ (l : List β) (a : β), l.Nodup → a ∈ l →
      (l.filter (fun x => decide (x = a))).length = 1
  | [], a, _, h => by simp at h
  | b :: l, a, hnd, h => by
    rw [List.nodup_cons] at hnd
    by_cases hba : b = a
    · subst hba
      have : l.filter (fun x => decide (x = b)) = [] := by
        rw [List.filter_eq_nil_iff]
        intro x hx hxb
        simp only [decide_eq_true_eq] at hxb
        exact hnd.1 (hxb ▸ hx)
      simp [List.filter_cons, this]
    · have hmem : a ∈ l := by
        rcases List.mem_cons.1 h with h1 | h1
        · exact absurd h1.symm hba
        · exact h1
      simp only [List.filter_cons, hba, decide_False, Bool.false_eq_true, if_false]
      exact occurs_once l a hnd.2 hmem

/-- C16: on a node `n` whose child list has no duplicates, `n.add_child(c)` with `c` null
or already among the children returns `false` and changes nothing; after two calls of
`n.add_child(c)` with `c` not null the second has returned `false` and `c` occurs once
among the children of `n`. -/
theorem add_child_twice (h : store) (n : Nat) (c : Nat)
    (hnodup : (h n).child_list.Nodup) :
    is_node.add_child h n none = (h, false) ∧
      (some c ∈ (h n).child_list → is_node.add_child h n (some c) = (h, false)) ∧
      (is_node.add_child (is_node.add_child h n (some c)).1 n (some c)).2 = false ∧
      (is_node.add_child (is_node.add_child h n (some c)).1 n (some c)).1
        = (is_node.add_child h n (some c)).1 ∧
      (((is_node.add_child (is_node.add_child h n (some c)).1 n (some c)).1
          n).child_list.filter (fun x => decide (x = some c))).length = 1 := by
  have hin : some c ∈ ((is_node.add_child h n (some c)).1 n).child_list := by
    by_cases hc : some c ∈ (h n).child_list
    · rw [add_child_refused h n (some c) (Or.inr hc)]
      exact hc
    · by_cases hnc : n = c
      · subst hnc
        simp [is_node.add_child, hc]
      · simp [is_node.add_child, hc, Function.update_noteq hnc]
  have hnd : ((is_node.add_child h n (some c)).1 n).child_list.Nodup := by
    by_cases hc : some c ∈ (h n).child_list
    · rw [add_child_refused h n (some c) (Or.inr hc)]
      exact hnodup
    · have : ((is_node.add_child h n (some c)).1 n).child_list
          = (h n).child_list ++ [some c] := by
        by_cases hnc : n = c
        · subst hnc
          simp [is_node.add_child, hc]
        · simp [is_node.add_child, hc, Function.update_noteq hnc]
      rw [this]
      exact List.Nodup.append hnodup (List.nodup_singleton _) (by simpa using hc)
  have h2 := add_child_refused (is_node.add_child h n (some c)).1 n (some c) (Or.inr hin)
  refine ⟨rfl, fun hc => add_child_refused h n (some c) (Or.inr hc), ?_, ?_, ?_⟩
  · rw [h2]
  · rw [h2]
  · rw [h2]
    exact occurs_once _ _ hnd hin

theorem add_child_twice_witness :
    (fresh 1).child_list.Nodup ∧
      (is_node.add_child (is_node.add_child fresh 1 (some 2)).1 1 (some 2)).2 = false ∧
      ((is_node.add_child (is_node.add_child fresh 1 (some 2)).1 1 (some 2)).1
          1).child_list = [some 2] :=
  ⟨by decide, (add_child_twice fresh 1 2 (by decide)).2.2.1, by decide⟩

theorem add_child_keeps_nodup (h : store) (n : Nat) (c : Option Nat)
    (hinv : ∀ a, (h a).child_list.Nodup ∧ none ∉ (h a).child_list) :
    ∀ a, ((is_node.add_child h n c).1 a).child_list.Nodup ∧
      none ∉ ((is_node.add_child h n c).1 a).child_list := by
  intro a
  cases c with
  | none => exact hinv a
  | some x =>
    by_cases hc : some x ∈ (h n).child_list
    · rw [add_child_refused h n (some x) (Or.inr hc)]
      exact hinv a
    · have hlist : ((is_node.add_child h n (some x)).1 a).child_list
          = if a = n then (h n).child_list ++ [some x] else (h a).child_list := by
        by_cases han : a = n
        · subst han
          by_cases hax : a = x
          · subst hax
            simp [is_node.add_child, hc]
          · simp [is_node.add_child, hc, Function.update_noteq hax]
        · by_cases hax : a = x
          · subst hax
            simp [is_node.add_child, hc, han, Function.update_noteq han]
          · simp [is_node.add_child, hc, han, Function.update_noteq han,
              Function.update_noteq hax]
      rw [hlist]
      by_cases han : a = n
      · subst han
        simp only [if_true]
        refine ⟨List.Nodup.append (hinv a).1 (List.nodup_singleton _) (by simpa using hc),
          ?_⟩
        simp [(hinv a).2]
      · simp only [han, if_false]
        exact hinv a

theorem remove_child_keeps_nodup (h : store) (n : Nat) (c : Option Nat)
    (hinv : ∀ a, (h a).child_list.Nodup ∧ none ∉ (h a).child_list) :
    ∀ a, ((is_node.remove_child h n c).1 a).child_list.Nodup ∧
      none ∉ ((is_node.remove_child h n c).1 a).child_list := by
  intro a
  unfold is_node.remove_child
  split
  · by_cases han : a = n
    · subst han
      simp only [Function.update_same]
      exact ⟨(hinv a).1.erase c, fun hm => (hinv a).2 (List.mem_of_mem_erase hm)⟩
    · simp only [Function.update_noteq han]
      exact hinv a
  · exact hinv a

theorem run_calls_keeps_nodup :
    ∀ (calls : List node_call) (h : store),
      (∀ a, (h a).child_list.Nodup ∧ none ∉ (h a).child_list) →
      ∀ a, ((run_calls h calls) a).child_list.Nodup ∧
        none ∉ ((run_calls h calls) a).child_list
  | [], _, hinv => hinv
  | call :: rest, h, hinv => by
    have hstep : ∀ a, ((call.run h) a).child_list.Nodup ∧
        none ∉ ((call.run h) a).child_list := by
      cases call with
      | add_child s c => exact add_child_keeps_nodup h s c hinv
      | remove_child s c => exact remove_child_keeps_nodup h s c hinv
    exact run_calls_keeps_nodup rest (call.run h) hstep

/-- C17 (as amended): after any sequence of `add_child` and `remove_child` calls on nodes
that start without children, no child list holds the same pointer twice and none holds a
null pointer. -/
theorem child_lists_have_no_duplicates (calls : List node_call) (a : Nat) :
    ((run_calls fresh calls) a).child_list.Nodup ∧
      none ∉ ((run_calls fresh calls) a).child_list :=
  run_calls_keeps_nodup calls fresh (fun _ => ⟨List.nodup_nil, by simp [fresh,
    is_node.create]⟩) a

/-- C17 (as stated) fails: two `add_child` calls put one node in the child lists of two
different nodes, and one `add_child` call makes a node its own child. -/
theorem single_parent_and_acyclic_fails :
    (¬ ∀ (calls : List node_call) (a b c : Nat), a ≠ b →
        some c ∈ ((run_calls fresh calls) a).child_list →
        some c ∉ ((run_calls fresh calls) b).child_list) ∧
      ¬ ∀ (calls : List node_call) (a : Nat), ¬ is_ancestor (run_calls fresh calls) a a := by
  constructor
  · intro h
    exact h [.add_child 1 (some 3), .add_child 2 (some 3)] 1 2 3 (by decide) (by decide)
      (by decide)
  · intro h
    exact h [.add_child 1 (some 1)] 1 (is_ancestor.child 1 1 (by decide))
end ncc.tree

namespace ncc.controller
open tree

theorem enqueue_root (m : manager) (sends : List send_request) :
    (m.enqueue sends).root_controller = m.root_controller := rfl

theorem enqueue_prototypes (m : manager) (sends : List send_request) :
    (m.enqueue sends).prototypes = m.prototypes := rfl

theorem create_controller_frame (L : lifecycle) (m : manager) (type : String)
    (params : parameter_list) :
    (m.create_controller L type params).1.prototypes = m.prototypes ∧
      (m.create_controller L type params).1.root_controller = m.root_controller := by
  unfold manager.create_controller
  split
  · exact ⟨rfl, rfl⟩
  · split
    · exact ⟨rfl, rfl⟩
    · exact ⟨rfl, rfl⟩

theorem create_controller_catalog (L : lifecycle) (m m1 : manager) (type : String)
    (params : parameter_list) (h : m1.prototypes = m.prototypes) :
    (m1.create_controller L type params).2 = (m.create_controller L type params).2 := by
  have hf : m1.find_prototype type = m.find_prototype type := by
    simp only [manager.find_prototype, h]
  unfold manager.create_controller
  rw [hf]
  split
  · rfl
  · split <;> rfl

/-- C18: `create_controller(type, params)` returns a non-null controller exactly when
`type` is bound in the catalog, the `clone_prototype()` of the bound prototype returns a
non-null controller and `initialize(params)` of the clone returns `true`; the catalog and
the tree are the same after the call, so a later call answers as it would have on the
manager before; with `type` not bound the call throws `bad_weak_ptr`. -/
theorem create_controller_succeeds_iff (L : lifecycle) (m : manager) (type : String)
    (params : parameter_list) :
    ((∃ c cc, (m.create_controller L type params).2.1 = .ok (.node c cc)) ↔
        ∃ p pc c cc, m.find_prototype type = .node p pc ∧
          L.clone_prototype p = .node c cc ∧ (L.initialize_ c params).1 = true) ∧
      (m.create_controller L type params).1.prototypes = m.prototypes ∧
      (m.create_controller L type params).1.root_controller = m.root_controller ∧
      (∀ later : parameter_list,
        ((m.create_controller L type params).1.create_controller L type later).2
          = (m.create_controller L type later).2) ∧
      (m.find_prototype type = .null →
        (m.create_controller L type params).2.1 = .error .bad_weak_ptr) := by
  refine ⟨?_, (create_controller_frame L m type params).1,
    (create_controller_frame L m type params).2,
    fun later => create_controller_catalog L m _ type later
      (create_controller_frame L m type params).1, ?_⟩
  · unfold manager.create_controller
    cases hf : m.find_prototype type with
    | null => simp
    | node p pc =>
      cases hc : L.clone_prototype p with
      | null => simp [hc]
      | node c cc =>
        cases hi : (L.initialize_ c params).1 with
        | false => simp [hc, hi]
        | true => simp [hc, hi]
  · intro hf
    unfold manager.create_controller
    rw [hf]

theorem create_controller_succeeds_iff_witness :
    (c18_manager.create_controller c18_lifecycle "bullet" ["p", "v"]).2.1
        = .ok (.node ⟨10, "b", true, "bullet", 3⟩ []) ∧
      (c18_manager.create_controller c18_lifecycle "bullet" ["p"]).2.1 = .ok .null ∧
      (c18_manager.create_controller c18_lifecycle "rock" ["p", "v"]).2.1 = .ok .null ∧
      ((c18_manager.create_controller c18_lifecycle "bullet" ["p"]).1.create_controller
          c18_lifecycle "bullet" ["p", "v"]).2
        = (c18_manager.create_controller c18_lifecycle "bullet" ["p", "v"]).2 ∧
      (c18_manager.create_controller c18_lifecycle "stone" ["p", "v"]).2.1
        = .error .bad_weak_ptr :=
  ⟨rfl, rfl, rfl,
    (create_controller_succeeds_iff c18_lifecycle c18_manager "bullet" ["p"]).2.2.2.1
      ["p", "v"],
    (create_controller_succeeds_iff c18_lifecycle c18_manager "stone" ["p", "v"]).2.2.2.2
      rfl⟩
end ncc.controller

namespace ncc.controller
open tree

mutual
theorem find_at_node (p : Nat) (g : ptr → ptr) (hnull : g .null = .null)
    (hnode : ∀ d ch, ∃ ch1, g (.node d ch) = .node d ch1) :
    ∀ (t : ptr) (s : Unit),
      (depth_first_search (on_controller (fun c => controller_has_id c p)) s
          (at_node (fun d => d.value) p g t)).2
        = g (depth_first_search (on_controller (fun c => controller_has_id c p)) s t).2
  | .null, s => by simp [at_node, depth_first_search, hnull]
  | .node d ch, s => by
    by_cases hd : d.value = p
    · obtain ⟨ch1, hch1⟩ := hnode d ch
      have hv : controller_has_id d p = true := by
        simp [controller_has_id, abstract_interface.get_id, hd]
      simp only [at_node, hd, if_true, hch1, depth_first_search, on_controller, hv]
    · have hv : controller_has_id d p = false := by
        simp [controller_has_id, abstract_interface.get_id, hd]
      simp only [at_node, hd, if_false, depth_first_search, on_controller, hv]
      exact find_at_children p g hnull hnode ch s
theorem find_at_children (p : Nat) (g : ptr → ptr) (hnull : g .null = .null)
    (hnode : ∀ d ch, ∃ ch1, g (.node d ch) = .node d ch1) :
    ∀ (l : List ptr) (s : Unit),
      (depth_first_search_children (on_controller (fun c => controller_has_id c p)) s
          (at_children (fun d => d.value) p g l)).2
        = g (depth_first_search_children (on_controller (fun c => controller_has_id c p)) s
            l).2
  | [], s => by simp [at_children, depth_first_search_children, hnull]
  | c :: cs, s => by
    have h1 := find_at_node p g hnull hnode c s
    rcases hr : depth_first_search (on_controller (fun c => controller_has_id c p)) s c
      with ⟨s1, r⟩
    rcases hr2 : depth_first_search (on_controller (fun c => controller_has_id c p)) s
      (at_node (fun d => d.value) p g c) with ⟨s2, r2⟩
    rw [hr, hr2] at h1
    simp only at h1
    subst h1
    cases r with
    | null =>
      simp only [at_children, depth_first_search_children, hr, hr2, hnull]
      exact find_at_children p g hnull hnode cs s2
    | node d1 ch1 =>
      obtain ⟨ch2, hch2⟩ := hnode d1 ch1
      simp only [at_children, depth_first_search_children, hr, hr2, hch2]
end

theorem add_child_null (new_child : ptr) :
    ((.null : ptr).add_child (fun d => d.value) new_child).1 = .null := rfl

theorem add_child_node (d : abstract_interface) (ch : List ptr) (new_child : ptr) :
    ∃ ch1, ((tree.node_type.node d ch).add_child (fun d => d.value) new_child).1
      = .node d ch1 := by
  cases new_child with
  | null => exact ⟨ch, rfl⟩
  | node c cc =>
    simp only [node_type.add_child]
    split
    · exact ⟨ch, rfl⟩
    · exact ⟨_, rfl⟩

/-- C19: `add_controller(instance, params, parent)` with a null instance or a null parent
invokes nothing and leaves the manager as it is; otherwise it invokes
`instance.initialize(params)` once, leaves the catalog as it is, leaves the tree as it is
when `initialize` returned `false`, and when it returned `true` makes the instance the last
child of the parent unless the instance is already among its children. The overload
without `parent` does so with the root. -/
theorem add_controller_params_attaches (L : lifecycle) (m : manager)
    (params : parameter_list) :
    (∀ parent, m.add_controller_params L .null params parent = (m, [])) ∧
      (∀ new_controller, m.add_controller_params L new_controller params none = (m, [])) ∧
      (∀ (c : abstract_interface) (cc : List ptr) (p : Nat),
        (m.add_controller_params L (.node c cc) params (some p)).2
            = [.initialize_ c.value params] ∧
          (m.add_controller_params L (.node c cc) params (some p)).1.prototypes
            = m.prototypes ∧
          ((L.initialize_ c params).1 = false →
            (m.add_controller_params L (.node c cc) params (some p)).1.root_controller
              = m.root_controller) ∧
          ((L.initialize_ c params).1 = true →
            ∀ d ch, m.find_controller_id p = .node d ch →
              (m.add_controller_params L (.node c cc) params (some p)).1.find_controller_id p
                = if ch.any (fun x => x.data?.map (fun d => d.value) == some c.value) then
                    .node d ch
                  else .node d (ch ++ [.node (c.apply (L.initialize_ c params).2) cc]))) ∧
      ∀ (c : abstract_interface) (cc : List ptr) (r : abstract_interface) (ch : List ptr),
        m.root_controller = .node r ch → (L.initialize_ c params).1 = true →
        (m.add_controller_params_root L (.node c cc) params).1.root_controller
          = if ch.any (fun x => x.data?.map (fun d => d.value) == some c.value) then
              .node r ch
            else .node r (ch ++ [.node (c.apply (L.initialize_ c params).2) cc]) := by
  have hval : ∀ (c : abstract_interface) (e : effects), (c.apply e).value = c.value :=
    fun c e => (apply_evolves c e).1
  refine ⟨?_, ?_, ?_, ?_⟩
  · intro parent
    cases parent <;> rfl
  · intro new_controller
    rfl
  · intro c cc p
    cases hi : (L.initialize_ c params).1 with
    | false =>
      refine ⟨by simp [manager.add_controller_params, hi],
        by simp [manager.add_controller_params, hi, enqueue_prototypes],
        fun _ => by simp [manager.add_controller_params, hi, enqueue_root],
        fun h => absurd h (by simp)⟩
    | true =>
      refine ⟨by simp [manager.add_controller_params, hi],
        by simp [manager.add_controller_params, hi, enqueue_prototypes],
        fun h => absurd h (by simp), ?_⟩
      intro _ d ch hfind
      have hroot : (m.add_controller_params L (.node c cc) params (some p)).1.root_controller
          = at_node (fun d => d.value) p
              (fun n => (n.add_child (fun d => d.value)
                (.node (c.apply (L.initialize_ c params).2) cc)).1) m.root_controller := by
        simp [manager.add_controller_params, hi]
      unfold manager.find_controller_id at hfind ⊢
      rw [hroot, find_at_node p _ (add_child_null _) (fun d ch => add_child_node d ch _),
        hfind]
      simp only [node_type.add_child, hval]
      split <;> rfl
  · intro c cc r ch hroot hi
    have hp : m.root_pointer = some r.value := by
      simp [manager.root_pointer, hroot, node_type.data?]
    simp only [manager.add_controller_params_root, manager.add_controller_params, hp, hi,
      Bool.true_eq_false, if_false, enqueue_root, hroot, at_node, if_true,
      node_type.add_child, hval]
    split <;> rfl
end ncc.controller
namespace ncc.controller
open tree

theorem add_controller_params_attaches_witness :
    (c18_manager.add_controller_params_root c18_lifecycle
        (.node ⟨11, "", true, "bullet", 3⟩ []) ["p", "v"]).1.root_controller.children.map
          (fun x => x.data?)
        = [some c3_child, some ⟨11, "b", true, "bullet", 3⟩] ∧
      (c18_manager.add_controller_params_root c18_lifecycle
        (.node ⟨11, "", true, "bullet", 3⟩ []) ["p"]).1.root_controller.children.map
          (fun x => x.data?)
        = [some c3_child] ∧
      (c18_manager.add_controller_params c18_lifecycle
        (.node ⟨11, "", true, "bullet", 3⟩ []) ["p", "v"] (some 1)).2
        = [.initialize_ 11 ["p", "v"]] :=
  ⟨by decide, by decide,
    ((add_controller_params_attaches c18_lifecycle c18_manager ["p", "v"]).2.2.1
      ⟨11, "", true, "bullet", 3⟩ [] 1).1⟩

/-- C20, the code at the failing input `add_controller("stone", params)` with no prototype
bound to "stone": the call throws `bad_weak_ptr` and returns no handle, as every call with
a type that is not bound does. In the other cases the call does what the claim says: with
the type bound, a clone and `initialize` returning `true` the new controller becomes the
last child of the root and the handle resolves to it; with a prototype that is not
clonable, `initialize` returning `false` or a null parent the tree is as it was and the
handle resolves to null. -/
theorem add_controller_type_unknown_throws :
    (c18_manager.add_controller_type_root c18_lifecycle "stone" ["p", "v"]).2.1
        = .error .bad_weak_ptr ∧
      (∀ (L : lifecycle) (m : manager) (type : String) (params : parameter_list)
          (parent : Option Nat), m.find_prototype type = .null →
        m.add_controller_type L type params parent = (m, .error .bad_weak_ptr, [])) ∧
      (∀ (L : lifecycle) (m : manager) (type : String) (params : parameter_list)
          (p c r : abstract_interface) (pc cc ch : List ptr),
        m.find_prototype type = .node p pc → L.clone_prototype p = .node c cc →
        (L.initialize_ c params).1 = true → m.root_controller = .node r ch →
        ch.any (fun x => x.data?.map (fun d => d.value) == some c.value) = false →
        (m.add_controller_type_root L type params).2.1
            = .ok (.node (c.apply (L.initialize_ c params).2) cc) ∧
          (m.add_controller_type_root L type params).1.root_controller
            = .node r (ch ++ [.node (c.apply (L.initialize_ c params).2) cc])) ∧
      (∀ (L : lifecycle) (m : manager) (type : String) (params : parameter_list)
          (parent : Option Nat) (p : abstract_interface) (pc : List ptr),
        m.find_prototype type = .node p pc →
        (L.clone_prototype p = .null ∨
          (∃ c cc, L.clone_prototype p = .node c cc ∧ (L.initialize_ c params).1 = false) ∨
          parent = none) →
        (m.add_controller_type L type params parent).2.1 = .ok .null ∧
          (m.add_controller_type L type params parent).1.root_controller
            = m.root_controller) := by
  have hval : ∀ (c : abstract_interface) (e : effects), (c.apply e).value = c.value :=
    fun c e => (apply_evolves c e).1
  refine ⟨rfl, ?_, ?_, ?_⟩
  · intro L m type params parent hf
    simp only [manager.add_controller_type, manager.create_controller, hf]
  · intro L m type params p c r pc cc ch hf hc hi hroot hnew
    have hp : m.root_pointer = some r.value := by
      simp [manager.root_pointer, hroot, node_type.data?]
    simp only [manager.add_controller_type_root, manager.add_controller_type,
      manager.create_controller, hf, hc, hi, if_true, hp, manager.add_controller,
      enqueue_root, hroot, at_node, node_type.add_child, hval, hnew, Bool.false_eq_true,
      if_false, and_self]
  · intro L m type params parent p pc hf hcase
    cases hc : L.clone_prototype p with
    | null =>
      cases parent <;>
        simp [manager.add_controller_type, manager.create_controller, hf, hc,
          manager.add_controller]
    | node c cc =>
      cases hi : (L.initialize_ c params).1 with
      | false =>
        cases parent <;>
          simp [manager.add_controller_type, manager.create_controller, hf, hc, hi,
            manager.add_controller, enqueue_root]
      | true =>
        rcases hcase with h | ⟨c1, cc1, h1, h2⟩ | h
        · rw [hc] at h; cases h
        · rw [hc] at h1
          cases h1
          rw [hi] at h2
          cases h2
        · subst h
          simp [manager.add_controller_type, manager.create_controller, hf, hc, hi,
            manager.add_controller, enqueue_root]
end ncc.controller

namespace ncc.tree

mutual
theorem remove_if_settles {α σ : Type} (p : Option α → Bool)
    (sr : σ → node_type α → σ × Bool) (hp : ∀ s n, (sr s n).2 = p n.data?) :
    ∀ (t : node_type α) (s : σ), settled p (remove_if sr s t).2 = true
  | .null, s => by simp [remove_if, settled]
  | .node d ch, s => by
    simp only [remove_if, settled]
    exact remove_if_children_settles p sr hp ch s
theorem remove_if_children_settles {α σ : Type} (p : Option α → Bool)
    (sr : σ → node_type α → σ × Bool) (hp : ∀ s n, (sr s n).2 = p n.data?) :
    ∀ (l : List (node_type α)) (s : σ),
      settled_children p (remove_if_children sr s l).2 = true
  | [], s => by simp [remove_if_children, settled_children]
  | c :: cs, s => by
    have hpc := hp s c
    rcases hsr : sr s c with ⟨s1, b⟩
    rw [hsr] at hpc
    simp only at hpc
    cases b with
    | true =>
      simp only [remove_if_children, hsr]
      exact remove_if_children_settles p sr hp cs s1
    | false =>
      simp only [remove_if_children, hsr, settled_children, remove_if_data, ← hpc,
        remove_if_settles p sr hp c s1, remove_if_children_settles p sr hp cs _]
      rfl
end

mutual
theorem remove_if_fixed {α σ : Type} (p : Option α → Bool)
    (sr : σ → node_type α → σ × Bool) (hp : ∀ s n, (sr s n).2 = p n.data?) :
    ∀ (t : node_type α) (s : σ), settled p t = true → (remove_if sr s t).2 = t
  | .null, s, _ => by simp [remove_if]
  | .node d ch, s, h => by
    simp only [remove_if]
    rw [remove_if_children_fixed p sr hp ch s (by simpa [settled] using h)]
theorem remove_if_children_fixed {α σ : Type} (p : Option α → Bool)
    (sr : σ → node_type α → σ × Bool) (hp : ∀ s n, (sr s n).2 = p n.data?) :
    ∀ (l : List (node_type α)) (s : σ), settled_children p l = true →
      (remove_if_children sr s l).2 = l
  | [], s, _ => by simp [remove_if_children]
  | c :: cs, s, h => by
    simp only [settled_children, Bool.and_eq_true, Bool.not_eq_true'] at h
    have hpc := hp s c
    rcases hsr : sr s c with ⟨s1, b⟩
    rw [hsr, h.1.1] at hpc
    simp only at hpc
    subst hpc
    simp only [remove_if_children, hsr]
    rw [remove_if_fixed p sr hp c s1 h.1.2, remove_if_children_fixed p sr hp cs _ h.2]
end

mutual
theorem remove_if_fixed_log {α : Type} (p : Option α → Bool) :
    ∀ (t : node_type α) (log : List (Option α)), settled p t = true →
      ∀ o ∈ (remove_if (logged p) log t).1, o ∈ log ∨ p o = false
  | .null, log, _ => by
    intro o ho
    exact Or.inl (by simpa [remove_if] using ho)
  | .node d ch, log, h => by
    simp only [remove_if]
    exact remove_if_children_fixed_log p ch log (by simpa [settled] using h)
theorem remove_if_children_fixed_log {α : Type} (p : Option α → Bool) :
    ∀ (l : List (node_type α)) (log : List (Option α)), settled_children p l = true →
      ∀ o ∈ (remove_if_children (logged p) log l).1, o ∈ log ∨ p o = false
  | [], log, _ => by
    intro o ho
    exact Or.inl (by simpa [remove_if_children] using ho)
  | c :: cs, log, h => by
    simp only [settled_children, Bool.and_eq_true, Bool.not_eq_true'] at h
    intro o ho
    simp only [remove_if_children, logged, h.1.1] at ho
    have h2 := remove_if_children_fixed_log p cs _ h.2 o ho
    rcases h2 with h2 | h2
    · have h1 := remove_if_fixed_log p c _ h.1.2 o h2
      rcases h1 with h1 | h1
      · simp only [List.mem_append, List.mem_singleton] at h1
        rcases h1 with h1 | h1
        · exact Or.inl h1
        · exact Or.inr (h1 ▸ h.1.1)
      · exact Or.inr h1
    · exact Or.inr h2
end

mutual
theorem settled_related {α : Type} (p : Option α → Bool) (R : α → α → Prop)
    (hR : ∀ a b, R a b → p (some b) = p (some a)) :
    ∀ (t t1 : node_type α), related R t t1 → settled p t1 = settled p t
  | .null, t1, h => by
    simp only [related] at h
    subst h
    rfl
  | .node d ch, t1, h => by
    simp only [related] at h
    obtain ⟨d1, ch1, rfl, _, hch⟩ := h
    simp only [settled]
    exact settled_children_related p R hR ch ch1 hch
theorem settled_children_related {α : Type} (p : Option α → Bool) (R : α → α → Prop)
    (hR : ∀ a b, R a b → p (some b) = p (some a)) :
    ∀ (l l1 : List (node_type α)), related_children R l l1 →
      settled_children p l1 = settled_children p l
  | [], l1, h => by
    simp only [related_children] at h
    subst h
    rfl
  | c :: cs, l1, h => by
    simp only [related_children] at h
    obtain ⟨c1, cs1, rfl, hc, hcs⟩ := h
    have hd : p c1.data? = p c.data? := by
      cases c with
      | null =>
        simp only [related] at hc
        subst hc
        rfl
      | node d ch =>
        simp only [related] at hc
        obtain ⟨d1, ch1, rfl, hdd, _⟩ := hc
        exact hR d d1 hdd
    simp only [settled_children, hd, settled_related p R hR c c1 hc,
      settled_children_related p R hR cs cs1 hcs]
end

end ncc.tree

namespace ncc.controller
open tree

theorem apply_same_flag (c : abstract_interface) (e : effects) (h : e.remove_self = false) :
    same_flag c (c.apply e) := by
  unfold abstract_interface.apply
  rw [h]
  cases e.set_name <;> simp [same_flag, abstract_interface.set_name]

theorem send_message_to_same_flag (B : behaviour) (hB : B.flags_nothing)
    (x : pass_state × abstract_interface) (i : Nat) :
    same_flag x.2 (message.send_message_to B x i).2 := by
  unfold message.send_message_to
  split
  · rfl
  · split
    · simp only [message.handle_message]
      split
      · rfl
      · exact apply_same_flag _ _ (hB.2 _ _ _ _)
    · rfl

theorem step_deliver_same_flag (B : behaviour) (hB : B.flags_nothing) (m : manager) :
    related same_flag m.root_controller (m.step_deliver B).2 := by
  have hrefl : ∀ d : abstract_interface, same_flag d d := fun _ => rfl
  have htrans : ∀ a b c : abstract_interface, same_flag a b → same_flag b c → same_flag a c :=
    fun a b c h1 h2 => Eq.trans h2 h1
  have h1 : related same_flag m.root_controller (m.step_control B).2 :=
    (transverse_spec (control B) (fun _ _ => True) same_flag (fun _ => True)
      (fun _ => trivial) (fun _ _ _ _ _ => trivial) hrefl
      (fun _ d _ => ⟨trivial, apply_same_flag d _ (hB.1 d)⟩) m.root_controller _
      (fun _ _ => trivial)).2
  have h2 : ∀ (s : pass_state) (root : ptr),
      related same_flag root (message.send_messages B s root).2 := by
    intro s root
    unfold message.send_messages
    split
    · exact related_refl _ hrefl _
    · simp only []
      split
      · exact related_refl _ hrefl _
      · exact (transverse_spec (message.send_message B _) (fun _ _ => True) same_flag
          (fun _ => True) (fun _ => trivial) (fun _ _ _ _ _ => trivial) hrefl
          (fun s d _ => ⟨trivial,
            foldl_preorder (message.send_message_to B) (fun a b => same_flag a.2 b.2)
              (fun _ => rfl) (fun _ _ _ h1 h2 => Eq.trans h2 h1)
              (send_message_to_same_flag B hB) _ (s, d)⟩) root s
          (fun _ _ => trivial)).2
  exact related_trans same_flag htrans _ _ _ h1 (h2 _ _)

/-- C30: `remove_if` is idempotent for a predicate `p` on a node's own state: applied to
the tree a first application left, it evaluates `p` to `false` on every pointer it tests,
removes nothing and returns that tree; and of two consecutive `step()` calls, when the
callbacks of the second call `remove_self()` on no controller, the prune phase of the
second leaves the tree as the delivery phase handed it over. -/
theorem remove_if_idempotent {α : Type} (p : Option α → Bool) (t : node_type α)
    (m : manager) (B B2 : behaviour) (hB2 : B2.flags_nothing) :
    (remove_if (logged p) [] (remove_if (logged p) [] t).2).2
        = (remove_if (logged p) [] t).2 ∧
      (∀ o ∈ (remove_if (logged p) [] (remove_if (logged p) [] t).2).1, p o = false) ∧
      (remove_if should_remove () (remove_if should_remove () m.root_controller).2).2
        = (remove_if should_remove () m.root_controller).2 ∧
      ((m.step B).1.step B2).1.root_controller = ((m.step B).1.step_deliver B2).2 := by
  have hs := remove_if_settles p (logged p) (fun _ _ => rfl) t []
  refine ⟨remove_if_fixed p (logged p) (fun _ _ => rfl) _ [] hs, ?_, ?_, ?_⟩
  · intro o ho
    rcases remove_if_fixed_log p _ [] hs o ho with h | h
    · simp at h
    · exact h
  · exact remove_if_fixed flagged_dead should_remove should_remove_eq _ ()
      (remove_if_settles flagged_dead should_remove should_remove_eq _ ())
  · have h1 : settled flagged_dead (m.step B).1.root_controller = true :=
      remove_if_settles flagged_dead should_remove should_remove_eq _ ()
    have h2 := settled_related flagged_dead same_flag
      (fun a b h => by
        simp only [flagged_dead, abstract_interface.is_alive]
        rw [h])
      _ _ (step_deliver_same_flag B2 hB2 (m.step B).1)
    rw [h1] at h2
    exact remove_if_fixed flagged_dead should_remove should_remove_eq _ () h2

theorem remove_if_idempotent_witness :
    (remove_if (logged flagged_dead) []
        (remove_if (logged flagged_dead) [] c2_manager.root_controller).2).1 = [] ∧
      ((c2_manager.step c2_behaviour).1.step c2_behaviour).1.root_controller
        = .node c3_root [] :=
  ⟨by decide,
    ((remove_if_idempotent flagged_dead c2_manager.root_controller c2_manager c2_behaviour
      c2_behaviour ⟨fun _ => rfl, fun _ _ _ _ => rfl⟩).2.2.2).trans rfl⟩

end ncc.controller

namespace ncc.tree

mutual
theorem depth_first_search_unit {α : Type} (q : node_type α → Bool) :
    ∀ (t : node_type α),
      (depth_first_search (fun (s : Unit) n => (s, q n)) () t).2 = first_match q (subtrees t)
  | .null => by simp [depth_first_search, subtrees, first_match]
  | .node d ch => by
    cases hq : q (.node d ch) with
    | true => simp [depth_first_search, hq, subtrees, first_match, List.find?_cons]
    | false =>
      have ih := depth_first_search_children_unit q ch
      simp only [depth_first_search, hq, ih, subtrees, first_match, List.find?_cons]
theorem depth_first_search_children_unit {α : Type} (q : node_type α → Bool) :
    ∀ (l : List (node_type α)),
      (depth_first_search_children (fun (s : Unit) n => (s, q n)) () l).2
        = first_match q (subtrees_children l)
  | [] => by simp [depth_first_search_children, subtrees_children, first_match]
  | c :: cs => by
    have h1 := depth_first_search_unit q c
    have h2 := depth_first_search_children_unit q cs
    rcases hr : depth_first_search (fun (s : Unit) n => (s, q n)) () c with ⟨s1, r⟩
    rw [hr] at h1
    simp only at h1
    cases hf : (subtrees c).find? q with
    | none =>
      have hnull : r = .null := by rw [h1]; simp [first_match, hf]
      subst hnull
      simp only [depth_first_search_children, hr, h2, subtrees_children]
      exact ((examined_append_none q (subtrees c) (subtrees_children cs) hf).2).symm
    | some x =>
      obtain ⟨d, ch, rfl⟩ := subtrees_not_null c x (List.mem_of_find?_eq_some hf)
      have hx : r = .node d ch := by rw [h1]; simp [first_match, hf]
      subst hx
      simp only [depth_first_search_children, hr, subtrees_children]
      rw [(examined_append_some q (subtrees c) (subtrees_children cs) _ hf).2]
      simp [first_match, hf]
end

mutual
theorem subtrees_data {α : Type} :
    ∀ (t : node_type α), (subtrees t).filterMap (fun n => n.data?) = nodes t
  | .null => by simp [subtrees, nodes]
  | .node d ch => by
    have ih := subtrees_children_data ch
    simp only [subtrees, nodes]
    rw [← ih]
    rfl
theorem subtrees_children_data {α : Type} :
    ∀ (l : List (node_type α)),
      (subtrees_children l).filterMap (fun n => n.data?) = nodes_children l
  | [] => by simp [subtrees_children, nodes_children]
  | c :: cs => by
    simp only [subtrees_children, nodes_children, List.filterMap_append]
    rw [subtrees_data c, subtrees_children_data cs]
end

theorem first_match_data {α : Type} (f : α → Bool) :
    ∀ (l : List (node_type α)),
      (first_match (fun n => n.data?.any f) l).data?
        = (l.filterMap (fun n => n.data?)).find? f
  | [] => by simp [first_match, node_type.data?]
  | .null :: l => by
    have ih := first_match_data f l
    simp only [first_match] at ih ⊢
    simpa [List.find?_cons, node_type.data?] using ih
  | .node d ch :: l => by
    have ih := first_match_data f l
    simp only [first_match] at ih ⊢
    cases hf : f d with
    | true => simp [List.find?_cons, node_type.data?, hf]
    | false => simpa [List.find?_cons, node_type.data?, hf] using ih

theorem data_none_iff {α : Type} (t : node_type α) : t.data? = none ↔ t = .null := by
  cases t <;> simp [node_type.data?]

end ncc.tree

namespace ncc.controller
open tree

theorem find_controller_name_eq (m : manager) (name : String) :
    m.find_controller_name name
      = first_match (fun n => n.data?.any (fun c => controller_has_name c name))
          (subtrees m.root_controller) := by
  have h : on_controller (fun c => controller_has_name c name)
      = fun (s : Unit) (n : ptr) => (s, n.data?.any (fun c => controller_has_name c name)) := by
    funext s n
    cases n <;> rfl
  unfold manager.find_controller_name
  rw [h]
  exact depth_first_search_unit _ _

theorem controller_has_name_of_ne (name : String) (hn : name ≠ "") (c : abstract_interface) :
    controller_has_name c name = (c.get_name == name) := by
  unfold controller_has_name
  by_cases h : c.get_name = name
  · have hl : c.get_name.length ≠ 0 := fun h0 => hn (h ▸ string_length_zero _ h0)
    simp [h, hl]
    rw [← h]
    exact hl
  · simp [h]

/-- C21 (as amended): for a name that is not empty, `find_controller(name)` returns the
first pointer in pre-order (root first) to a controller whose `get_name()` equals `name`;
the handle is empty exactly when no controller of the tree has that name.  With the empty
name the handle is always empty. -/
theorem find_controller_first_named (m : manager) (name : String) (hn : name ≠ "") :
    m.find_controller_name name
        = first_match (fun n => n.data?.any (fun c => c.get_name == name))
            (subtrees m.root_controller) ∧
      (m.find_controller_name name).data?
        = (nodes m.root_controller).find? (fun c => c.get_name == name) ∧
      (m.find_controller_name name = .null ↔
        ∀ c ∈ nodes m.root_controller, c.get_name ≠ name) ∧
      ∀ m1 : manager, m1.find_controller_name "" = .null := by
  have h0 : (fun c => controller_has_name c name) = fun c => c.get_name == name :=
    funext (controller_has_name_of_ne name hn)
  have h1 := find_controller_name_eq m name
  rw [h0] at h1
  have h2 : (m.find_controller_name name).data?
      = (nodes m.root_controller).find? (fun c => c.get_name == name) := by
    rw [h1, first_match_data, subtrees_data]
  refine ⟨h1, h2, ?_, ?_⟩
  · rw [← data_none_iff, h2, List.find?_eq_none]
    simp
  · intro m1
    have h3 := find_controller_name_eq m1 ""
    have h4 : (fun c => controller_has_name c "") = fun _ => false := by
      funext c
      unfold controller_has_name
      by_cases h : c.get_name = ""
      · simp [h]
      · simp [h]
    rw [h4] at h3
    rw [h3]
    unfold first_match
    have : (subtrees m1.root_controller).find? (fun n => n.data?.any (fun _ => false))
        = none := by
      rw [List.find?_eq_none]
      intro x _
      cases x <;> simp [node_type.data?]
    rw [this]
    rfl

theorem find_controller_first_named_witness :
    "e1" ≠ "" ∧ (c10_manager.find_controller_name "e1").data? = some c3_child ∧
      ¬ (c10_manager.find_controller_name "e1" = .null) ∧
      c10_manager.find_controller_name "" = .null :=
  ⟨by decide,
    ((find_controller_first_named c10_manager "e1" (by decide)).2.1).trans (by decide),
    fun h => absurd
      (((find_controller_first_named c10_manager "e1" (by decide)).2.2.1).1 h c3_child
        (by decide)) (by decide),
    (find_controller_first_named c10_manager "e1" (by decide)).2.2.2 c10_manager⟩

/-- C21 (as stated) fails: the root of `c3_manager` has the empty name, and
`find_controller("")` returns an empty handle. -/
theorem find_controller_empty_name_fails :
    ¬ ∀ (m : manager) (name : String),
        m.find_controller_name name
            = first_match (fun n => n.data?.any (fun c => c.get_name == name))
                (subtrees m.root_controller) ∧
          (m.find_controller_name name = .null ↔
            ∀ c ∈ nodes m.root_controller, c.get_name ≠ name) := by
  intro h
  exact ((h c3_manager "").2.1 rfl) c3_root (by decide) rfl

end ncc.controller

namespace ncc.controller
open tree

theorem lookup_filter_ne {β : Type} (name other : String) (h : other ≠ name) :
    ∀ (l : List (String × β)),
      List.lookup other (l.filter (fun b => b.1 != name)) = List.lookup other l
  | [] => rfl
  | (k, v) :: l => by
    have ih := lookup_filter_ne name other h l
    by_cases hk : k = name
    · subst hk
      have h1 : (other == k) = false := beq_false_of_ne h
      simp only [List.filter_cons, bne_self_eq_false, Bool.false_eq_true, if_false,
        List.lookup_cons, h1, ih]
    · have h1 : (k != name) = true := by simp [hk]
      simp only [List.filter_cons, h1, if_true, List.lookup_cons, ih]

theorem add_prototype_bound (m : manager) (name : String) (hn : name ≠ "")
    (d : abstract_interface) (ch : List ptr) :
    m.add_prototype name (.node d ch)
      = { m with
          prototypes := (name, .node d ch) :: m.prototypes.filter (fun b => b.1 != name) } := by
  have hl : name.length ≠ 0 := fun h0 => hn (string_length_zero _ h0)
  simp [manager.add_prototype, hl]

/-- C22: `add_prototype(name, p)` leaves the manager as it is when `name` is empty or `p`
is null; otherwise `find_prototype(name)` is `p` afterwards, whatever `name` was bound to
before, every other name is bound as it was, the tree and the queue are untouched, and
`create_controller(name, params)` clones `p`: the prototype added last. -/
theorem add_prototype_binds (L : lifecycle) (m : manager) (name : String) (hn : name ≠ "")
    (d : abstract_interface) (ch : List ptr) (params : parameter_list) :
    (∀ p : ptr, m.add_prototype "" p = m) ∧
      m.add_prototype name .null = m ∧
      (m.add_prototype name (.node d ch)).find_prototype name = .node d ch ∧
      (∀ other, other ≠ name →
        (m.add_prototype name (.node d ch)).find_prototype other = m.find_prototype other) ∧
      (∀ (d0 : abstract_interface) (ch0 : List ptr),
        ((m.add_prototype name (.node d0 ch0)).add_prototype name (.node d ch)).find_prototype
          name = .node d ch) ∧
      (m.add_prototype name (.node d ch)).root_controller = m.root_controller ∧
      (m.add_prototype name (.node d ch)).message_manager = m.message_manager ∧
      (m.add_prototype name (.node d ch)).create_controller L name params
        = match L.clone_prototype d with
          | .null => (m.add_prototype name (.node d ch), .ok .null, [.clone_prototype d.value])
          | .node c cc =>
            ((m.add_prototype name (.node d ch)).enqueue (L.initialize_ c params).2.sends,
              .ok (if (L.initialize_ c params).1 then
                  .node (c.apply (L.initialize_ c params).2) cc
                else .null),
              [.clone_prototype d.value, .initialize_ c.value params]) := by
  have hfind : ∀ (m0 : manager) (d1 : abstract_interface) (ch1 : List ptr),
      (m0.add_prototype name (.node d1 ch1)).find_prototype name = .node d1 ch1 := by
    intro m0 d1 ch1
    rw [add_prototype_bound m0 name hn]
    simp [manager.find_prototype, List.lookup_cons]
  refine ⟨?_, rfl, hfind m d ch, ?_, fun d0 ch0 => hfind _ d ch, ?_, ?_, ?_⟩
  · intro p
    cases p <;> rfl
  · intro other ho
    rw [add_prototype_bound m name hn]
    have h1 : (other == name) = false := beq_false_of_ne ho
    simp only [manager.find_prototype, List.lookup_cons, h1]
    rw [lookup_filter_ne name other ho]
  · rw [add_prototype_bound m name hn]
  · rw [add_prototype_bound m name hn]
  · unfold manager.create_controller
    rw [hfind m d ch]

theorem add_prototype_binds_witness :
    "bullet" ≠ "" ∧
      (c18_manager.add_prototype "bullet" (.node c18_rock [])).find_prototype "bullet"
        = .node c18_rock [] ∧
      (c18_manager.add_prototype "bullet" (.node c18_rock [])).find_prototype "rock"
        = c18_manager.find_prototype "rock" ∧
      ((c18_manager.add_prototype "bullet" (.node c18_rock [])).create_controller
          c18_lifecycle "bullet" []).2.2 = [.clone_prototype 8] :=
  ⟨by decide,
    (add_prototype_binds c18_lifecycle c18_manager "bullet" (by decide) c18_rock [] []).2.2.1,
    (add_prototype_binds c18_lifecycle c18_manager "bullet" (by decide) c18_rock []
      []).2.2.2.1 "rock" (by decide),
    (congrArg (fun r => r.2.2)
      (add_prototype_binds c18_lifecycle c18_manager "bullet" (by decide) c18_rock []
        []).2.2.2.2.2.2.2).trans rfl⟩

end ncc.controller

namespace ncc

theorem id_call_run_inv (h : id_heap) (hinv : h.inv) (c : id_call) : (c.run h).inv := by
  obtain ⟨h1, h2, h3, h4, h5⟩ := hinv
  have hfresh : h.previous_id ∉ h.objects.map (fun o => o.value) := by
    intro hm
    obtain ⟨o, ho, hv⟩ := List.mem_map.1 hm
    have := h1 _ (h3 o ho)
    rw [hv] at this
    exact absurd this (lt_irrefl _)
  have hiss : ∀ v ∈ h.issued ++ [h.previous_id], v < h.previous_id + 1 := by
    intro v hv
    rcases List.mem_append.1 hv with hv | hv
    · exact Nat.lt_succ_of_lt (h1 v hv)
    · rw [List.mem_singleton.1 hv]
      exact Nat.lt_succ_self _
  have hpair : (h.issued ++ [h.previous_id]).Pairwise (fun a b => a < b) := by
    rw [List.pairwise_append]
    refine ⟨h2, List.pairwise_singleton _ _, ?_⟩
    intro a ha b hb
    rw [List.mem_singleton.1 hb]
    exact h1 a ha
  have hobj : ∀ o ∈ h.objects ++ [(⟨h.previous_id⟩ : id_type)],
      o.value ∈ h.issued ++ [h.previous_id] := by
    intro o ho
    rcases List.mem_append.1 ho with ho | ho
    · exact List.mem_append_left _ (h3 o ho)
    · rw [List.mem_singleton.1 ho]
      simp
  have hnd : ((h.objects ++ [(⟨h.previous_id⟩ : id_type)]).map (fun o => o.value)).Nodup := by
    rw [List.map_append, List.nodup_append]
    refine ⟨h4, List.nodup_singleton _, ?_⟩
    intro a ha hb
    simp only [List.map_cons, List.map_nil, List.mem_singleton] at hb
    exact hfresh (hb ▸ ha)
  cases c with
  | create =>
    exact ⟨hiss, hpair, hobj, hnd, h5⟩
  | copy rhs =>
    simp only [id_call.run]
    cases hx : h.objects[rhs]? with
    | none => exact ⟨h1, h2, h3, h4, h5⟩
    | some x =>
      refine ⟨hiss, hpair, hobj, hnd, ?_⟩
      intro y hy
      rcases List.mem_append.1 hy with hy | hy
      · exact h5 y hy
      · rw [List.mem_singleton.1 hy]
        exact h1 _ (h3 x (List.mem_iff_getElem?.2 ⟨rhs, hx⟩))
  | assign lhs rhs =>
    simp only [id_call.run]
    cases ha : h.objects[lhs]? with
    | none => exact ⟨h1, h2, h3, h4, h5⟩
    | some a =>
      cases hb : h.objects[rhs]? with
      | none => exact ⟨h1, h2, h3, h4, h5⟩
      | some b =>
        refine ⟨hiss, hpair, ?_, ?_, h5⟩
        · intro o ho
          rcases List.mem_or_eq_of_mem_set ho with ho | ho
          · exact List.mem_append_left _ (h3 o ho)
          · rw [ho]
            simp [id_type.assign, id_type.create_id]
        · rw [List.map_set]
          exact h4.set hfresh

theorem run_id_calls_inv (previous_id : Nat) (calls : List id_call) :
    (run_id_calls previous_id calls).inv := by
  unfold run_id_calls
  have h0 : (⟨previous_id, [], [], []⟩ : id_heap).inv := by
    simp [id_heap.inv]
  generalize (⟨previous_id, [], [], []⟩ : id_heap) = h at h0
  induction calls generalizing h with
  | nil => exact h0
  | cons c cs ih => exact ih _ (id_call_run_inv h h0 c)

/-- C24: with the static counter explicit and no wraparound, after any sequence of default
constructions, copy constructions and assignments of `id_type` objects, no two objects
hold the same value, every value was issued strictly above all values issued before it,
and at every copy construction the copy got a value different from the value of the object
it was copied from. -/
theorem id_values_unique_and_increasing (previous_id : Nat) (calls : List id_call) :
    ((run_id_calls previous_id calls).objects.map (fun o => o.value)).Nodup ∧
      (run_id_calls previous_id calls).issued.Pairwise (fun a b => a < b) ∧
      (∀ x ∈ (run_id_calls previous_id calls).copies, x.2 ≠ x.1) ∧
      (∀ o ∈ (run_id_calls previous_id calls).objects,
        o.value ∈ (run_id_calls previous_id calls).issued) ∧
      (run_id_calls 0 [.create, .create, .copy 0, .assign 1 0]).objects
        = [⟨0⟩, ⟨3⟩, ⟨2⟩] := by
  obtain ⟨_, h2, h3, h4, h5⟩ := run_id_calls_inv previous_id calls
  exact ⟨h4, h2, fun x hx => Nat.ne_of_gt (h5 x hx), h3, by decide⟩

end ncc

namespace ncc.controller
open tree

/-- C25, the code at a newly constructed manager: the root reports the type "root" and the
type id 0, has no children and the catalog is empty, but `get_name()` returns the empty
string and not "root": the constructor leaves `name_holder` default constructed. -/
theorem new_manager_root_is_unnamed (previous_id : Nat) :
    ∃ r : abstract_interface,
      (manager.create previous_id).1.root_controller = .node r [] ∧
        r.get_type = "root" ∧ r.get_type_id = 0 ∧ r.get_name = "" ∧ r.get_name ≠ "root" ∧
        r.is_alive = true ∧ r.get_id = previous_id ∧
        (manager.create previous_id).1.root_controller.children = [] ∧
        (manager.create previous_id).1.prototypes = [] ∧
        (∀ type, (manager.create previous_id).1.find_prototype type = .null) ∧
        (manager.create previous_id).1.queue = [] ∧
        (manager.create previous_id).1.find_controller_name "root" = .null :=
  ⟨_, rfl, rfl, rfl, rfl, (by decide : ("" : String) ≠ "root"), rfl, rfl, rfl, rfl, fun _ => rfl, rfl, rfl⟩

end ncc.controller

namespace ncc.tree

theorem walk_all {β : Type} :
    ∀ (l : List β) (first : Nat), walk l first (first + l.length) = l
  | [], _ => rfl
  | x :: l, first => by
    have ih := walk_all l (first + 1)
    have h : first + (x :: l).length = first + 1 + l.length := by
      simp only [List.length_cons]
      omega
    simp only [walk, h]
    rw [if_neg (by omega), ih]

theorem walk_none {β : Type} (l : List β) (first : Nat) : walk l first first = [] := by
  cases l <;> simp [walk]

/-- C27, the code on a node with children: the `const` overload of `children_end()`
returns the position `child_list.begin()`, the one `children_begin()` returns, which is the
past-the-end position only when there is no child; a loop from `children_begin()` to
`children_end()` on a `const` node enumerates no child, while the same loop through the
overloads that are not `const` enumerates every child once, in order. -/
theorem const_children_end_is_begin (n : is_node) :
    n.children_end_const = n.children_begin_const ∧
      n.enumerate n.children_begin_const n.children_end_const = [] ∧
      n.enumerate n.children_begin n.children_end = n.child_list ∧
      (n.children_end_const = n.children_end ↔ n.child_list = []) ∧
      (n.enumerate n.children_begin_const n.children_end_const = n.child_list ↔
        n.child_list = []) ∧
      (⟨none, some 0, [some 1, some 2]⟩ : is_node).children_end_const = 0 ∧
      (⟨none, some 0, [some 1, some 2]⟩ : is_node).children_end = 2 ∧
      (⟨none, some 0, [some 1, some 2]⟩ : is_node).enumerate 0 0 = [] ∧
      (⟨none, some 0, [some 1, some 2]⟩ : is_node).enumerate 0 2 = [some 1, some 2] := by
  have h1 : n.enumerate n.children_begin_const n.children_end_const = [] := walk_none _ _
  refine ⟨rfl, h1, ?_, ?_, ?_, rfl, rfl, rfl, rfl⟩
  · have := walk_all n.child_list 0
    simpa [is_node.enumerate, is_node.children_begin, is_node.children_end] using this
  · simp only [is_node.children_end_const, is_node.children_end]
    constructor
    · intro h
      exact List.length_eq_zero.1 h.symm
    · intro h
      rw [h]
      rfl
  · rw [h1]
    constructor
    · intro h
      exact h.symm
    · intro h
      exact h.symm

end ncc.tree

namespace ncc.tree

theorem nodes_children_append {α : Type} :
    ∀ (l l1 : List (node_type α)),
      nodes_children (l ++ l1) = nodes_children l ++ nodes_children l1
  | [], l1 => by simp [nodes_children]
  | c :: cs, l1 => by
    have ih := nodes_children_append cs l1
    show nodes c ++ nodes_children (cs ++ l1) = (nodes c ++ nodes_children cs) ++ _
    rw [ih, List.append_assoc]

theorem nodes_children_sublist {α : Type} (l l1 : List (node_type α)) (h : l.Sublist l1) :
    (nodes_children l).Sublist (nodes_children l1) := by
  induction h with
  | slnil => exact List.Sublist.refl _
  | cons a _ ih =>
    simp only [nodes_children]
    exact ih.trans (List.sublist_append_right _ _)
  | cons₂ a _ ih =>
    simp only [nodes_children]
    exact (List.Sublist.refl _).append ih

theorem nodes_add_child {α : Type} (key : α → Nat) (n x : node_type α) :
    ∀ c ∈ nodes (n.add_child key x).1, c ∈ nodes n ∨ c ∈ nodes x := by
  intro c hc
  cases n with
  | null => exact Or.inl (by simpa [node_type.add_child] using hc)
  | node d ch =>
    cases x with
    | null => exact Or.inl (by simpa [node_type.add_child] using hc)
    | node e ec =>
      simp only [node_type.add_child] at hc
      split at hc
      · exact Or.inl hc
      · simp only [nodes, nodes_children_append, nodes_children, List.append_nil,
          List.mem_cons, List.mem_append] at hc ⊢
        rcases hc with hc | hc | hc | hc
        · exact Or.inl (Or.inl hc)
        · exact Or.inl (Or.inr hc)
        · exact Or.inr (Or.inl hc)
        · exact Or.inr (Or.inr hc)

theorem nodes_remove_child {α : Type} (key : α → Nat) (n x : node_type α) :
    (nodes (n.remove_child key x).1).Sublist (nodes n) := by
  cases n with
  | null => simp [node_type.remove_child]
  | node d ch =>
    simp only [node_type.remove_child]
    split
    · simp only [nodes]
      exact (nodes_children_sublist _ _ (List.eraseP_sublist ch)).cons₂ d
    · exact List.Sublist.refl _

mutual
theorem nodes_at_node {α : Type} (key : α → Nat) (p : Nat) (g : node_type α → node_type α)
    (extra : List α) (hg : ∀ n, ∀ c ∈ nodes (g n), c ∈ nodes n ∨ c ∈ extra) :
    ∀ (t : node_type α), ∀ c ∈ nodes (at_node key p g t), c ∈ nodes t ∨ c ∈ extra
  | .null => by
    intro c hc
    simp [at_node, nodes] at hc
  | .node d ch => by
    intro c hc
    simp only [at_node] at hc
    split at hc
    · exact hg _ c hc
    · simp only [nodes, List.mem_cons] at hc ⊢
      rcases hc with hc | hc
      · exact Or.inl (Or.inl hc)
      · rcases nodes_at_children key p g extra hg ch c hc with h | h
        · exact Or.inl (Or.inr h)
        · exact Or.inr h
theorem nodes_at_children {α : Type} (key : α → Nat) (p : Nat)
    (g : node_type α → node_type α) (extra : List α)
    (hg : ∀ n, ∀ c ∈ nodes (g n), c ∈ nodes n ∨ c ∈ extra) :
    ∀ (l : List (node_type α)), ∀ c ∈ nodes_children (at_children key p g l),
      c ∈ nodes_children l ∨ c ∈ extra
  | [] => by
    intro c hc
    simp [at_children, nodes_children] at hc
  | x :: xs => by
    intro c hc
    simp only [at_children, nodes_children, List.mem_append] at hc ⊢
    rcases hc with hc | hc
    · rcases nodes_at_node key p g extra hg x c hc with h | h
      · exact Or.inl (Or.inl h)
      · exact Or.inr h
    · rcases nodes_at_children key p g extra hg xs c hc with h | h
      · exact Or.inl (Or.inr h)
      · exact Or.inr h
end

end ncc.tree

namespace ncc.controller
open tree

theorem nodes_add_controller (m : manager) (new_controller : ptr) (parent : Option Nat) :
    ∀ c ∈ nodes (m.add_controller new_controller parent).root_controller,
      c ∈ nodes m.root_controller ∨ c ∈ nodes new_controller := by
  intro c hc
  unfold manager.add_controller at hc
  split at hc
  · exact Or.inl hc
  · exact Or.inl hc
  · exact nodes_at_node (fun d => d.value) _ _ _
      (fun n => nodes_add_child (fun d => d.value) n _) _ c hc

theorem remove_controller_name_related (m : manager) (n : String) :
    related evolves m.root_controller (m.remove_controller_name n).root_controller :=
  (transverse_spec (remove_controller_by_name n) (fun _ _ => True) evolves (fun _ => True)
    (fun _ => trivial) (fun _ _ _ _ _ => trivial) evolves_refl
    (fun _ d _ => ⟨trivial, by
      unfold remove_controller_by_name
      split
      · exact ⟨rfl, rfl, rfl, fun _ => rfl⟩
      · exact evolves_refl d⟩) m.root_controller () (fun _ _ => trivial)).2

theorem remove_controller_id_related (m : manager) (i : Nat) :
    related evolves m.root_controller (m.remove_controller_id i).root_controller :=
  (transverse_spec (remove_controller_by_id i) (fun _ _ => True) evolves (fun _ => True)
    (fun _ => trivial) (fun _ _ _ _ _ => trivial) evolves_refl
    (fun _ d _ => ⟨trivial, by
      unfold remove_controller_by_id
      split
      · exact ⟨rfl, rfl, rfl, fun _ => rfl⟩
      · exact evolves_refl d⟩) m.root_controller () (fun _ _ => trivial)).2

/-- C23: the liveness flag is monotonic. A controller is alive when constructed; it is not
after `remove_self()` or `manager::remove_controller` on it; `set_name` keeps the flag and
a callback leaves a dead controller dead; `add_child`, `remove_child` and every
`add_controller` change no controller, they only attach or detach; `remove_controller` by
name or by id and the control and delivery phases of `step()` leave the tree its shape and
every dead controller dead, the prune phase only removes controllers; and no `send_message`
touches the tree. -/
theorem liveness_flag_is_monotonic (L : lifecycle) (B : behaviour) (m : manager) :
    (∀ previous_id type type_id,
        (abstract_interface.create previous_id type type_id).1.is_alive = true) ∧
      (∀ c : abstract_interface,
        c.remove_self.is_alive = false ∧ (remove_controller c).is_alive = false) ∧
      (∀ (c : abstract_interface) (n : String), (c.set_name n).is_alive = c.is_alive) ∧
      (∀ (c : abstract_interface) (e : effects),
        c.is_alive = false → (c.apply e).is_alive = false) ∧
      (∀ (n x : ptr), ∀ c ∈ nodes (n.add_child (fun d => d.value) x).1,
        c ∈ nodes n ∨ c ∈ nodes x) ∧
      (∀ (n x : ptr), (nodes (n.remove_child (fun d => d.value) x).1).Sublist (nodes n)) ∧
      (∀ (new_controller : ptr) (parent : Option Nat),
        ∀ c ∈ nodes (m.add_controller new_controller parent).root_controller,
          c ∈ nodes m.root_controller ∨ c ∈ nodes new_controller) ∧
      (∀ (new_controller : ptr),
        ∀ c ∈ nodes (m.add_controller_root new_controller).root_controller,
          c ∈ nodes m.root_controller ∨ c ∈ nodes new_controller) ∧
      (∀ (d : abstract_interface) (ch : List ptr) (params : parameter_list)
        (parent : Option Nat),
        ∀ c ∈ nodes (m.add_controller_params L (.node d ch) params parent).1.root_controller,
          c ∈ nodes m.root_controller ∨ c = d.apply (L.initialize_ d params).2 ∨
            c ∈ nodes_children ch) ∧
      (∀ (type : String) (params : parameter_list) (parent : Option Nat),
        ∀ c ∈ nodes (m.add_controller_type L type params parent).1.root_controller,
          c ∈ nodes m.root_controller ∨
            ∃ created, (m.create_controller L type params).2.1 = .ok created ∧
              c ∈ nodes created) ∧
      related evolves m.root_controller (m.step_deliver B).2 ∧
      (nodes (m.step B).1.root_controller).Sublist (nodes (m.step_deliver B).2) ∧
      (∀ n : String,
        related evolves m.root_controller (m.remove_controller_name n).root_controller) ∧
      (∀ i : Nat,
        related evolves m.root_controller (m.remove_controller_id i).root_controller) ∧
      ∀ (sender target : Option Nat) (name type : String) (msg : parameter)
        (params : parameter_list) (p : message.parcel),
        (m.send_message_name_parcel sender name p).root_controller = m.root_controller ∧
          (m.send_message_name sender name msg).root_controller = m.root_controller ∧
          (m.send_message_name_params sender name msg params).root_controller
            = m.root_controller ∧
          (m.send_message_to_parcel sender target p).root_controller = m.root_controller ∧
          (m.send_message_to sender target msg).root_controller = m.root_controller ∧
          (m.send_message_to_params sender target msg params).root_controller
            = m.root_controller ∧
          (m.send_message_to_all_type_parcel sender type p).root_controller
            = m.root_controller ∧
          (m.send_message_to_all_type sender type msg).root_controller
            = m.root_controller ∧
          (m.send_message_to_all_type_params sender type msg params).root_controller
            = m.root_controller ∧
          (m.send_message_to_all_parcel sender p).root_controller = m.root_controller ∧
          (m.send_message_to_all sender msg).root_controller = m.root_controller ∧
          (m.send_message_to_all_params sender msg params).root_controller
            = m.root_controller := by
  refine ⟨fun _ _ _ => rfl, fun _ => ⟨rfl, rfl⟩, fun _ _ => rfl,
    fun c e h => (apply_evolves c e).2.2.2 h,
    fun n x => nodes_add_child _ n x, fun n x => nodes_remove_child _ n x,
    nodes_add_controller m, fun nc => nodes_add_controller m nc _, ?_, ?_,
    step_deliver_related B m, remove_if_sublist should_remove _ (), 
    remove_controller_name_related m, remove_controller_id_related m, ?_⟩
  · intro d ch params parent c hc
    unfold manager.add_controller_params at hc
    split at hc
    · exact Or.inl hc
    · exact Or.inl hc
    · rename_i p c0 cc heq
      cases heq
      split at hc
      · exact Or.inl (by simpa [enqueue_root] using hc)
      · rcases nodes_at_node (fun d => d.value) _ _ _
            (fun n => nodes_add_child (fun d => d.value) n _) _ c hc with h | h
        · exact Or.inl h
        · simp only [nodes, List.mem_cons] at h
          exact Or.inr h
  · intro type params parent c hc
    unfold manager.add_controller_type at hc
    have hframe := (create_controller_frame L m type params).2
    rcases hcr : m.create_controller L type params with ⟨m1, r, calls⟩
    rw [hcr] at hc hframe
    simp only at hframe
    cases r with
    | error e =>
      simp only at hc
      exact Or.inl (hframe ▸ hc)
    | ok created =>
      simp only at hc
      rcases nodes_add_controller m1 created parent c hc with h | h
      · exact Or.inl (hframe ▸ h)
      · exact Or.inr ⟨created, rfl, h⟩
  · intro sender target name type msg params p
    refine ⟨?_, rfl, ?_, ?_, rfl, ?_, ?_, rfl, ?_, ?_, rfl, ?_⟩ <;>
      cases sender <;> rfl

end ncc.controller

namespace ncc.controller
open tree

/-- A step of a behaviour that renames nothing, seen from a ready entry of the queue as the
control phase left it. -/
theorem step_entry_log (B : behaviour) (hB : B.renames_nothing) (m : manager) (k : Nat)
    (m0 : message.message)
    (hk : (m.step_control B).1.message_manager.messages[k]? = some m0)
    (hready : m0.message_parcel.send B.conditions = true) :
    (m.step B).2.filter (event.for_message k)
      = event.pass_deliveries k m0 (nodes m.root_controller) := by
  have hr := (mem_ready_messages B.conditions _ k).2 ⟨m0, hk, hready⟩
  obtain ⟨_, hl⟩ := send_messages_ready B (m.step_control B).1 (m.step_control B).2 k hr
  obtain ⟨_, he2⟩ := traverse_entry_pass B hB _ (ready_messages_nodup B.conditions _) k
    (m.step_control B).1 (m.step_control B).2 m0 hk
  obtain ⟨_, hr2⟩ := recipients_related k m0 _ _
    (related_nodes evolves_named _ _ (step_control_related_named B hB m))
  rw [step_log, hl, he2, step_control_log_filter, hr2]
  simp [hr]

/-- C29: in a step whose callbacks rename nothing, a controller of the tree that a ready
queue entry with a non-null sender (an entry of the queue as the control phase left it)
names as recipient has `handle_message` invoked for that entry, whatever its liveness flag,
whatever its `control()` did in the step and whatever the `control()` of its ancestors
returned; the invocations made for the entry are those on the recipients, in pre-order. -/
theorem delivery_ignores_flags_and_control (B : behaviour) (hB : B.renames_nothing)
    (m : manager) (k : Nat) (m0 : message.message) (f : Nat) (c : abstract_interface)
    (hk : (m.step_control B).1.message_manager.messages[k]? = some m0)
    (hfrom : m0.from_ = some f) (hready : m0.message_parcel.send B.conditions = true)
    (hc : c ∈ nodes m.root_controller) (hcall : m0.is_recipient.call c = true) :
    event.delivery k m0 f c ∈ (m.step B).2 ∧
      (m.step B).2.filter (event.for_message k)
        = ((nodes m.root_controller).filter (fun x => m0.is_recipient.call x)).map
            (event.delivery k m0 f) := by
  have h := step_entry_log B hB m k m0 hk hready
  simp only [event.pass_deliveries, hfrom] at h
  refine ⟨?_, h⟩
  have hmem : event.delivery k m0 f c ∈ (m.step B).2.filter (event.for_message k) := by
    rw [h]
    exact List.mem_map_of_mem _ (List.mem_filter.2 ⟨hc, hcall⟩)
  exact (List.mem_filter.1 hmem).1

theorem delivery_ignores_flags_and_control_witness :
    c29_behaviour.renames_nothing ∧
      (c29_manager.step_control c29_behaviour).1.message_manager.messages[0]?
        = some c29_message ∧
      c10_inner ∈ nodes c29_manager.root_controller ∧
      (c29_behaviour.control c3_child).1 = false ∧
      (c29_behaviour.control c3_child).2.remove_self = true ∧
      control_calls (c29_manager.step c29_behaviour).2 = [0, 1, 3] ∧
      event.handle_message 2 0 "hi" [] 3 ∈ (c29_manager.step c29_behaviour).2 ∧
      (c29_manager.step c29_behaviour).2.filter (event.for_message 0)
        = [event.handle_message 1 0 "hi" [] 3, event.handle_message 2 0 "hi" [] 3] :=
  ⟨⟨fun _ => rfl, fun _ _ _ _ => rfl⟩, by decide, by decide, rfl, rfl, by decide,
    (delivery_ignores_flags_and_control c29_behaviour ⟨fun _ => rfl, fun _ _ _ _ => rfl⟩
      c29_manager 0 c29_message 3 c10_inner (by decide) rfl rfl (by decide) rfl).1,
    by decide⟩

end ncc.controller

namespace ncc.controller
open tree

theorem marked_fields (q q2 : List message.message) (h : message.marked q q2) (i : Nat)
    (a mi : message.message) (ha : q[i]? = some a) (hmi : q2[i]? = some mi) :
    mi.is_recipient = a.is_recipient ∧ mi.from_ = a.from_ ∧
      mi.message_parcel = a.message_parcel := by
  rcases h i a ha with h1 | h1
  · rw [hmi] at h1; cases h1; exact ⟨rfl, rfl, rfl⟩
  · rw [hmi] at h1; cases h1; exact ⟨rfl, rfl, rfl⟩

/-- One `send_message_to` during the visit of the controller `c`, read on the queue `q` the
pass started with. -/
theorem send_message_to_visit (B : behaviour) (hB : B.renames_nothing)
    (q : List message.message) (c : abstract_interface)
    (x : pass_state × abstract_interface) (i : Nat) (hi : i < q.length)
    (hm : message.marked q x.1.message_manager.messages) (hev : evolves_named c x.2) :
    message.marked q (message.send_message_to B x i).1.message_manager.messages ∧
      evolves_named c (message.send_message_to B x i).2 ∧
      (message.send_message_to B x i).1.log
        = x.1.log ++ (match q[i]? with
            | some a => if a.is_recipient.call c then event.deliveries i a c else []
            | none => []) := by
  refine ⟨marked_trans _ _ _ hm (send_message_to_marked B x i),
    evolves_named_trans _ _ _ hev (send_message_to_evolves_named B hB x i), ?_⟩
  obtain ⟨a, ha⟩ := exists_entry q i hi
  rw [ha]
  have hx : ∃ mi, x.1.message_manager.messages[i]? = some mi := by
    rcases hm i a ha with h | h
    · exact ⟨_, h⟩
    · exact ⟨_, h⟩
  obtain ⟨mi0, hmi0⟩ := hx
  obtain ⟨hf1, hf2, hf3⟩ := marked_fields q _ hm i a mi0 ha hmi0
  rcases send_message_to_cases B x i with ⟨h, hno⟩ | ⟨mi, new, hmi, hcall, _, hlog, _⟩
  · have h1 := hno mi0 hmi0
    rw [hf1, call_stable a.is_recipient c x.2 hev] at h1
    rw [h]
    simp [h1]
  · rw [hmi0] at hmi
    cases hmi
    rw [hf1, call_stable a.is_recipient c x.2 hev] at hcall
    rw [hlog, deliveries_stable i a mi0 c x.2 hf2 hf3 hev.1.1]
    simp [hcall]

theorem send_message_visit (B : behaviour) (hB : B.renames_nothing)
    (q : List message.message) (c : abstract_interface) :
    ∀ (ready : List Nat), (∀ i ∈ ready, i < q.length) →
      ∀ (x : pass_state × abstract_interface),
        message.marked q x.1.message_manager.messages → evolves_named c x.2 →
        message.marked q (ready.foldl (message.send_message_to B) x).1.message_manager.messages ∧
          (ready.foldl (message.send_message_to B) x).1.log
            = x.1.log ++ event.visit_deliveries q ready c
  | [], _, x, hm, _ => by simp [hm, event.visit_deliveries]
  | i :: rest, hr, x, hm, hev => by
    obtain ⟨h1, h2, h3⟩ := send_message_to_visit B hB q c x i
      (hr i (List.mem_cons_self _ _)) hm hev
    obtain ⟨h4, h5⟩ := send_message_visit B hB q c rest
      (fun j hj => hr j (List.mem_cons_of_mem _ hj)) _ h1 h2
    refine ⟨h4, ?_⟩
    simp only [List.foldl_cons]
    rw [h5, h3]
    simp only [event.visit_deliveries, List.flatMap_cons, List.append_assoc]

theorem visit_deliveries_stable (q : List message.message) (ready : List Nat)
    (c c1 : abstract_interface) (h : evolves_named c c1) :
    event.visit_deliveries q ready c1 = event.visit_deliveries q ready c := by
  unfold event.visit_deliveries
  congr 1
  funext i
  cases q[i]? with
  | none => rfl
  | some a =>
    simp only [call_stable a.is_recipient c c1 h,
      deliveries_stable i a a c c1 rfl rfl h.1.1]

theorem flat_map_related (q : List message.message) (ready : List Nat)
    (l l1 : List abstract_interface) (h : List.Forall₂ evolves_named l l1) :
    l1.flatMap (event.visit_deliveries q ready) = l.flatMap (event.visit_deliveries q ready) := by
  induction h with
  | nil => rfl
  | cons hab _ ih =>
    simp only [List.flatMap_cons, ih, visit_deliveries_stable q ready _ _ hab]

theorem deliveries_are_deliveries (i : Nat) (a : message.message) (c : abstract_interface) :
    ∀ ev ∈ event.deliveries i a c,
      ev.is_delivery = true ∧ ev.recipient = some c.value ∧ ev.index = some i := by
  intro ev hev
  unfold event.deliveries at hev
  cases hf : a.from_ with
  | none => rw [hf] at hev; simp at hev
  | some f =>
    rw [hf] at hev
    simp only [List.mem_singleton] at hev
    subst hev
    exact ⟨rfl, rfl, rfl⟩

theorem visit_deliveries_are_deliveries (q : List message.message) (ready : List Nat)
    (c : abstract_interface) :
    ∀ ev ∈ event.visit_deliveries q ready c, ev.is_delivery = true := by
  intro ev hev
  unfold event.visit_deliveries at hev
  rw [List.mem_flatMap] at hev
  obtain ⟨i, _, hi⟩ := hev
  cases hq : q[i]? with
  | none => rw [hq] at hi; simp at hi
  | some a =>
    rw [hq] at hi
    simp only at hi
    split at hi
    · exact (deliveries_are_deliveries i a c ev hi).1
    · simp at hi

theorem control_log_no_delivery (B : behaviour) (m : manager) :
    (m.step_control B).1.log.filter event.is_delivery = [] := by
  rw [List.filter_eq_nil_iff]
  intro ev hev
  obtain ⟨c, rfl⟩ := step_control_log B m ev hev
  simp [event.is_delivery]

/-- The traversal of the delivery pass of a behaviour that renames nothing, on the queue
the pass started with. -/
theorem traverse_visit_deliveries (B : behaviour) (hB : B.renames_nothing)
    (ready : List Nat) (s : pass_state)
    (hr : ∀ i ∈ ready, i < s.message_manager.messages.length) (root : ptr) :
    (transverse_depth_first (message.send_message B ready) s root).1.log
      = s.log ++ (nodes root).flatMap
          (event.visit_deliveries s.message_manager.messages ready) := by
  have h := transverse_visits (message.send_message B ready)
    (fun a b l => message.marked s.message_manager.messages a.message_manager.messages →
      message.marked s.message_manager.messages b.message_manager.messages ∧
        b.log = a.log ++ l.flatMap (event.visit_deliveries s.message_manager.messages ready))
    (fun _ => True)
    (fun a ha => ⟨ha, by simp⟩)
    (fun a b c l l1 h1 h2 ha => by
      obtain ⟨hb, hl1⟩ := h1 ha
      obtain ⟨hc, hl2⟩ := h2 hb
      exact ⟨hc, by rw [hl2, hl1, List.flatMap_append, List.append_assoc]⟩)
    (fun a d _ => ⟨fun ha => by
      obtain ⟨h1, h2⟩ := send_message_visit B hB s.message_manager.messages d ready hr
        (a, d) ha (evolves_named_refl d)
      exact ⟨h1, by simpa [message.send_message] using h2⟩, rfl⟩)
    root s (fun _ _ => trivial)
  exact (h (marked_refl _)).2

theorem ready_messages_nil (conditions : Nat → Bool) :
    message.ready_messages conditions [] = [] := rfl

theorem flat_map_no_ready (q : List message.message) (l : List abstract_interface) :
    l.flatMap (event.visit_deliveries q []) = [] := by
  induction l with
  | nil => rfl
  | cons a l ih => simp [List.flatMap_cons, ih, event.visit_deliveries]

/-- The invocations of `handle_message` of a step of a behaviour that renames nothing. -/
theorem step_deliveries (B : behaviour) (hB : B.renames_nothing) (m : manager) :
    (m.step B).2.filter event.is_delivery
      = (nodes m.root_controller).flatMap
          (event.visit_deliveries (m.step_control B).1.message_manager.messages
            (message.ready_messages B.conditions
              (m.step_control B).1.message_manager.messages)) := by
  have hrel := related_nodes evolves_named _ _ (step_control_related_named B hB m)
  rw [← flat_map_related _ _ _ _ hrel, step_log]
  unfold message.send_messages
  split
  · rename_i hempty
    have hq : (m.step_control B).1.message_manager.messages = [] :=
      List.isEmpty_iff.1 hempty
    rw [control_log_no_delivery, hq, ready_messages_nil, flat_map_no_ready]
  · simp only []
    split
    · rename_i hempty
      rw [control_log_no_delivery, List.isEmpty_iff.1 hempty, flat_map_no_ready]
    · simp only []
      rw [traverse_visit_deliveries B hB _ _ (ready_messages_lt _ _), List.filter_append,
        control_log_no_delivery, List.nil_append, List.filter_eq_self]
      intro ev hev
      rw [List.mem_flatMap] at hev
      obtain ⟨c, _, hc⟩ := hev
      exact visit_deliveries_are_deliveries _ _ c ev hc

theorem forall₂_mem_right_pair {α β : Type} (R : α → β → Prop) (l : List α) (l1 : List β)
    (h : List.Forall₂ R l l1) : ∀ y ∈ l1, ∃ x ∈ l, R x y := by
  induction h with
  | nil => simp
  | cons hab _ ih =>
    intro y hy
    rcases List.mem_cons.1 hy with rfl | hy
    · exact ⟨_, List.mem_cons_self _ _, hab⟩
    · obtain ⟨x, hx, hr⟩ := ih y hy
      exact ⟨x, List.mem_cons_of_mem _ hx, hr⟩

theorem send_message_to_block (B : behaviour) (x : pass_state × abstract_interface)
    (i : Nat) :
    ∃ evs, (message.send_message_to B x i).1.log = x.1.log ++ evs ∧
      (∀ ev ∈ evs, ev.recipient = some x.2.value) ∧
      (evs.filterMap event.index).Sublist [i] ∧
      (message.send_message_to B x i).2.value = x.2.value := by
  have hv := (send_message_to_evolves B x i).1
  rcases send_message_to_cases B x i with ⟨h, _⟩ | ⟨mi, new, _, _, _, hlog, _⟩
  · exact ⟨[], by rw [h]; simp, by simp, by simp, hv⟩
  · refine ⟨_, hlog, fun ev hev => (deliveries_are_deliveries i mi x.2 ev hev).2.1, ?_, hv⟩
    unfold event.deliveries
    cases mi.from_ <;> simp [event.delivery, event.index]

theorem send_message_block (B : behaviour) :
    ∀ (ready : List Nat) (x : pass_state × abstract_interface),
      ∃ evs, (ready.foldl (message.send_message_to B) x).1.log = x.1.log ++ evs ∧
        event.block ready x.2.value evs
  | [], x => ⟨[], by simp, by simp, by simp⟩
  | i :: rest, x => by
    obtain ⟨evs0, h1, h2, h3, h4⟩ := send_message_to_block B x i
    obtain ⟨evs1, h5, h6, h7⟩ := send_message_block B rest (message.send_message_to B x i)
    refine ⟨evs0 ++ evs1, ?_, ?_, ?_⟩
    · simp only [List.foldl_cons]
      rw [h5, h1, List.append_assoc]
    · intro ev hev
      rcases List.mem_append.1 hev with h | h
      · exact h2 ev h
      · rw [← h4]
        exact h6 ev h
    · rw [List.filterMap_append]
      exact h3.append h7

/-- The traversal of the delivery pass: what it adds to the log is, controller after
controller in pre-order, a block of invocations on that controller. -/
theorem traverse_blocks (B : behaviour) (ready : List Nat) (s : pass_state) (root : ptr) :
    ∃ blocks : List (List event),
      (transverse_depth_first (message.send_message B ready) s root).1.log
          = s.log ++ blocks.flatten ∧
        List.Forall₂ (event.block ready) (ids root) blocks := by
  have h := transverse_visits (message.send_message B ready)
    (fun a b l => ∃ blocks : List (List event), b.log = a.log ++ blocks.flatten ∧
      List.Forall₂ (event.block ready) (l.map (fun c => c.value)) blocks)
    (fun _ => True)
    (fun a => ⟨[], by simp, by simp⟩)
    (fun a b c l l1 h1 h2 => by
      obtain ⟨b1, hl1, hf1⟩ := h1
      obtain ⟨b2, hl2, hf2⟩ := h2
      refine ⟨b1 ++ b2, by rw [hl2, hl1, List.flatten_append, List.append_assoc], ?_⟩
      rw [List.map_append]
      exact List.rel_append hf1 hf2)
    (fun a d _ => ⟨by
      obtain ⟨evs, h1, h2⟩ := send_message_block B ready (a, d)
      exact ⟨[evs], by simpa [message.send_message] using h1,
        List.Forall₂.cons h2 List.Forall₂.nil⟩, rfl⟩)
    root s (fun _ _ => trivial)
  exact h

theorem no_blocks (ready : List Nat) :
    ∀ l : List Nat, List.Forall₂ (event.block ready) l (l.map (fun _ => [])) ∧
      (l.map (fun _ => ([] : List event))).flatten = []
  | [] => ⟨List.Forall₂.nil, rfl⟩
  | a :: l =>
    ⟨List.Forall₂.cons ⟨by simp, by simp⟩ (no_blocks ready l).1, by
      simp only [List.map_cons, List.flatten_cons, (no_blocks ready l).2, List.append_nil]⟩

/-- The invocations of `handle_message` of a step, as blocks. -/
theorem step_blocks (B : behaviour) (m : manager) :
    ∃ blocks : List (List event),
      (m.step B).2.filter event.is_delivery = blocks.flatten ∧
        List.Forall₂
          (event.block (message.ready_messages B.conditions
            (m.step_control B).1.message_manager.messages))
          (ids m.root_controller) blocks := by
  rw [← step_control_ids B m, step_log]
  unfold message.send_messages
  split
  · rw [control_log_no_delivery]
    exact ⟨_, (no_blocks [] _).2.symm, (no_blocks _ _).1⟩
  · simp only []
    split
    · rw [control_log_no_delivery]
      exact ⟨_, (no_blocks [] _).2.symm, (no_blocks _ _).1⟩
    · simp only []
      obtain ⟨blocks, h1, h2⟩ := traverse_blocks B
        (message.ready_messages B.conditions (m.step_control B).1.message_manager.messages)
        (m.step_control B).1 (m.step_control B).2
      refine ⟨blocks, ?_, h2⟩
      rw [h1, List.filter_append, control_log_no_delivery, List.nil_append,
        List.filter_eq_self]
      intro ev hev
      rw [List.mem_flatten] at hev
      obtain ⟨evs, hevs, hev⟩ := hev
      obtain ⟨c, _, hblock⟩ := forall₂_mem_right_pair _ _ _ h2 evs hevs
      have := hblock.1 ev hev
      cases ev with
      | control _ => simp [event.recipient] at this
      | handle_message _ _ _ _ _ => rfl

/-- C26: the invocations of `handle_message` of a step come in blocks, one for each
controller of the tree in pre-order: the invocations of a block are all on that controller
and the queue positions they are made for increase, so that a recipient gets its messages
in the order they were enqueued in and what an earlier controller gets comes before what a
later one gets. When the callbacks rename nothing, the block of a controller holds exactly
the invocations for the ready entries it is a recipient of. -/
theorem deliveries_are_controller_major (B : behaviour) (m : manager) :
    (∃ blocks : List (List event),
        (m.step B).2.filter event.is_delivery = blocks.flatten ∧
          List.Forall₂
            (event.block (message.ready_messages B.conditions
              (m.step_control B).1.message_manager.messages))
            (ids m.root_controller) blocks) ∧
      (message.ready_messages B.conditions
        (m.step_control B).1.message_manager.messages).Pairwise (fun i j => i < j) ∧
      (∃ new, (m.step_control B).1.message_manager.messages = m.queue ++ new) ∧
      (B.renames_nothing →
        (m.step B).2.filter event.is_delivery
          = (nodes m.root_controller).flatMap
              (event.visit_deliveries (m.step_control B).1.message_manager.messages
                (message.ready_messages B.conditions
                  (m.step_control B).1.message_manager.messages))) :=
  ⟨step_blocks B m, (List.pairwise_lt_range _).filter _, step_control_queue B m,
    fun hB => step_deliveries B hB m⟩

theorem deliveries_are_controller_major_witness :
    c2_behaviour.renames_nothing ∧
      (c26_manager.step c2_behaviour).2.filter event.is_delivery
        = [event.handle_message 0 1 "bye" [] 3,
            event.handle_message 1 0 "hi" [] 3, event.handle_message 1 1 "bye" [] 3,
            event.handle_message 2 0 "hi" [] 3, event.handle_message 2 1 "bye" [] 3,
            event.handle_message 3 1 "bye" [] 3] :=
  ⟨⟨fun _ => rfl, fun _ _ _ _ => rfl⟩,
    ((deliveries_are_controller_major c2_behaviour c26_manager).2.2.2
      ⟨fun _ => rfl, fun _ _ _ _ => rfl⟩).trans (by decide)⟩

end ncc.controller

namespace ncc.controller
open tree

mutual
theorem remove_by_id_copy_none (stored : id_type) :
    ∀ (t : ptr) (s : Nat), (∀ c ∈ nodes t, c.value < s) →
      (transverse_depth_first (remove_controller_by_id_copy stored) s t).2 = t ∧
        s ≤ (transverse_depth_first (remove_controller_by_id_copy stored) s t).1
  | .null, s, _ => by simp [transverse_depth_first]
  | .node d ch, s, h => by
    have hd : d.value < s := h d (by simp [nodes])
    have hne : (d.value == s + 1) = false := beq_false_of_ne (by omega)
    have hv : remove_controller_by_id_copy stored s d = (s + 2, d, true) := by
      simp [remove_controller_by_id_copy, id_type.copy, id_type.create_id,
        id_type.value_eq, abstract_interface.get_id, hne]
    obtain ⟨h1, h2⟩ := remove_by_id_copy_none_children stored ch (s + 2)
      (fun c hc => Nat.lt_of_lt_of_le (h c (by simp [nodes, hc])) (by omega))
    simp only [transverse_depth_first, hv, h1]
    exact ⟨trivial, by omega⟩
theorem remove_by_id_copy_none_children (stored : id_type) :
    ∀ (l : List ptr) (s : Nat), (∀ c ∈ nodes_children l, c.value < s) →
      (transverse_children (remove_controller_by_id_copy stored) s l).2 = l ∧
        s ≤ (transverse_children (remove_controller_by_id_copy stored) s l).1
  | [], s, _ => by simp [transverse_children]
  | x :: xs, s, h => by
    obtain ⟨h1, h2⟩ := remove_by_id_copy_none stored x s
      (fun c hc => h c (by simp [nodes_children, hc]))
    obtain ⟨h3, h4⟩ := remove_by_id_copy_none_children stored xs
      (transverse_depth_first (remove_controller_by_id_copy stored) s x).1
      (fun c hc => Nat.lt_of_lt_of_le (h c (by simp [nodes_children, hc])) h2)
    simp only [transverse_children, h1, h3]
    exact ⟨trivial, le_trans h2 h4⟩
end

/-- With every id of the tree issued by the counter, `remove_controller(id_type)` flags no
controller, whatever `id_type` object it is called with. -/
theorem remove_controller_id_type_flags_nothing (m : manager) (previous_id : Nat)
    (argument : id_type) (h : ∀ c ∈ nodes m.root_controller, c.value < previous_id) :
    (m.remove_controller_id_type previous_id argument).1.root_controller
      = m.root_controller := by
  simp only [manager.remove_controller_id_type, id_type.copy, id_type.create_id]
  exact (remove_by_id_copy_none _ _ _
    (fun c hc => Nat.lt_of_lt_of_le (h c hc) (by omega))).1

theorem child_in_preorder (c : abstract_interface) (cc : List ptr)
    (anc : List abstract_interface) :
    ∀ (l : List ptr), .node c cc ∈ l → (anc, some c) ∈ preorder_children anc l
  | [], h => by simp at h
  | x :: xs, h => by
    simp only [preorder_children, List.mem_append]
    rcases List.mem_cons.1 h with h | h
    · left
      rw [← h]
      simp [preorder]
    · exact Or.inr (child_in_preorder c cc anc xs h)

/-- A step keeps the root: the prune phase does not test it. -/
theorem step_keeps_root (B : behaviour) (m : manager) (r : abstract_interface)
    (ch : List ptr) (hroot : m.root_controller = .node r ch) :
    ∃ r1 ch1, (m.step B).1.root_controller = .node r1 ch1 ∧ evolves r r1 ∧
      ch1.map (fun c => c.data?)
        = ((m.step_deliver B).2.children.map (fun c => c.data?)).filter
            (fun o => !flagged_dead o) := by
  have hrel := step_deliver_related B m
  rw [hroot] at hrel
  simp only [related] at hrel
  obtain ⟨r1, ch1, heq, hev, _⟩ := hrel
  rw [step_root, heq]
  refine ⟨r1, _, rfl, hev, ?_⟩
  exact remove_if_children_data flagged_dead should_remove should_remove_eq ch1 ()

theorem steps_keep_root :
    ∀ (later : List behaviour) (m : manager) (r : abstract_interface) (ch : List ptr),
      m.root_controller = .node r ch →
      ∃ r1 ch1, (m.steps later).root_controller = .node r1 ch1 ∧ evolves r r1
  | [], m, r, ch, h => ⟨r, ch, h, evolves_refl r⟩
  | B :: rest, m, r, ch, h => by
    obtain ⟨r1, ch1, h1, hev, _⟩ := step_keeps_root B m r ch h
    obtain ⟨r2, ch2, h2, hev2⟩ := steps_keep_root rest (m.step B).1 r1 ch1 h1
    exact ⟨r2, ch2, h2, evolves_trans _ _ _ hev hev2⟩

theorem root_controlled (B : behaviour) (m : manager) (r : abstract_interface)
    (ch : List ptr) (hroot : m.root_controller = .node r ch) :
    control_calls (m.step B).2
      = r.value :: (preorder_children [r] ch).filterMap (control_reached B) := by
  rw [step_control_calls, hroot]
  simp [preorder, control_reached]

theorem root_children_controlled (B : behaviour) (m : manager) (r : abstract_interface)
    (ch : List ptr) (hroot : m.root_controller = .node r ch)
    (htrue : (B.control r).1 = true) (c : abstract_interface) (cc : List ptr)
    (hc : .node c cc ∈ ch) : c.value ∈ control_calls (m.step B).2 := by
  rw [root_controlled B m r ch hroot]
  refine List.mem_cons_of_mem _ (List.mem_filterMap.2 ⟨([r], some c),
    child_in_preorder c cc [r] ch hc, ?_⟩)
  simp [control_reached, htrue]

/-- C28: a root whose liveness flag is false is never excised: `step()` leaves it in the
tree with those of its children that are neither null nor flagged dead when the prune phase
runs, invokes `control()` on it first and, when that returns `true` (as the `control()` of
the root class does), on each of its children, and so does every later step. On the value
it compares with, `remove_controller_by_id` flags a root with that id and visits none of
its children. But `remove_controller(id_type)` called with the `id_type` of the root, or
any other, compares with the value of a copy, which is the value of no controller, and
flags nothing. -/
theorem dead_root_is_never_excised (B : behaviour) (m : manager) (r : abstract_interface)
    (ch : List ptr) (hroot : m.root_controller = .node r ch) (hdead : r.is_alive = false) :
    (∃ r1 ch1, (m.step B).1.root_controller = .node r1 ch1 ∧ r1.get_id = r.get_id ∧
        r1.is_alive = false ∧
        ch1.map (fun c => c.data?)
          = ((m.step_deliver B).2.children.map (fun c => c.data?)).filter
              (fun o => !flagged_dead o)) ∧
      control_calls (m.step B).2
        = r.value :: (preorder_children [r] ch).filterMap (control_reached B) ∧
      ((B.control r).1 = true →
        ∀ c cc, .node c cc ∈ ch → c.value ∈ control_calls (m.step B).2) ∧
      (∀ (later : List behaviour) (B1 : behaviour),
        ∃ r2 ch2, (m.steps later).root_controller = .node r2 ch2 ∧ r2.get_id = r.get_id ∧
          r2.is_alive = false ∧
          control_calls ((m.steps later).step B1).2
            = r.value :: (preorder_children [r2] ch2).filterMap (control_reached B1) ∧
          ((B1.control r2).1 = true →
            ∀ c cc, .node c cc ∈ ch2 → c.value ∈ control_calls ((m.steps later).step B1).2)) ∧
      (∀ (m0 : manager) (r0 : abstract_interface) (ch0 : List ptr),
        m0.root_controller = .node r0 ch0 →
          (m0.remove_controller_id r0.get_id).root_controller = .node r0.remove_self ch0) ∧
      ∀ (m0 : manager) (previous_id : Nat) (argument : id_type),
        (∀ c ∈ nodes m0.root_controller, c.get_id < previous_id) →
          (m0.remove_controller_id_type previous_id argument).1.root_controller
            = m0.root_controller := by
  refine ⟨?_, root_controlled B m r ch hroot, root_children_controlled B m r ch hroot, ?_, ?_,
    fun m0 p a h => remove_controller_id_type_flags_nothing m0 p a h⟩
  · obtain ⟨r1, ch1, h1, hev, h2⟩ := step_keeps_root B m r ch hroot
    exact ⟨r1, ch1, h1, hev.1, hev.2.2.2 hdead, h2⟩
  · intro later B1
    obtain ⟨r2, ch2, h2, hev⟩ := steps_keep_root later m r ch hroot
    refine ⟨r2, ch2, h2, hev.1, hev.2.2.2 hdead, ?_, ?_⟩
    · rw [root_controlled B1 _ r2 ch2 h2, hev.1]
    · exact root_children_controlled B1 _ r2 ch2 h2
  · intro m0 r0 ch0 h0
    simp [manager.remove_controller_id, h0, transverse_depth_first, remove_controller_by_id,
      remove_controller]

theorem dead_root_is_never_excised_witness :
    c28_manager.root_controller = .node c28_root [.node c3_child []] ∧
      c28_root.is_alive = false ∧
      control_calls (c28_manager.step c2_behaviour).2 = [0, 1] ∧
      (c3_manager.remove_controller_id 0).root_controller = c28_manager.root_controller ∧
      (c3_manager.remove_controller_id_type 2 ⟨0⟩).1.root_controller
        = c3_manager.root_controller :=
  ⟨rfl, rfl,
    ((dead_root_is_never_excised c2_behaviour c28_manager c28_root [.node c3_child []] rfl
      rfl).2.1).trans (by decide),
    rfl, rfl⟩

end ncc.controller
